import Mathlib

/-!
# Handle-based binary heap (`heap.h`)

A shallow embedding of the class template `Heap<T, Compare>` and of the free
functions `copySorted` / `toSortedVector`, followed by theorems about them.

Modelling conventions
* `std::vector<std::pair<T, std::list<size_t>::iterator>> mHeapData` is a
  `List (T × Nat)`: the second component is the identity of the list node the
  iterator points to.
* `std::list<size_t> mValPos` is a `List (Nat × Nat)` of nodes
  `(identity, stored position)` in list order.  Node identities are handed out
  by a counter (`nextNode`), which stands for the allocator: a fresh node never
  shares its identity with an earlier node.
* `size_t` is 64 bits wide, `unsigned` and `int` are 32 bits wide; the index
  helpers reduce modulo `2^64` and `2^32` exactly where the C++ code converts.
* Reading through an iterator that refers to no node, or indexing the vector
  out of range, is undefined behaviour in C++; the public operations that can do
  so return `Option`, with `none` standing for that case.
* The recursive sift routines are given fuel equal to the size of the array,
  which is never exhausted (see `bubbleUpFuel_stable`, `bubbleDownFuel_stable`).
-/

namespace HeapModel

/-! ## Machine integers -/

/-- Reduction of a natural number to the range of `size_t` (64 bit). -/
def toSizeT (n : Nat) : Nat := n % 2 ^ 64

/-- Conversion of a `size_t` value to `unsigned` (32 bit). -/
def toUnsigned (n : Nat) : Nat := n % 2 ^ 32

/-- Conversion of a `size_t` value to `int` (32 bit, two's complement). -/
def toInt (n : Nat) : Int :=
  if n % 2 ^ 32 < 2 ^ 31 then ((n % 2 ^ 32 : Nat) : Int) else ((n % 2 ^ 32 : Nat) : Int) - 2 ^ 32

/-! ## Data model -/

/-- The member type `Heap::Handle`: a list iterator, `none` when default constructed. -/
structure Handle where
  mIter : Option Nat
  deriving DecidableEq, Repr

/-- The data members of `Heap<T, Compare>` together with the node allocator. -/
structure Heap (T : Type) where
  mHeapData : List (T × Nat)
  mValPos : List (Nat × Nat)
  nextNode : Nat
  deriving Repr

/-- Read through a list iterator: the value stored in the node with identity `it`. -/
def nodeGet : List (Nat × Nat) → Nat → Option Nat
  | [], _ => none
  | (k, p) :: rest, it => if k = it then some p else nodeGet rest it

/-- Write through a list iterator: `*it = v`. -/
def nodeSet : List (Nat × Nat) → Nat → Nat → List (Nat × Nat)
  | [], _, _ => []
  | (k, p) :: rest, it, v => if k = it then (k, v) :: rest else (k, p) :: nodeSet rest it v

/-- The call `std::list::erase(it)`: unlink the node with identity `it`. -/
def nodeErase : List (Nat × Nat) → Nat → List (Nat × Nat)
  | [], _ => []
  | (k, p) :: rest, it => if k = it then rest else (k, p) :: nodeErase rest it

variable {T : Type}

/-- `Heap::size`. -/
def Heap.size (h : Heap T) : Nat := h.mHeapData.length

/-- `Heap::empty`. -/
def Heap.empty (h : Heap T) : Bool := h.mHeapData.isEmpty

/-- The default constructor `Heap()`; `n` is the state of the node allocator. -/
def Heap.mkEmpty (n : Nat) : Heap T := ⟨[], [], n⟩

/-- `Heap::getValAtPos`; `none` when `index` is out of range. -/
def Heap.getValAtPos (h : Heap T) (index : Nat) : Option T :=
  (h.mHeapData[index]?).map Prod.fst

/-- The expression `*h.mIter`. -/
def Heap.deref (h : Heap T) (hd : Handle) : Option Nat :=
  hd.mIter.bind (nodeGet h.mValPos)

/-- `Heap::swapElementsAtIndices`. -/
def Heap.swapElementsAtIndices (h : Heap T) (first second : Nat) : Heap T :=
  if first = second then h
  else
    match h.mHeapData[first]?, h.mHeapData[second]? with
    | some a, some b =>
      { h with
        mValPos := nodeSet (nodeSet h.mValPos a.2 second) b.2 first
        mHeapData := (h.mHeapData.set first b).set second a }
    | _, _ => h

/-- `Heap::getLeftChildOf`: `2 * index + 1` in `size_t`, returned as `unsigned`. -/
def getLeftChildOf (index : Nat) : Nat := toUnsigned (toSizeT (2 * index + 1))

/-- `Heap::getRightChildOf`: `2 * index + 2` in `size_t`, returned as `unsigned`. -/
def getRightChildOf (index : Nat) : Nat := toUnsigned (toSizeT (2 * index + 2))

/-- `Heap::getParentOf`: `(index - 1) / 2` in `size_t`, returned as `unsigned`. -/
def getParentOf (index : Nat) : Nat := toUnsigned (toSizeT (index + 2 ^ 64 - 1) / 2)

/-- `Heap::bubbleUp`, with the recursion depth bounded by the fuel. -/
def bubbleUpFuel (cmp : T → T → Bool) : Nat → Heap T → Nat → Heap T
  | 0, h, _ => h
  | fuel + 1, h, index =>
    if index ≤ 0 ∨ index ≥ h.size then h
    else
      let parent := getParentOf index
      match h.getValAtPos index, h.getValAtPos parent with
      | some a, some b =>
        if !cmp a b then
          bubbleUpFuel cmp fuel (h.swapElementsAtIndices index parent) parent
        else h
      | _, _ => h

/-- `Heap::bubbleUp`. -/
def bubbleUp (cmp : T → T → Bool) (h : Heap T) (index : Nat) : Heap T :=
  bubbleUpFuel cmp h.size h index

/-- The child selection of `Heap::bubbleDown`: the value of `selectedChild`
    after the two `if` statements. -/
def selectChild (cmp : T → T → Bool) (h : Heap T) (index : Nat) : Nat :=
  let leftChild := getLeftChildOf index
  let rightChild := getRightChildOf index
  let selectedChild := index
  let selectedChild :=
    if leftChild < h.size then
      match h.getValAtPos leftChild, h.getValAtPos selectedChild with
      | some a, some b => if !cmp a b then leftChild else selectedChild
      | _, _ => selectedChild
    else selectedChild
  let selectedChild :=
    if rightChild < h.size then
      match h.getValAtPos rightChild, h.getValAtPos selectedChild with
      | some a, some b => if !cmp a b then rightChild else selectedChild
      | _, _ => selectedChild
    else selectedChild
  selectedChild

/-- `Heap::bubbleDown`, with the recursion depth bounded by the fuel. -/
def bubbleDownFuel (cmp : T → T → Bool) : Nat → Heap T → Nat → Heap T
  | 0, h, _ => h
  | fuel + 1, h, index =>
    if index ≥ h.size then h
    else
      let selectedChild := selectChild cmp h index
      if selectedChild ≠ index then
        bubbleDownFuel cmp fuel (h.swapElementsAtIndices index selectedChild) selectedChild
      else h

/-- `Heap::bubbleDown`. -/
def bubbleDown (cmp : T → T → Bool) (h : Heap T) (index : Nat) : Heap T :=
  bubbleDownFuel cmp h.size h index

/-- The loop of `Heap::buildHeap`; the first argument is `i + 1` for the loop
    variable `i`, so `0` is the exit condition `i < 0`. -/
def buildHeapLoop (cmp : T → T → Bool) : Nat → Heap T → Heap T
  | 0, h => h
  | i + 1, h => buildHeapLoop cmp i (bubbleDown cmp h i)

/-- The initial value of the loop variable of `Heap::buildHeap`:
    `int i = (mHeapData.size() - 1) / 2`. -/
def buildHeapStart (h : Heap T) : Int := toInt (toSizeT (h.size + 2 ^ 64 - 1) / 2)

/-- `Heap::buildHeap`. -/
def buildHeap (cmp : T → T → Bool) (h : Heap T) : Heap T :=
  if 0 ≤ buildHeapStart h then buildHeapLoop cmp ((buildHeapStart h).toNat + 1) h else h

/-- `Heap::updateOp`. -/
def updateOp (cmp : T → T → Bool) (h : Heap T) (hd : Handle) (value : T) : Option (Heap T) :=
  match h.deref hd with
  | none => none
  | some pos =>
    match h.mHeapData[pos]? with
    | none => none
    | some e =>
      let h1 : Heap T := { h with mHeapData := h.mHeapData.set pos (value, e.2) }
      some (bubbleUp cmp (bubbleDown cmp h1 pos) pos)

/-- `Heap::insertOp`: the new handle and the heap afterwards. -/
def insertOp (cmp : T → T → Bool) (h : Heap T) (value : T) : Handle × Heap T :=
  let result : Handle := ⟨some h.nextNode⟩
  let h1 : Heap T :=
    { mValPos := h.mValPos ++ [(h.nextNode, h.size)]
      mHeapData := h.mHeapData ++ [(value, h.nextNode)]
      nextNode := h.nextNode + 1 }
  (result, bubbleUp cmp h1 (h1.size - 1))

/-- The copy constructor `Heap(const Heap&)`.  The nodes of the copy are newly
    allocated: their identities start at the allocator state of `other`, so no
    handle of `other` refers to a node of the copy. -/
def Heap.copy (other : Heap T) : Heap T :=
  { mHeapData := other.mHeapData.enum.map (fun p => (p.2.1, other.nextNode + p.1))
    mValPos := (List.range other.mHeapData.length).map (fun i => (other.nextNode + i, i))
    nextNode := other.nextNode + other.mHeapData.length }

/-- The loading loop of the range constructor, before `buildHeap`; `n` is the
    state of the node allocator. -/
def Heap.load (n : Nat) (l : List T) : Heap T :=
  { mHeapData := l.enum.map (fun p => (p.2, n + p.1))
    mValPos := (List.range l.length).map (fun i => (n + i, toUnsigned i))
    nextNode := n + l.length }

/-- The range constructor `Heap(Iterator begin, Iterator end)` and the
    initializer-list constructor that delegates to it. -/
def Heap.ofRange (cmp : T → T → Bool) (n : Nat) (l : List T) : Heap T :=
  buildHeap cmp (Heap.load n l)

/-- `Heap::swap`. -/
def Heap.swap (a b : Heap T) : Heap T × Heap T := (b, a)

/-- `Heap::top`; `none` on the empty heap. -/
def top (h : Heap T) : Option T := h.getValAtPos 0

/-- `Heap::topHandle`; `none` on the empty heap. -/
def topHandle (h : Heap T) : Option Handle :=
  (h.mHeapData[0]?).map (fun e => ⟨some e.2⟩)

/-- `Heap::insert` (both overloads). -/
def insert (cmp : T → T → Bool) (h : Heap T) (value : T) : Handle × Heap T :=
  insertOp cmp h value

/-- `Heap::get`. -/
def get (h : Heap T) (hd : Handle) : Option T :=
  (h.deref hd).bind h.getValAtPos

/-- `Heap::update` (both overloads). -/
def update (cmp : T → T → Bool) (h : Heap T) (hd : Handle) (value : T) : Option (Heap T) :=
  if h.empty then some h else updateOp cmp h hd value

/-- `Heap::erase`. -/
def erase (cmp : T → T → Bool) (h : Heap T) (hd : Handle) : Option (Heap T) :=
  if h.empty then some h
  else
    match hd.mIter, h.deref hd with
    | some it, some p =>
      let position := toUnsigned p
      let h1 := h.swapElementsAtIndices position (h.size - 1)
      let h2 : Heap T := { h1 with mValPos := nodeErase h1.mValPos it }
      let h3 : Heap T := { h2 with mHeapData := h2.mHeapData.dropLast }
      some (bubbleUp cmp (bubbleDown cmp h3 position) position)
    | _, _ => none

/-- `Heap::pop`. -/
def pop (cmp : T → T → Bool) (h : Heap T) : Option (Heap T) :=
  if !h.empty then (topHandle h).bind (erase cmp h) else some h

/-- The loop of `copySorted`; the accumulator is what has been written to the
    output iterator so far.  `none` when the fuel runs out or a step is undefined. -/
def copySortedFuel (cmp : T → T → Bool) : Nat → Heap T → List T → Option (List T)
  | 0, h, out => if h.empty then some out else none
  | fuel + 1, h, out =>
    if h.empty then some out
    else
      match top h, pop cmp h with
      | some t, some h' => copySortedFuel cmp fuel h' (out ++ [t])
      | _, _ => none

/-- `copySorted`: the sequence assigned to the output iterator. -/
def copySorted (cmp : T → T → Bool) (h : Heap T) : Option (List T) :=
  copySortedFuel cmp h.size h []

/-- `toSortedVector`. -/
def toSortedVector (cmp : T → T → Bool) (h : Heap T) : Option (List T) :=
  copySorted cmp h

/-- The comparator of `MaxHeap<int>`: `std::less<int>`. -/
def lessInt (a b : Int) : Bool := decide (a < b)

/-- The comparator of `MinHeap<int>`: `std::greater<int>`. -/
def greaterInt (a b : Int) : Bool := decide (a > b)

/-- Inserting the elements of a list one by one, collecting the handles. -/
def insertAll (cmp : T → T → Bool) : Heap T → List T → List Handle × Heap T
  | h, [] => ([], h)
  | h, v :: vs =>
    let r := insert cmp h v
    let rest := insertAll cmp r.2 vs
    (r.1 :: rest.1, rest.2)


/-- `Handle::operator==`: equality of the iterators. -/
def Handle.eq (a o : Handle) : Bool := decide (a.mIter = o.mIter)

/-- `Handle::operator!=`: `!(*this == o)`. -/
def Handle.ne (a o : Handle) : Bool := !(a.eq o)

/-- `PairCompare<A, B, Cmp>::operator()`, the comparator of `PriorityQueue`. -/
def PairCompare {A B : Type} (cmp : A → A → Bool) (a b : A × B) : Bool := cmp a.1 b.1

/-! ## Specification vocabulary -/

/-- Well-formedness of the registry with respect to the array: node identities
    are pairwise distinct, there are as many nodes as slots, the back-link of
    the slot at index `i` refers to a node that stores `i`, and every identity
    in use was handed out by the allocator. -/
structure WF (h : Heap T) : Prop where
  nodup : (h.mValPos.map Prod.fst).Nodup
  length_eq : h.mValPos.length = h.mHeapData.length
  link : ∀ i e, h.mHeapData[i]? = some e → nodeGet h.mValPos e.2 = some i
  fresh : ∀ k ∈ h.mValPos.map Prod.fst, k < h.nextNode

/-- The heap `h'` arises from `h` by exchanging slots: same size, same
    allocator state, same node identities, the same slots up to order, and a
    well-formed registry if `h` had one. -/
structure Shuffled (h h' : Heap T) : Prop where
  size_eq : h'.size = h.size
  nextNode_eq : h'.nextNode = h.nextNode
  keys_eq : h'.mValPos.map Prod.fst = h.mValPos.map Prod.fst
  perm : List.Perm h'.mHeapData h.mHeapData
  wf : WF h → WF h'

/-- The requirements of C++ on `Compare`: a strict weak ordering. -/
structure StrictWeakOrder (cmp : T → T → Bool) : Prop where
  irrefl : ∀ a, cmp a a = false
  trans : ∀ a b c, cmp a b = true → cmp b c = true → cmp a c = true
  incomp_trans : ∀ a b c, cmp a b = false → cmp b a = false → cmp b c = false →
    cmp c b = false → cmp a c = false ∧ cmp c a = false

/-- The elements at positions `p` and `c` are in heap order: the one at `p`
    does not sort after the one at `c`. -/
def OkPair (cmp : T → T → Bool) (h : Heap T) (p c : Nat) : Prop :=
  ∀ a b, h.getValAtPos p = some a → h.getValAtPos c = some b → cmp a b = false

/-- The binary-heap property: every non-root position is in heap order with
    its parent position `(i - 1) / 2`. -/
def HeapOrdered (cmp : T → T → Bool) (h : Heap T) : Prop :=
  ∀ i, 0 < i → OkPair cmp h ((i - 1) / 2) i

/-- The state before `bubbleUp k`: heap order everywhere except possibly
    between `k` and its parent, and the parent of `k` is in heap order with the
    children of `k`. -/
def UpInv (cmp : T → T → Bool) (h : Heap T) (k : Nat) : Prop :=
  (∀ j, 0 < j → j ≠ k → OkPair cmp h ((j - 1) / 2) j) ∧
  (0 < k → ∀ c, 0 < c → (c - 1) / 2 = k → OkPair cmp h ((k - 1) / 2) c)

/-- The state before `bubbleDown k`, looking only at parents from position `m`
    on: heap order between all pairs that do not involve `k`, and the parent of
    `k` is in heap order with the children of `k`. -/
def DownInv (cmp : T → T → Bool) (m : Nat) (h : Heap T) (k : Nat) : Prop :=
  (∀ j, 0 < j → m ≤ (j - 1) / 2 → (j - 1) / 2 ≠ k → j ≠ k → OkPair cmp h ((j - 1) / 2) j) ∧
  (0 < k → m ≤ (k - 1) / 2 → ∀ c, 0 < c → (c - 1) / 2 = k → OkPair cmp h ((k - 1) / 2) c)

/-- The held elements, in array order. -/
def Heap.elems (h : Heap T) : List T := h.mHeapData.map Prod.fst

/-- The handle refers to a node of the registry of `h`: it is a valid handle
    of a held element. -/
def Heap.live (h : Heap T) (hd : Handle) : Prop := (h.deref hd).isSome = true

instance Heap.decidableLive (h : Heap T) (hd : Handle) : Decidable (h.live hd) :=
  inferInstanceAs (Decidable ((h.deref hd).isSome = true))

/-- The state of `insertOp` after `push_back`, before `bubbleUp`. -/
def Heap.pushBack (h : Heap T) (value : T) : Heap T :=
  { mValPos := h.mValPos ++ [(h.nextNode, h.size)]
    mHeapData := h.mHeapData ++ [(value, h.nextNode)]
    nextNode := h.nextNode + 1 }

/-- The state of `updateOp` after the assignment to the slot at `pos`, whose
    back-link is `it`, before the sifting. -/
def Heap.assign (h : Heap T) (pos : Nat) (value : T) (it : Nat) : Heap T :=
  { h with mHeapData := h.mHeapData.set pos (value, it) }

/-- The state of `erase` after the exchange with the last slot and the removal
    of the node `it` and of the last slot, before the sifting. -/
def Heap.removeAt (h : Heap T) (position it : Nat) : Heap T :=
  { mValPos := nodeErase (h.swapElementsAtIndices position (h.size - 1)).mValPos it
    mHeapData := (h.swapElementsAtIndices position (h.size - 1)).mHeapData.dropLast
    nextNode := (h.swapElementsAtIndices position (h.size - 1)).nextNode }

/-- The heaps a program can build, up to the capacity `2^31 - 1` below which
    the 32-bit index helpers are exact: start from an empty, range-constructed
    or copy-constructed heap and apply `insert`, `update` and `erase` on live
    handles, and `pop`. -/
inductive Reachable (cmp : T → T → Bool) : Heap T → Prop
  | empty (n : Nat) : Reachable cmp (Heap.mkEmpty n)
  | range (n : Nat) (l : List T) : l.length < 2 ^ 31 → Reachable cmp (Heap.ofRange cmp n l)
  | copy {h : Heap T} : Reachable cmp h → Reachable cmp h.copy
  | insert {h : Heap T} (v : T) :
      Reachable cmp h → h.size + 1 < 2 ^ 31 → Reachable cmp (insert cmp h v).2
  | update {h h' : Heap T} (hd : Handle) (v : T) :
      Reachable cmp h → h.live hd → update cmp h hd v = some h' → Reachable cmp h'
  | erase {h h' : Heap T} (hd : Handle) :
      Reachable cmp h → h.live hd → erase cmp h hd = some h' → Reachable cmp h'
  | pop {h h' : Heap T} : Reachable cmp h → pop cmp h = some h' → Reachable cmp h'

/-- The test helper `getRange(0, n)` of `testsAdvanced.cpp`: `0, 1, ..., n`. -/
def rangeUpTo (n : Nat) : List Int := (List.range (n + 1)).map (fun (k : Nat) => (k : Int))

/-- The loop `for (auto j : handles) heap.update(j, -heap.get(j))` of the test
    case "Ops with more data - MaxHeap" / Update. -/
def negateAll (cmp : Int → Int → Bool) : Heap Int → List Handle → Option (Heap Int)
  | h, [] => some h
  | h, j :: js =>
    match get h j with
    | none => none
    | some v =>
      match update cmp h j (-v) with
      | none => none
      | some h' => negateAll cmp h' js

/-- The heap of that test case after the insertions of `0..n` and the
    negating updates. -/
def negatedHeap (n : Nat) : Option (Heap Int) :=
  negateAll lessInt (insertAll lessInt (Heap.mkEmpty 0) (rangeUpTo n)).2
    (insertAll lessInt (Heap.mkEmpty 0) (rangeUpTo n)).1

/-- The steps `top(); pop();` of the test case "Sequential pop" repeated `k`
    times: the values `top()` returned, in order, and the heap afterwards. -/
def topPopN (cmp : T → T → Bool) : Nat → Heap T → Option (List T × Heap T)
  | 0, h => some ([], h)
  | k + 1, h =>
    match top h, pop cmp h with
    | some t, some h' =>
      match topPopN cmp k h' with
      | some (ts, h'') => some (t :: ts, h'')
      | none => none
    | _, _ => none

/-- The number of calls of `swapElementsAtIndices` that `bubbleUp` makes: the
    recursion of `bubbleUpFuel`, counting instead of swapping back. -/
def bubbleUpSwapsFuel (cmp : T → T → Bool) : Nat → Heap T → Nat → Nat
  | 0, _, _ => 0
  | fuel + 1, h, index =>
    if index ≤ 0 ∨ index ≥ h.size then 0
    else
      let parent := getParentOf index
      match h.getValAtPos index, h.getValAtPos parent with
      | some a, some b =>
        if !cmp a b then
          bubbleUpSwapsFuel cmp fuel (h.swapElementsAtIndices index parent) parent + 1
        else 0
      | _, _ => 0

/-- The number of swaps of `bubbleUp(index)`. -/
def bubbleUpSwaps (cmp : T → T → Bool) (h : Heap T) (index : Nat) : Nat :=
  bubbleUpSwapsFuel cmp h.size h index

/-- The number of calls of `swapElementsAtIndices` that `bubbleDown` makes: the
    recursion of `bubbleDownFuel`, counting. -/
def bubbleDownSwapsFuel (cmp : T → T → Bool) : Nat → Heap T → Nat → Nat
  | 0, _, _ => 0
  | fuel + 1, h, index =>
    if index ≥ h.size then 0
    else
      let selectedChild := selectChild cmp h index
      if selectedChild ≠ index then
        bubbleDownSwapsFuel cmp fuel (h.swapElementsAtIndices index selectedChild)
          selectedChild + 1
      else 0

/-- The number of swaps of `bubbleDown(index)`. -/
def bubbleDownSwaps (cmp : T → T → Bool) (h : Heap T) (index : Nat) : Nat :=
  bubbleDownSwapsFuel cmp h.size h index

/-- Position `j` is `n` or is reached from `n` by at most `fuel` steps to the
    parent `(n - 1) / 2`. -/
def onPath : Nat → Nat → Nat → Bool
  | 0, j, n => j == n
  | fuel + 1, j, n => j == n || (n != 0 && onPath fuel j ((n - 1) / 2))

/-- Position `j` is `n` or an ancestor of `n`: one of `n`, `parent(n)`,
    `parent(parent(n))`, ..., `0`. -/
def onRootPath (j n : Nat) : Bool := onPath n j n

/-- The heaps `g` and `g'` have the same size and hold, position by position,
    elements that compare as equal: the comparator is false in both
    directions. -/
def SameUpToTies (cmp : T → T → Bool) (g g' : Heap T) : Prop :=
  g'.size = g.size ∧
  ∀ m x y, g.getValAtPos m = some x → g'.getValAtPos m = some y →
    cmp x y = false ∧ cmp y x = false

/-! ## Index arithmetic -/

theorem getLeftChildOf_eq {i : Nat} (hi : i < 2 ^ 31 - 1) : getLeftChildOf i = 2 * i + 1 := by
  unfold getLeftChildOf toUnsigned toSizeT
  omega

theorem getRightChildOf_eq {i : Nat} (hi : i < 2 ^ 31 - 1) : getRightChildOf i = 2 * i + 2 := by
  unfold getRightChildOf toUnsigned toSizeT
  omega

theorem getParentOf_eq {i : Nat} (h0 : 0 < i) (hi : i < 2 ^ 32) : getParentOf i = (i - 1) / 2 := by
  unfold getParentOf toUnsigned toSizeT
  omega

theorem getParentOf_lt {i : Nat} (h0 : 0 < i) : getParentOf i < i := by
  unfold getParentOf toUnsigned toSizeT
  omega

/-! ## Registry nodes -/

theorem nodeGet_eq_some_of_mem {reg : List (Nat × Nat)} (hnd : (reg.map Prod.fst).Nodup)
    {k p : Nat} (hm : (k, p) ∈ reg) : nodeGet reg k = some p := by
  induction reg with
  | nil => simp at hm
  | cons n rest ih =>
    obtain ⟨k', p'⟩ := n
    simp only [List.map_cons, List.nodup_cons] at hnd
    simp only [List.mem_cons, Prod.mk.injEq] at hm
    unfold nodeGet
    rcases hm with ⟨rfl, rfl⟩ | hm
    · simp
    · have hne : k' ≠ k := by
        intro he
        subst he
        exact hnd.1 (List.mem_map.mpr ⟨(k', p), hm, rfl⟩)
      simp [hne, ih hnd.2 hm]

theorem mem_of_nodeGet {reg : List (Nat × Nat)} {k p : Nat} (hg : nodeGet reg k = some p) :
    (k, p) ∈ reg := by
  induction reg with
  | nil => simp [nodeGet] at hg
  | cons n rest ih =>
    obtain ⟨k', p'⟩ := n
    unfold nodeGet at hg
    by_cases he : k' = k
    · simp [he] at hg
      simp [he, hg]
    · simp [he] at hg
      exact List.mem_cons_of_mem _ (ih hg)

theorem nodeSet_keys (reg : List (Nat × Nat)) (k v : Nat) :
    (nodeSet reg k v).map Prod.fst = reg.map Prod.fst := by
  induction reg with
  | nil => rfl
  | cons n rest ih =>
    obtain ⟨k', p'⟩ := n
    unfold nodeSet
    by_cases he : k' = k <;> simp [he, ih]

theorem nodeSet_length (reg : List (Nat × Nat)) (k v : Nat) :
    (nodeSet reg k v).length = reg.length := by
  have := congrArg List.length (nodeSet_keys reg k v)
  simpa using this

theorem nodeGet_nodeSet (reg : List (Nat × Nat)) (k v k' : Nat) :
    nodeGet (nodeSet reg k v) k' =
      if k' = k then (nodeGet reg k).map (fun _ => v) else nodeGet reg k' := by
  induction reg with
  | nil => simp [nodeSet, nodeGet]
  | cons n rest ih =>
    obtain ⟨k0, p0⟩ := n
    unfold nodeSet
    by_cases he : k0 = k
    · subst he
      by_cases he' : k' = k0
      · subst he'
        simp [nodeGet]
      · have : ¬ k0 = k' := fun h => he' h.symm
        simp [nodeGet, he', this]
    · by_cases he' : k0 = k'
      · subst he'
        have : ¬ k0 = k := he
        simp [nodeGet, he]
      · simp only [he, if_false, nodeGet, he', ih]

theorem nodeErase_keys_sublist (reg : List (Nat × Nat)) (k : Nat) :
    (nodeErase reg k).Sublist reg := by
  induction reg with
  | nil => exact List.Sublist.refl _
  | cons n rest ih =>
    obtain ⟨k0, p0⟩ := n
    unfold nodeErase
    by_cases he : k0 = k
    · simp [he]
    · simp only [he, if_false]
      exact ih.cons₂ _

theorem nodeGet_nodeErase {reg : List (Nat × Nat)} (hnd : (reg.map Prod.fst).Nodup)
    (k k' : Nat) :
    nodeGet (nodeErase reg k) k' = if k' = k then none else nodeGet reg k' := by
  induction reg with
  | nil => simp [nodeErase, nodeGet]
  | cons n rest ih =>
    obtain ⟨k0, p0⟩ := n
    simp only [List.map_cons, List.nodup_cons] at hnd
    unfold nodeErase
    by_cases he : k0 = k
    · subst he
      by_cases he' : k' = k0
      · subst he'
        simp only [if_true]
        cases hg : nodeGet rest k' with
        | none => rfl
        | some p =>
          exact absurd (List.mem_map.mpr ⟨(k', p), mem_of_nodeGet hg, rfl⟩) hnd.1
      · have : ¬ k0 = k' := fun h => he' h.symm
        simp [nodeGet, he', this]
    · by_cases he' : k0 = k'
      · subst he'
        simp [nodeGet, he]
      · simp only [he, if_false, nodeGet, he', ih hnd.2]

theorem nodeErase_length {reg : List (Nat × Nat)} {k p : Nat} (hg : nodeGet reg k = some p) :
    (nodeErase reg k).length + 1 = reg.length := by
  induction reg with
  | nil => simp [nodeGet] at hg
  | cons n rest ih =>
    obtain ⟨k0, p0⟩ := n
    unfold nodeErase
    unfold nodeGet at hg
    by_cases he : k0 = k
    · simp [he]
    · simp only [he, if_false] at hg
      simp [he, ih hg]

theorem nodeGet_append (reg : List (Nat × Nat)) (k p k' : Nat) :
    nodeGet (reg ++ [(k, p)]) k' =
      match nodeGet reg k' with
      | some q => some q
      | none => if k = k' then some p else none := by
  induction reg with
  | nil => simp [nodeGet]
  | cons n rest ih =>
    obtain ⟨k0, p0⟩ := n
    by_cases he : k0 = k'
    · simp [nodeGet, he]
    · have hstep : nodeGet ((k0, p0) :: (rest ++ [(k, p)])) k' = nodeGet (rest ++ [(k, p)]) k' := by
        simp [nodeGet, he]
      rw [List.cons_append, hstep, ih]
      simp [nodeGet, he]

theorem nodeGet_none_of_not_mem {reg : List (Nat × Nat)} {k : Nat}
    (hk : k ∉ reg.map Prod.fst) : nodeGet reg k = none := by
  cases hg : nodeGet reg k with
  | none => rfl
  | some p => exact absurd (List.mem_map.mpr ⟨(k, p), mem_of_nodeGet hg, rfl⟩) hk


/-! ## Exchanging two slots -/

theorem perm_set_set {α : Type} {l : List α} {i j : Nat} {a b : α}
    (hi : l[i]? = some a) (hj : l[j]? = some b) (hij : i ≠ j) :
    List.Perm ((l.set i b).set j a) l := by
  classical
  obtain ⟨hil, hia⟩ := List.getElem?_eq_some_iff.mp hi
  obtain ⟨hjl, hjb⟩ := List.getElem?_eq_some_iff.mp hj
  rw [List.perm_iff_count]
  intro x
  have hj' : j < (l.set i b).length := by simpa using hjl
  rw [List.count_set _ _ _ _ hj', List.count_set _ _ _ _ hil]
  have e1 : (l.set i b)[j] = b := by
    rw [List.getElem_set_ne hij]
    exact hjb
  rw [e1, hia]
  have ha : a ∈ l := List.mem_iff_getElem?.mpr ⟨i, hi⟩
  have hc : (if (a == x) = true then 1 else 0) ≤ List.count x l := by
    by_cases hax : a = x
    · subst hax
      simpa using List.count_pos_iff.mpr ha
    · simp [hax]
  omega

theorem WF.link_inj {h : Heap T} (w : WF h) {i j : Nat} {a b : T × Nat}
    (hi : h.mHeapData[i]? = some a) (hj : h.mHeapData[j]? = some b) (hab : a.2 = b.2) :
    i = j := by
  have h1 := w.link i a hi
  have h2 := w.link j b hj
  rw [hab, h2] at h1
  exact (Option.some.inj h1).symm

theorem getValAtPos_eq_some {h : Heap T} {i : Nat} {v : T} :
    h.getValAtPos i = some v ↔ ∃ k, h.mHeapData[i]? = some (v, k) := by
  unfold Heap.getValAtPos
  constructor
  · intro hv
    cases he : h.mHeapData[i]? with
    | none => simp [he] at hv
    | some e =>
      simp only [he, Option.map_some', Option.some.injEq] at hv
      exact ⟨e.2, by rw [← hv]⟩
  · rintro ⟨k, hk⟩
    simp [hk]

theorem getValAtPos_isSome {h : Heap T} {i : Nat} (hi : i < h.size) :
    ∃ v, h.getValAtPos i = some v := by
  unfold Heap.getValAtPos
  unfold Heap.size at hi
  exact ⟨(h.mHeapData[i]).1, by simp [List.getElem?_eq_getElem hi]⟩

theorem lt_size_of_getValAtPos {h : Heap T} {i : Nat} {v : T}
    (hv : h.getValAtPos i = some v) : i < h.size := by
  obtain ⟨k, hk⟩ := getValAtPos_eq_some.mp hv
  exact (List.getElem?_eq_some_iff.mp hk).1

theorem swap_size (h : Heap T) (i j : Nat) : (h.swapElementsAtIndices i j).size = h.size := by
  unfold Heap.swapElementsAtIndices Heap.size
  split
  · rfl
  · split <;> simp

theorem swap_nextNode (h : Heap T) (i j : Nat) :
    (h.swapElementsAtIndices i j).nextNode = h.nextNode := by
  unfold Heap.swapElementsAtIndices
  split
  · rfl
  · split <;> rfl

theorem swap_keys (h : Heap T) (i j : Nat) :
    (h.swapElementsAtIndices i j).mValPos.map Prod.fst = h.mValPos.map Prod.fst := by
  unfold Heap.swapElementsAtIndices
  split
  · rfl
  · split
    · simp [nodeSet_keys]
    · rfl

theorem swap_perm (h : Heap T) (i j : Nat) :
    List.Perm (h.swapElementsAtIndices i j).mHeapData h.mHeapData := by
  unfold Heap.swapElementsAtIndices
  split
  · exact List.Perm.refl _
  · rename_i hij
    split
    · rename_i a b ha hb
      exact perm_set_set ha hb hij
    · exact List.Perm.refl _

theorem swap_data (h : Heap T) {i j : Nat} (hi : i < h.size) (hj : j < h.size) (m : Nat) :
    (h.swapElementsAtIndices i j).mHeapData[m]? =
      if m = i then h.mHeapData[j]? else if m = j then h.mHeapData[i]? else h.mHeapData[m]? := by
  unfold Heap.size at hi hj
  unfold Heap.swapElementsAtIndices
  by_cases hij : i = j
  · subst hij
    by_cases hm : m = i
    · simp [hm]
    · simp [hm]
  · simp only [hij, if_false, List.getElem?_eq_getElem hi, List.getElem?_eq_getElem hj]
    simp only [List.getElem?_set, List.length_set]
    by_cases hmi : m = i
    · subst hmi
      have : ¬ j = m := fun e => hij e.symm
      simp [this, hi]
    · by_cases hmj : m = j
      · subst hmj
        simp [hmi, hj]
      · have h1 : ¬ j = m := fun e => hmj e.symm
        have h2 : ¬ i = m := fun e => hmi e.symm
        simp [hmi, hmj, h1, h2]

theorem swap_val (h : Heap T) {i j : Nat} (hi : i < h.size) (hj : j < h.size) (m : Nat) :
    (h.swapElementsAtIndices i j).getValAtPos m =
      if m = i then h.getValAtPos j else if m = j then h.getValAtPos i else h.getValAtPos m := by
  unfold Heap.getValAtPos
  rw [swap_data h hi hj m]
  split
  · rfl
  · split <;> rfl

theorem swap_WF {h : Heap T} (w : WF h) (i j : Nat) : WF (h.swapElementsAtIndices i j) := by
  by_cases hij : i = j
  · unfold Heap.swapElementsAtIndices
    simpa [hij] using w
  by_cases hi : i < h.size
  swap
  · unfold Heap.swapElementsAtIndices
    unfold Heap.size at hi
    have : h.mHeapData[i]? = none := List.getElem?_eq_none (by omega)
    simpa [hij, this] using w
  by_cases hj : j < h.size
  swap
  · unfold Heap.swapElementsAtIndices
    unfold Heap.size at hj
    have : h.mHeapData[j]? = none := List.getElem?_eq_none (by omega)
    simp only [hij, if_false, this]
    split
    · rename_i hx
      exact absurd hx (by simp)
    · exact w
  have hdata := swap_data h hi hj
  have hsz := swap_size h i j
  have hkeys := swap_keys h i j
  obtain ⟨a, ha⟩ : ∃ a, h.mHeapData[i]? = some a :=
    ⟨_, List.getElem?_eq_getElem (by simpa [Heap.size] using hi)⟩
  obtain ⟨b, hb⟩ : ∃ b, h.mHeapData[j]? = some b :=
    ⟨_, List.getElem?_eq_getElem (by simpa [Heap.size] using hj)⟩
  have hreg : (h.swapElementsAtIndices i j).mValPos =
      nodeSet (nodeSet h.mValPos a.2 j) b.2 i := by
    unfold Heap.swapElementsAtIndices
    simp [hij, ha, hb]
  have hab : a.2 ≠ b.2 := fun e => hij (w.link_inj ha hb e)
  refine ⟨?_, ?_, ?_, ?_⟩
  · rw [hkeys]
    exact w.nodup
  · have := congrArg List.length hkeys
    simp only [List.length_map] at this
    rw [this, w.length_eq]
    exact hsz.symm
  · intro m e he
    rw [hdata m] at he
    simp only [hreg, nodeGet_nodeSet]
    by_cases hmi : m = i
    · rw [if_pos hmi, hb] at he
      have he' : e = b := (Option.some.inj he).symm
      subst he'
      have hba : ¬ e.2 = a.2 := fun e' => hab e'.symm
      simp [hba, w.link j e hb, hmi]
    · by_cases hmj : m = j
      · rw [if_neg hmi, if_pos hmj, ha] at he
        have he' : e = a := (Option.some.inj he).symm
        subst he'
        simp [hab, w.link i e ha, hmj]
      · simp only [hmi, hmj, if_false] at he
        have h1 : e.2 ≠ b.2 := fun e' => hmj (w.link_inj he hb e')
        have h2 : e.2 ≠ a.2 := fun e' => hmi (w.link_inj he ha e')
        simp [h1, h2, w.link m e he]
  · rw [hkeys, swap_nextNode]
    exact w.fresh


/-! ## What the sift routines leave alone -/

theorem Shuffled.refl (h : Heap T) : Shuffled h h :=
  ⟨rfl, rfl, rfl, List.Perm.refl _, id⟩

theorem Shuffled.trans {h₁ h₂ h₃ : Heap T} (a : Shuffled h₁ h₂) (b : Shuffled h₂ h₃) :
    Shuffled h₁ h₃ :=
  ⟨b.size_eq.trans a.size_eq, b.nextNode_eq.trans a.nextNode_eq, b.keys_eq.trans a.keys_eq,
    b.perm.trans a.perm, fun w => b.wf (a.wf w)⟩

theorem swap_shuffled (h : Heap T) (i j : Nat) : Shuffled h (h.swapElementsAtIndices i j) :=
  ⟨swap_size h i j, swap_nextNode h i j, swap_keys h i j, swap_perm h i j, fun w => swap_WF w i j⟩

theorem bubbleUpFuel_shuffled (cmp : T → T → Bool) (fuel : Nat) (h : Heap T) (i : Nat) :
    Shuffled h (bubbleUpFuel cmp fuel h i) := by
  induction fuel generalizing h i with
  | zero => exact Shuffled.refl h
  | succ fuel ih =>
    unfold bubbleUpFuel
    split
    · exact Shuffled.refl h
    · dsimp only
      split
      · split
        · exact (swap_shuffled h _ _).trans (ih _ _)
        · exact Shuffled.refl h
      · exact Shuffled.refl h

theorem bubbleUp_shuffled (cmp : T → T → Bool) (h : Heap T) (i : Nat) :
    Shuffled h (bubbleUp cmp h i) :=
  bubbleUpFuel_shuffled cmp _ h i

theorem bubbleDownFuel_shuffled (cmp : T → T → Bool) (fuel : Nat) (h : Heap T) (i : Nat) :
    Shuffled h (bubbleDownFuel cmp fuel h i) := by
  induction fuel generalizing h i with
  | zero => exact Shuffled.refl h
  | succ fuel ih =>
    unfold bubbleDownFuel
    split
    · exact Shuffled.refl h
    · dsimp only
      split
      · exact (swap_shuffled h _ _).trans (ih _ _)
      · exact Shuffled.refl h

theorem bubbleDown_shuffled (cmp : T → T → Bool) (h : Heap T) (i : Nat) :
    Shuffled h (bubbleDown cmp h i) :=
  bubbleDownFuel_shuffled cmp _ h i

theorem buildHeapLoop_shuffled (cmp : T → T → Bool) (n : Nat) (h : Heap T) :
    Shuffled h (buildHeapLoop cmp n h) := by
  induction n generalizing h with
  | zero => exact Shuffled.refl h
  | succ n ih =>
    unfold buildHeapLoop
    exact (bubbleDown_shuffled cmp h n).trans (ih _)

theorem buildHeap_shuffled (cmp : T → T → Bool) (h : Heap T) :
    Shuffled h (buildHeap cmp h) := by
  unfold buildHeap
  split
  · exact buildHeapLoop_shuffled cmp _ h
  · exact Shuffled.refl h

/-! ## Strict weak orderings -/

theorem StrictWeakOrder.asymm {cmp : T → T → Bool} (s : StrictWeakOrder cmp) {a b : T}
    (hab : cmp a b = true) : cmp b a = false := by
  cases hba : cmp b a with
  | false => rfl
  | true =>
    have := s.trans a b a hab hba
    rw [s.irrefl a] at this
    exact absurd this (by simp)

theorem StrictWeakOrder.negTrans {cmp : T → T → Bool} (s : StrictWeakOrder cmp) {a b c : T}
    (hab : cmp a b = false) (hbc : cmp b c = false) : cmp a c = false := by
  cases hac : cmp a c with
  | false => rfl
  | true =>
    exfalso
    cases hba : cmp b a with
    | true =>
      have := s.trans b a c hba hac
      rw [hbc] at this
      exact absurd this (by simp)
    | false =>
      cases hcb : cmp c b with
      | true =>
        have := s.trans a c b hac hcb
        rw [hab] at this
        exact absurd this (by simp)
      | false =>
        have := (s.incomp_trans a b c hab hba hbc hcb).1
        rw [hac] at this
        exact absurd this (by simp)

theorem lessInt_strictWeakOrder : StrictWeakOrder lessInt := by
  refine ⟨?_, ?_, ?_⟩
  · intro a
    simp [lessInt]
  · intro a b c
    simp only [lessInt, decide_eq_true_eq]
    omega
  · intro a b c
    simp only [lessInt, decide_eq_false_iff_not]
    omega

theorem greaterInt_strictWeakOrder : StrictWeakOrder greaterInt := by
  refine ⟨?_, ?_, ?_⟩
  · intro a
    simp [greaterInt]
  · intro a b c
    simp only [greaterInt, decide_eq_true_eq]
    omega
  · intro a b c
    simp only [greaterInt, decide_eq_false_iff_not]
    omega


/-! ## Heap order -/

theorem swap_val_first (h : Heap T) {i j : Nat} (hi : i < h.size) (hj : j < h.size) :
    (h.swapElementsAtIndices i j).getValAtPos i = h.getValAtPos j := by
  rw [swap_val h hi hj, if_pos rfl]

theorem swap_val_second (h : Heap T) {i j : Nat} (hi : i < h.size) (hj : j < h.size) :
    (h.swapElementsAtIndices i j).getValAtPos j = h.getValAtPos i := by
  rw [swap_val h hi hj]
  by_cases hji : j = i
  · rw [if_pos hji, hji]
  · rw [if_neg hji, if_pos rfl]

theorem swap_val_other (h : Heap T) {i j m : Nat} (hi : i < h.size) (hj : j < h.size)
    (hmi : m ≠ i) (hmj : m ≠ j) :
    (h.swapElementsAtIndices i j).getValAtPos m = h.getValAtPos m := by
  rw [swap_val h hi hj, if_neg hmi, if_neg hmj]

theorem bubbleUpFuel_ordered {cmp : T → T → Bool} (s : StrictWeakOrder cmp) (fuel : Nat)
    (h : Heap T) (k : Nat) (hs : h.size < 2 ^ 32) (hf : k < fuel) (inv : UpInv cmp h k) :
    HeapOrdered cmp (bubbleUpFuel cmp fuel h k) := by
  induction fuel generalizing h k with
  | zero => omega
  | succ fuel ih =>
    unfold bubbleUpFuel
    split
    · rename_i hg
      intro j hj a b ha hb
      by_cases hjk : j = k
      · subst hjk
        have := lt_size_of_getValAtPos hb
        omega
      · exact inv.1 j hj hjk a b ha hb
    · rename_i hg
      have hk0 : 0 < k := by omega
      have hks : k < h.size := by omega
      have hpar : getParentOf k = (k - 1) / 2 := getParentOf_eq hk0 (by omega)
      have hps : (k - 1) / 2 < h.size := by omega
      obtain ⟨x, hx⟩ := getValAtPos_isSome hks
      obtain ⟨p, hp⟩ := getValAtPos_isSome hps
      simp only [hpar, hx, hp]
      cases hc : cmp x p with
      | true =>
        simp only [Bool.not_true, Bool.false_eq_true, if_false]
        intro j hj a b ha hb
        by_cases hjk : j = k
        · subst hjk
          rw [hp] at ha
          rw [hx] at hb
          cases ha
          cases hb
          exact s.asymm hc
        · exact inv.1 j hj hjk a b ha hb
      | false =>
        simp only [Bool.not_false, if_true]
        have hvk : (h.swapElementsAtIndices k ((k - 1) / 2)).getValAtPos k = some p := by
          rw [swap_val_first h hks hps, hp]
        have hvp : (h.swapElementsAtIndices k ((k - 1) / 2)).getValAtPos ((k - 1) / 2) = some x := by
          rw [swap_val_second h hks hps, hx]
        have hvo : ∀ m, m ≠ k → m ≠ (k - 1) / 2 →
            (h.swapElementsAtIndices k ((k - 1) / 2)).getValAtPos m = h.getValAtPos m :=
          fun m h1 h2 => swap_val_other h hks hps h1 h2
        apply ih
        · rw [swap_size]
          exact hs
        · omega
        · constructor
          · intro j hj hjp a b ha hb
            by_cases hjk : j = k
            · rw [hjk, hvp] at ha
              rw [hjk, hvk] at hb
              cases ha
              cases hb
              exact hc
            · rw [hvo j hjk hjp] at hb
              by_cases hpj : (j - 1) / 2 = (k - 1) / 2
              · rw [hpj, hvp] at ha
                cases ha
                have h1 := inv.1 j hj hjk p b (hpj ▸ hp) hb
                exact s.negTrans hc h1
              · by_cases hpk : (j - 1) / 2 = k
                · rw [hpk, hvk] at ha
                  cases ha
                  exact inv.2 hk0 j hj hpk p b hp hb
                · rw [hvo _ hpk hpj] at ha
                  exact inv.1 j hj hjk a b ha hb
          · intro hp0 c hc0 hcp a b ha hb
            rw [hvo _ (by omega) (by omega)] at ha
            have hgp := inv.1 ((k - 1) / 2) hp0 (by omega) a p ha hp
            by_cases hck : c = k
            · rw [hck, hvk] at hb
              cases hb
              exact hgp
            · rw [hvo c hck (by omega)] at hb
              have h2 := inv.1 c hc0 hck p b (hcp ▸ hp) hb
              exact s.negTrans hgp h2

theorem UpInv.of_ordered {cmp : T → T → Bool} (s : StrictWeakOrder cmp) {h : Heap T}
    (ho : HeapOrdered cmp h) (k : Nat) : UpInv cmp h k := by
  constructor
  · intro j hj _
    exact ho j hj
  · intro hk c hc hcp a b ha hb
    have hcs := lt_size_of_getValAtPos hb
    have hks : k < h.size := by omega
    obtain ⟨x, hx⟩ := getValAtPos_isSome hks
    exact s.negTrans (ho k hk a x ha hx) (ho c hc x b (hcp ▸ hx) hb)


theorem getValAtPos_none {h : Heap T} {i : Nat} (hi : h.size ≤ i) : h.getValAtPos i = none := by
  unfold Heap.getValAtPos
  unfold Heap.size at hi
  rw [List.getElem?_eq_none hi]
  rfl

/-- What `selectChild` returns at a position `k` holding `x`: either `k`
    itself, and then both children sort strictly after `x`; or a child that
    does not sort after `x` nor after the other child. -/
theorem selectChild_cases {cmp : T → T → Bool} (s : StrictWeakOrder cmp) {h : Heap T} {k : Nat}
    (hs : h.size < 2 ^ 31) (hk : k < h.size) {x : T} (hx : h.getValAtPos k = some x) :
    (selectChild cmp h k = k ∧
      ∀ j y, (j = 2 * k + 1 ∨ j = 2 * k + 2) → h.getValAtPos j = some y → cmp y x = true) ∨
    (∃ y, (selectChild cmp h k = 2 * k + 1 ∨ selectChild cmp h k = 2 * k + 2) ∧
      h.getValAtPos (selectChild cmp h k) = some y ∧ cmp y x = false ∧
      ∀ j z, (j = 2 * k + 1 ∨ j = 2 * k + 2) → h.getValAtPos j = some z → cmp y z = false) := by
  unfold selectChild
  rw [getLeftChildOf_eq (by omega), getRightChildOf_eq (by omega)]
  dsimp only
  by_cases hl : 2 * k + 1 < h.size
  · obtain ⟨l, hlv⟩ := getValAtPos_isSome hl
    simp only [hl, if_true, hlv, hx]
    cases hlx : cmp l x with
    | false =>
      simp only [Bool.not_false, if_true]
      by_cases hr : 2 * k + 2 < h.size
      · obtain ⟨r, hrv⟩ := getValAtPos_isSome hr
        simp only [hr, if_true, hrv, hlv]
        cases hrl : cmp r l with
        | false =>
          simp only [Bool.not_false, if_true]
          right
          refine ⟨r, Or.inr trivial, hrv, s.negTrans hrl hlx, ?_⟩
          rintro j z (rfl | rfl) hz
          · rw [hlv] at hz
            cases hz
            exact hrl
          · rw [hrv] at hz
            cases hz
            exact s.irrefl _
        | true =>
          simp only [Bool.not_true, Bool.false_eq_true, if_false]
          right
          refine ⟨l, Or.inl trivial, hlv, hlx, ?_⟩
          rintro j z (rfl | rfl) hz
          · rw [hlv] at hz
            cases hz
            exact s.irrefl _
          · rw [hrv] at hz
            cases hz
            exact s.asymm hrl
      · simp only [hr, if_false]
        right
        refine ⟨l, Or.inl trivial, hlv, hlx, ?_⟩
        rintro j z (rfl | rfl) hz
        · rw [hlv] at hz
          cases hz
          exact s.irrefl _
        · rw [getValAtPos_none (by omega)] at hz
          cases hz
    | true =>
      simp only [Bool.not_true, Bool.false_eq_true, if_false]
      by_cases hr : 2 * k + 2 < h.size
      · obtain ⟨r, hrv⟩ := getValAtPos_isSome hr
        simp only [hr, if_true, hrv, hx]
        cases hrx : cmp r x with
        | false =>
          simp only [Bool.not_false, if_true]
          right
          refine ⟨r, Or.inr trivial, hrv, hrx, ?_⟩
          rintro j z (rfl | rfl) hz
          · rw [hlv] at hz
            cases hz
            cases hrl : cmp r l with
            | false => rfl
            | true =>
              have := s.trans _ _ _ hrl hlx
              rw [hrx] at this
              exact absurd this (by simp)
          · rw [hrv] at hz
            cases hz
            exact s.irrefl _
        | true =>
          simp only [Bool.not_true, Bool.false_eq_true, if_false]
          left
          refine ⟨trivial, ?_⟩
          rintro j y (rfl | rfl) hy
          · rw [hlv] at hy
            cases hy
            exact hlx
          · rw [hrv] at hy
            cases hy
            exact hrx
      · simp only [hr, if_false]
        left
        refine ⟨trivial, ?_⟩
        rintro j y (rfl | rfl) hy
        · rw [hlv] at hy
          cases hy
          exact hlx
        · rw [getValAtPos_none (by omega)] at hy
          cases hy
  · have hr : ¬ 2 * k + 2 < h.size := by omega
    simp only [hl, hr, if_false]
    left
    refine ⟨trivial, ?_⟩
    rintro j y (rfl | rfl) hy
    · rw [getValAtPos_none (by omega)] at hy
      cases hy
    · rw [getValAtPos_none (by omega)] at hy
      cases hy

theorem bubbleDownFuel_spec {cmp : T → T → Bool} (s : StrictWeakOrder cmp) (fuel m : Nat)
    (h : Heap T) (k : Nat) (hs : h.size < 2 ^ 31) (hf : h.size - k ≤ fuel) (hmk : m ≤ k)
    (inv : DownInv cmp m h k) :
    (∀ j, 0 < j → m ≤ (j - 1) / 2 → j ≠ k →
        OkPair cmp (bubbleDownFuel cmp fuel h k) ((j - 1) / 2) j) ∧
    (∀ j, j < k → (bubbleDownFuel cmp fuel h k).getValAtPos j = h.getValAtPos j) ∧
    (bubbleDownFuel cmp fuel h k = h ∨
      ∃ c, 0 < c ∧ (c - 1) / 2 = k ∧
        (bubbleDownFuel cmp fuel h k).getValAtPos k = h.getValAtPos c) := by
  have base : k ≥ h.size →
      (∀ j, 0 < j → m ≤ (j - 1) / 2 → j ≠ k → OkPair cmp h ((j - 1) / 2) j) := by
    intro hk j hj hm hjk a b ha hb
    by_cases hp : (j - 1) / 2 = k
    · have := lt_size_of_getValAtPos hb
      omega
    · exact inv.1 j hj hm hp hjk a b ha hb
  induction fuel generalizing h k with
  | zero =>
    have hk : k ≥ h.size := by omega
    exact ⟨base hk, fun _ _ => rfl, Or.inl rfl⟩
  | succ fuel ih =>
    unfold bubbleDownFuel
    split
    · rename_i hk
      exact ⟨base hk, fun _ _ => rfl, Or.inl rfl⟩
    · rename_i hk
      have hks : k < h.size := by omega
      obtain ⟨x, hx⟩ := getValAtPos_isSome hks
      dsimp only
      rcases selectChild_cases s hs hks hx with ⟨hsel, hch⟩ | ⟨y, hsel, hy, hyx, hch⟩
      · rw [hsel]
        simp only [ne_eq, not_true_eq_false, if_false]
        refine ⟨?_, fun _ _ => trivial, Or.inl trivial⟩
        intro j hj hm hjk a b ha hb
        by_cases hp : (j - 1) / 2 = k
        · rw [hp, hx] at ha
          cases ha
          exact s.asymm (hch j b (by omega) hb)
        · exact inv.1 j hj hm hp hjk a b ha hb
      · generalize hcdef : selectChild cmp h k = c at hsel hy
        have hcs : c < h.size := lt_size_of_getValAtPos hy
        have hck : c ≠ k := by omega
        simp only [ne_eq, hck, not_false_eq_true, if_true]
        have hvk : (h.swapElementsAtIndices k c).getValAtPos k = some y := by
          rw [swap_val_first h hks hcs, hy]
        have hvc : (h.swapElementsAtIndices k c).getValAtPos c = some x := by
          rw [swap_val_second h hks hcs, hx]
        have hvo : ∀ i, i ≠ k → i ≠ c →
            (h.swapElementsAtIndices k c).getValAtPos i = h.getValAtPos i :=
          fun i h1 h2 => swap_val_other h hks hcs h1 h2
        have hinv' : DownInv cmp m (h.swapElementsAtIndices k c) c := by
          constructor
          · intro j hj hm hpc hjc a b ha hb
            by_cases hjk : j = k
            · rw [hjk, hvo _ (by omega) (by omega)] at ha
              rw [hjk, hvk] at hb
              cases hb
              exact inv.2 (by omega) (by omega) c (by omega) (by omega) a y ha hy
            · rw [hvo j hjk hjc] at hb
              by_cases hp : (j - 1) / 2 = k
              · rw [hp, hvk] at ha
                cases ha
                exact hch j b (by omega) hb
              · rw [hvo _ hp hpc] at ha
                exact inv.1 j hj hm hp hjk a b ha hb
          · intro hc0 hm d hd hdc a b ha hb
            have e : (c - 1) / 2 = k := by omega
            rw [e, hvk] at ha
            cases ha
            rw [hvo d (by omega) (by omega)] at hb
            exact inv.1 d hd (by omega) (by omega) (by omega) y b (hdc ▸ hy) hb
        have hrec := ih (h.swapElementsAtIndices k c) c (by rw [swap_size]; exact hs)
          (by rw [swap_size]; omega) (by omega) hinv'
          (by
            intro hge
            rw [swap_size] at hge
            omega)
        obtain ⟨r1, r2, r3⟩ := hrec
        have hrk : (bubbleDownFuel cmp fuel (h.swapElementsAtIndices k c) c).getValAtPos k =
            some y := by
          rw [r2 k (by omega), hvk]
        refine ⟨?_, ?_, Or.inr ⟨c, by omega, by omega, by rw [hrk, hy]⟩⟩
        · intro j hj hm hjk a b ha hb
          by_cases hjc : j = c
          · have e : (j - 1) / 2 = k := by omega
            rw [e, hrk] at ha
            cases ha
            rw [hjc] at hb
            rcases r3 with r3 | ⟨d, hd0, hdc, hdv⟩
            · rw [r3, hvc] at hb
              cases hb
              exact hyx
            · rw [hdv, hvo d (by omega) (by omega)] at hb
              exact inv.1 d hd0 (by omega) (by omega) (by omega) y b (hdc ▸ hy) hb
          · exact r1 j hj hm hjc a b ha hb
        · intro j hj
          rw [r2 j (by omega), hvo j (by omega) (by omega)]


/-! ## The sift routines restore heap order -/

theorem bubbleUpFuel_of_ge (cmp : T → T → Bool) (fuel : Nat) (h : Heap T) {k : Nat}
    (hk : k ≤ 0 ∨ k ≥ h.size) : bubbleUpFuel cmp fuel h k = h := by
  cases fuel with
  | zero => rfl
  | succ fuel =>
    unfold bubbleUpFuel
    rw [if_pos hk]

theorem bubbleDownFuel_of_ge (cmp : T → T → Bool) (fuel : Nat) (h : Heap T) {k : Nat}
    (hk : k ≥ h.size) : bubbleDownFuel cmp fuel h k = h := by
  cases fuel with
  | zero => rfl
  | succ fuel =>
    unfold bubbleDownFuel
    rw [if_pos hk]

theorem bubbleUp_ordered {cmp : T → T → Bool} (s : StrictWeakOrder cmp) (h : Heap T) (k : Nat)
    (hs : h.size < 2 ^ 32) (inv : UpInv cmp h k) : HeapOrdered cmp (bubbleUp cmp h k) := by
  unfold bubbleUp
  by_cases hk : k < h.size
  · exact bubbleUpFuel_ordered s _ h k hs hk inv
  · rw [bubbleUpFuel_of_ge cmp _ h (Or.inr (by omega))]
    intro j hj a b ha hb
    by_cases hjk : j = k
    · have := lt_size_of_getValAtPos hb
      omega
    · exact inv.1 j hj hjk a b ha hb

theorem bubbleDown_upInv {cmp : T → T → Bool} (s : StrictWeakOrder cmp) (h : Heap T) (k : Nat)
    (hs : h.size < 2 ^ 31) (inv : DownInv cmp 0 h k) : UpInv cmp (bubbleDown cmp h k) k := by
  obtain ⟨r1, r2, r3⟩ := bubbleDownFuel_spec s h.size 0 h k hs (by omega) (by omega) inv
  unfold bubbleDown
  constructor
  · intro j hj hjk
    exact r1 j hj (by omega) hjk
  · intro hk c hc hcp a b ha hb
    rw [r2 _ (by omega)] at ha
    rcases r3 with r3 | ⟨d, hd0, hdk, hdv⟩
    · rw [r3] at hb
      exact inv.2 hk (by omega) c hc hcp a b ha hb
    · have hcs := lt_size_of_getValAtPos hb
      rw [(bubbleDownFuel_shuffled cmp h.size h k).size_eq] at hcs
      have hks : k < (bubbleDownFuel cmp h.size h k).size := by
        rw [(bubbleDownFuel_shuffled cmp h.size h k).size_eq]
        omega
      obtain ⟨y, hy⟩ := getValAtPos_isSome hks
      have h1 := inv.2 hk (by omega) d hd0 hdk a y ha (hdv ▸ hy)
      have h2 := r1 c hc (by omega) (by omega) y b (hcp ▸ hy) hb
      exact s.negTrans h1 h2

theorem sift_ordered {cmp : T → T → Bool} (s : StrictWeakOrder cmp) (h : Heap T) (k : Nat)
    (hs : h.size < 2 ^ 31) (inv : DownInv cmp 0 h k) :
    HeapOrdered cmp (bubbleUp cmp (bubbleDown cmp h k) k) := by
  apply bubbleUp_ordered s
  · rw [(bubbleDown_shuffled cmp h k).size_eq]
    omega
  · exact bubbleDown_upInv s h k hs inv

/-- A heap that agrees with an ordered heap away from position `k` (and is no
    longer than it) is ready for `bubbleDown k`. -/
theorem downInv_of_modified {cmp : T → T → Bool} (s : StrictWeakOrder cmp) {h h' : Heap T}
    {k : Nat} (ho : HeapOrdered cmp h) (hk : k < h.size)
    (hag : ∀ j b, j ≠ k → h'.getValAtPos j = some b → h.getValAtPos j = some b) :
    DownInv cmp 0 h' k := by
  constructor
  · intro j hj _ hp hjk a b ha hb
    exact ho j hj a b (hag _ a hp ha) (hag _ b hjk hb)
  · intro hk0 _ c hc hcp a b ha hb
    obtain ⟨x, hx⟩ := getValAtPos_isSome hk
    have h1 := ho k hk0 a x (hag _ a (by omega) ha) hx
    have h2 := ho c hc x b (hcp ▸ hx) (hag _ b (by omega) hb)
    exact s.negTrans h1 h2

/-- In an ordered heap the root does not sort after any element. -/
theorem root_extremal {cmp : T → T → Bool} (s : StrictWeakOrder cmp) {h : Heap T}
    (ho : HeapOrdered cmp h) {t : T} (ht : h.getValAtPos 0 = some t) :
    ∀ i x, h.getValAtPos i = some x → cmp t x = false := by
  intro i
  induction i using Nat.strong_induction_on with
  | _ i ih =>
    intro x hx
    by_cases hi : i = 0
    · subst hi
      rw [ht] at hx
      cases hx
      exact s.irrefl _
    · have hlt := lt_size_of_getValAtPos hx
      have hps : (i - 1) / 2 < h.size := by omega
      obtain ⟨p, hp⟩ := getValAtPos_isSome hps
      exact s.negTrans (ih _ (by omega) p hp) (ho i (by omega) p x hp hx)

/-! ## Slots and registry nodes correspond -/

theorem WF.backlinks_perm {h : Heap T} (w : WF h) :
    List.Perm (h.mHeapData.map Prod.snd) (h.mValPos.map Prod.fst) := by
  apply List.Subperm.perm_of_length_le
  · apply List.subperm_of_subset
    · rw [List.nodup_iff_injective_getElem]
      intro ⟨i, hi⟩ ⟨j, hj⟩ hij
      simp only [List.length_map] at hi hj
      simp only [List.getElem_map] at hij
      have := w.link_inj (List.getElem?_eq_getElem hi) (List.getElem?_eq_getElem hj) hij
      exact Fin.ext this
    · intro k hk
      obtain ⟨e, he, rfl⟩ := List.mem_map.mp hk
      obtain ⟨i, hi⟩ := List.mem_iff_getElem?.mp he
      exact List.mem_map.mpr ⟨(e.2, i), mem_of_nodeGet (w.link i e hi), rfl⟩
  · simp [w.length_eq]

theorem WF.slot_of_node {h : Heap T} (w : WF h) {k p : Nat}
    (hg : nodeGet h.mValPos k = some p) : ∃ v, h.mHeapData[p]? = some (v, k) := by
  have hk : k ∈ h.mValPos.map Prod.fst := List.mem_map.mpr ⟨(k, p), mem_of_nodeGet hg, rfl⟩
  have hk' := w.backlinks_perm.symm.subset hk
  obtain ⟨e, he, hek⟩ := List.mem_map.mp hk'
  obtain ⟨i, hi⟩ := List.mem_iff_getElem?.mp he
  have := w.link i e hi
  rw [hek, hg] at this
  cases this
  exact ⟨e.1, by rw [hi, ← hek]⟩


/-! ## The fuel of the sift routines is never exhausted -/

theorem bubbleUpFuel_stable (cmp : T → T → Bool) (f₁ f₂ : Nat) (h : Heap T) (i : Nat)
    (h₁ : i < f₁) (h₂ : i < f₂) : bubbleUpFuel cmp f₁ h i = bubbleUpFuel cmp f₂ h i := by
  induction f₁ generalizing f₂ h i with
  | zero => omega
  | succ f₁ ih =>
    cases f₂ with
    | zero => omega
    | succ f₂ =>
      unfold bubbleUpFuel
      split
      · rfl
      · rename_i hg
        have hlt : getParentOf i < i := getParentOf_lt (by omega)
        dsimp only
        split
        · split
          · exact ih f₂ _ _ (by omega) (by omega)
          · rfl
        · rfl

theorem bubbleUp_eq_fuel (cmp : T → T → Bool) (fuel : Nat) (h : Heap T) (i : Nat)
    (hf : h.size ≤ fuel) : bubbleUpFuel cmp fuel h i = bubbleUp cmp h i := by
  unfold bubbleUp
  by_cases hi : i < h.size
  · exact bubbleUpFuel_stable cmp _ _ h i (by omega) hi
  · rw [bubbleUpFuel_of_ge cmp _ h (Or.inr (by omega)),
      bubbleUpFuel_of_ge cmp _ h (Or.inr (by omega))]

theorem selectChild_mem (cmp : T → T → Bool) (h : Heap T) (i : Nat) :
    selectChild cmp h i = i ∨ selectChild cmp h i = getLeftChildOf i ∨
      selectChild cmp h i = getRightChildOf i := by
  unfold selectChild
  dsimp only
  repeat' split
  all_goals first
    | exact Or.inl rfl
    | exact Or.inr (Or.inl rfl)
    | exact Or.inr (Or.inr rfl)

theorem selectChild_ge (cmp : T → T → Bool) (h : Heap T) (i : Nat) (hs : h.size < 2 ^ 31)
    (hi : i < h.size) : selectChild cmp h i = i ∨ i < selectChild cmp h i := by
  have hl := getLeftChildOf_eq (by omega : i < 2 ^ 31 - 1)
  have hr := getRightChildOf_eq (by omega : i < 2 ^ 31 - 1)
  rcases selectChild_mem cmp h i with e | e | e
  · exact Or.inl e
  · exact Or.inr (by omega)
  · exact Or.inr (by omega)

theorem bubbleDownFuel_stable (cmp : T → T → Bool) (f₁ f₂ : Nat) (h : Heap T) (i : Nat)
    (hs : h.size < 2 ^ 31) (h₁ : h.size - i ≤ f₁) (h₂ : h.size - i ≤ f₂) :
    bubbleDownFuel cmp f₁ h i = bubbleDownFuel cmp f₂ h i := by
  induction f₁ generalizing f₂ h i with
  | zero => rw [bubbleDownFuel_of_ge cmp _ h (by omega), bubbleDownFuel_of_ge cmp _ h (by omega)]
  | succ f₁ ih =>
    cases f₂ with
    | zero =>
      rw [bubbleDownFuel_of_ge cmp _ h (by omega), bubbleDownFuel_of_ge cmp _ h (by omega)]
    | succ f₂ =>
      unfold bubbleDownFuel
      split
      · rfl
      · rename_i hg
        have hsel := selectChild_ge cmp h i hs (by omega)
        dsimp only
        split
        · apply ih
          · rw [swap_size]
            exact hs
          · rw [swap_size]
            omega
          · rw [swap_size]
            omega
        · rfl

theorem bubbleDown_eq_fuel (cmp : T → T → Bool) (fuel : Nat) (h : Heap T) (i : Nat)
    (hs : h.size < 2 ^ 31) (hf : h.size ≤ fuel) :
    bubbleDownFuel cmp fuel h i = bubbleDown cmp h i := by
  unfold bubbleDown
  exact bubbleDownFuel_stable cmp _ _ h i hs (by omega) (by omega)


/-! ## insert -/

theorem insertOp_eq (cmp : T → T → Bool) (h : Heap T) (v : T) :
    insertOp cmp h v = (⟨some h.nextNode⟩, bubbleUp cmp (h.pushBack v) h.size) := by
  unfold insertOp Heap.pushBack
  simp [Heap.size]

theorem pushBack_size (h : Heap T) (v : T) : (h.pushBack v).size = h.size + 1 := by
  simp [Heap.pushBack, Heap.size]

theorem pushBack_val_lt (h : Heap T) (v : T) {i : Nat} (hi : i < h.size) :
    (h.pushBack v).getValAtPos i = h.getValAtPos i := by
  unfold Heap.size at hi
  simp [Heap.pushBack, Heap.getValAtPos, List.getElem?_append_left hi]

theorem pushBack_val_last (h : Heap T) (v : T) :
    (h.pushBack v).getValAtPos h.size = some v := by
  simp [Heap.pushBack, Heap.getValAtPos, Heap.size]

theorem pushBack_WF {h : Heap T} (w : WF h) (v : T) : WF (h.pushBack v) := by
  have hfresh : h.nextNode ∉ h.mValPos.map Prod.fst := fun hm => Nat.lt_irrefl _ (w.fresh _ hm)
  refine ⟨?_, ?_, ?_, ?_⟩
  · simp only [Heap.pushBack, List.map_append, List.map_cons, List.map_nil]
    rw [List.nodup_append]
    refine ⟨w.nodup, by simp, ?_⟩
    intro a ha hb
    simp only [List.mem_singleton] at hb
    subst hb
    exact hfresh ha
  · simp [Heap.pushBack, w.length_eq]
  · intro i e he
    simp only [Heap.pushBack] at he ⊢
    rw [nodeGet_append]
    by_cases hi : i < h.mHeapData.length
    · rw [List.getElem?_append_left hi] at he
      rw [w.link i e he]
    · rw [List.getElem?_append_right (by omega)] at he
      have hi0 : i - h.mHeapData.length = 0 := by
        by_contra hne
        rw [List.getElem?_eq_none (by simp; omega)] at he
        cases he
      rw [hi0] at he
      simp only [List.getElem?_cons_zero, Option.some.injEq] at he
      subst he
      simp only [nodeGet_none_of_not_mem hfresh, if_true, Heap.size]
      congr 1
      omega
  · intro k hk
    simp only [Heap.pushBack, List.map_append, List.map_cons, List.map_nil, List.mem_append,
      List.mem_singleton] at hk ⊢
    rcases hk with hk | hk
    · have := w.fresh k hk
      omega
    · omega

theorem pushBack_upInv {cmp : T → T → Bool} {h : Heap T} (ho : HeapOrdered cmp h) (v : T) :
    UpInv cmp (h.pushBack v) h.size := by
  constructor
  · intro j hj hjn a b ha hb
    have hjs := lt_size_of_getValAtPos hb
    rw [pushBack_size] at hjs
    rw [pushBack_val_lt h v (by omega)] at ha hb
    exact ho j hj a b ha hb
  · intro _ c hc hcp a b ha hb
    have hcs := lt_size_of_getValAtPos hb
    rw [pushBack_size] at hcs
    omega

theorem insert_shuffled (cmp : T → T → Bool) (h : Heap T) (v : T) :
    Shuffled (h.pushBack v) (insert cmp h v).2 := by
  unfold insert
  rw [insertOp_eq]
  exact bubbleUp_shuffled cmp _ _

theorem insert_size (cmp : T → T → Bool) (h : Heap T) (v : T) :
    (insert cmp h v).2.size = h.size + 1 := by
  rw [(insert_shuffled cmp h v).size_eq, pushBack_size]

theorem insert_perm (cmp : T → T → Bool) (h : Heap T) (v : T) :
    List.Perm (insert cmp h v).2.mHeapData (h.mHeapData ++ [(v, h.nextNode)]) :=
  (insert_shuffled cmp h v).perm

theorem insert_WF (cmp : T → T → Bool) {h : Heap T} (w : WF h) (v : T) :
    WF (insert cmp h v).2 :=
  (insert_shuffled cmp h v).wf (pushBack_WF w v)

theorem insert_ordered {cmp : T → T → Bool} (s : StrictWeakOrder cmp) {h : Heap T}
    (ho : HeapOrdered cmp h) (hs : h.size + 1 < 2 ^ 31) (v : T) :
    HeapOrdered cmp (insert cmp h v).2 := by
  unfold insert
  rw [insertOp_eq]
  apply bubbleUp_ordered s
  · rw [pushBack_size]
    omega
  · exact pushBack_upInv ho v


/-! ## Handles -/

theorem nodeGet_of_mem_keys {reg : List (Nat × Nat)} {k : Nat}
    (hk : k ∈ reg.map Prod.fst) : ∃ p, nodeGet reg k = some p := by
  induction reg with
  | nil => simp at hk
  | cons n rest ih =>
    obtain ⟨k0, p0⟩ := n
    unfold nodeGet
    by_cases hk0 : k0 = k
    · exact ⟨p0, by simp [hk0]⟩
    · simp only [List.map_cons, List.mem_cons] at hk
      rcases hk with hk | hk
      · exact absurd hk.symm hk0
      · obtain ⟨p, hp⟩ := ih hk
        exact ⟨p, by simp [hk0, hp]⟩


theorem get_eq_some_iff {h : Heap T} (w : WF h) (it : Nat) (v : T) :
    get h ⟨some it⟩ = some v ↔ (v, it) ∈ h.mHeapData := by
  unfold get Heap.deref
  simp only [Option.bind_eq_bind, Option.some_bind]
  constructor
  · intro hg
    cases hn : nodeGet h.mValPos it with
    | none => simp [hn] at hg
    | some p =>
      simp only [hn, Option.some_bind] at hg
      obtain ⟨v', hv'⟩ := w.slot_of_node hn
      obtain ⟨k, hk⟩ := getValAtPos_eq_some.mp hg
      rw [hv'] at hk
      cases hk
      exact List.mem_iff_getElem?.mpr ⟨p, hv'⟩
  · intro hm
    obtain ⟨i, hi⟩ := List.mem_iff_getElem?.mp hm
    rw [w.link i _ hi]
    exact getValAtPos_eq_some.mpr ⟨it, hi⟩

theorem live_iff {h : Heap T} (w : WF h) (it : Nat) :
    h.live ⟨some it⟩ ↔ ∃ v, (v, it) ∈ h.mHeapData := by
  unfold Heap.live Heap.deref
  simp only [Option.bind_eq_bind, Option.some_bind]
  constructor
  · intro hl
    obtain ⟨p, hp⟩ := Option.isSome_iff_exists.mp hl
    obtain ⟨v, hv⟩ := w.slot_of_node hp
    exact ⟨v, List.mem_iff_getElem?.mpr ⟨p, hv⟩⟩
  · rintro ⟨v, hm⟩
    obtain ⟨i, hi⟩ := List.mem_iff_getElem?.mp hm
    rw [w.link i _ hi]
    rfl

theorem live_iff_key {h : Heap T} (it : Nat) :
    h.live ⟨some it⟩ ↔ it ∈ h.mValPos.map Prod.fst := by
  unfold Heap.live Heap.deref
  simp only [Option.bind_eq_bind, Option.some_bind]
  constructor
  · intro hl
    obtain ⟨p, hp⟩ := Option.isSome_iff_exists.mp hl
    exact List.mem_map.mpr ⟨(it, p), mem_of_nodeGet hp, rfl⟩
  · intro hk
    obtain ⟨p, hp⟩ := nodeGet_of_mem_keys hk
    rw [hp]
    rfl

theorem live_exists_id {h : Heap T} {hd : Handle} (hl : h.live hd) :
    ∃ it, hd = ⟨some it⟩ := by
  obtain ⟨m⟩ := hd
  cases m with
  | none => simp [Heap.live, Heap.deref] at hl
  | some it => exact ⟨it, rfl⟩

theorem get_of_live {h : Heap T} (w : WF h) {hd : Handle} (hl : h.live hd) :
    ∃ v, get h hd = some v := by
  obtain ⟨it, rfl⟩ := live_exists_id hl
  obtain ⟨v, hv⟩ := (live_iff w it).mp hl
  exact ⟨v, (get_eq_some_iff w it v).mpr hv⟩

theorem size_pos_of_live {h : Heap T} (w : WF h) {hd : Handle} (hl : h.live hd) :
    0 < h.size := by
  obtain ⟨it, rfl⟩ := live_exists_id hl
  obtain ⟨v, hv⟩ := (live_iff w it).mp hl
  unfold Heap.size
  exact List.length_pos_of_mem hv

theorem empty_eq_false_iff (h : Heap T) : h.empty = false ↔ 0 < h.size := by
  unfold Heap.empty Heap.size
  cases h.mHeapData <;> simp


/-! ## update -/

theorem perm_cons_set {α : Type} {l : List α} {i : Nat} {a b : α} (hi : l[i]? = some b) :
    List.Perm (b :: l.set i a) (a :: l) := by
  classical
  obtain ⟨hil, hib⟩ := List.getElem?_eq_some_iff.mp hi
  rw [List.perm_iff_count]
  intro x
  rw [List.count_cons, List.count_cons, List.count_set _ _ _ _ hil, hib]
  have hb : b ∈ l := List.mem_iff_getElem?.mpr ⟨i, hi⟩
  have hc : (if (b == x) = true then 1 else 0) ≤ List.count x l := by
    by_cases hbx : b = x
    · subst hbx
      simpa using List.count_pos_iff.mpr hb
    · simp [hbx]
  omega

theorem assign_size (h : Heap T) (pos : Nat) (v : T) (it : Nat) :
    (h.assign pos v it).size = h.size := by
  simp [Heap.assign, Heap.size]

theorem assign_val_other (h : Heap T) {pos j : Nat} (v : T) (it : Nat) (hj : j ≠ pos) :
    (h.assign pos v it).getValAtPos j = h.getValAtPos j := by
  unfold Heap.assign Heap.getValAtPos
  simp only
  rw [List.getElem?_set_ne (fun e => hj e.symm)]

theorem assign_WF {h : Heap T} (w : WF h) {pos it : Nat} {old : T}
    (hp : h.mHeapData[pos]? = some (old, it)) (v : T) : WF (h.assign pos v it) := by
  refine ⟨w.nodup, ?_, ?_, w.fresh⟩
  · simp [Heap.assign, w.length_eq]
  · intro i e he
    simp only [Heap.assign] at he ⊢
    rw [List.getElem?_set] at he
    by_cases hi : pos = i
    · subst hi
      simp only [if_true] at he
      split at he
      · cases he
        exact w.link pos (old, it) hp
      · cases he
    · simp only [hi, if_false] at he
      exact w.link i e he

theorem updateOp_eq (cmp : T → T → Bool) {h : Heap T} {it pos : Nat} {old : T}
    (hn : nodeGet h.mValPos it = some pos) (hp : h.mHeapData[pos]? = some (old, it)) (v : T) :
    updateOp cmp h ⟨some it⟩ v =
      some (bubbleUp cmp (bubbleDown cmp (h.assign pos v it) pos) pos) := by
  unfold updateOp Heap.deref
  simp only [Option.bind_eq_bind, Option.some_bind, hn, hp]
  rfl

/-- What `update` does on a live handle: the slot of the handle is assigned
    and then sifted down and up. -/
theorem update_facts (cmp : T → T → Bool) {h : Heap T} (w : WF h) {hd : Handle}
    (hl : h.live hd) (v : T) :
    ∃ it old pos, hd = ⟨some it⟩ ∧ h.mHeapData[pos]? = some (old, it) ∧
      update cmp h hd v =
        some (bubbleUp cmp (bubbleDown cmp (h.assign pos v it) pos) pos) := by
  obtain ⟨it, rfl⟩ := live_exists_id hl
  obtain ⟨pos, hn⟩ := Option.isSome_iff_exists.mp hl
  simp only [Heap.deref, Option.bind_eq_bind, Option.some_bind] at hn
  obtain ⟨old, hp⟩ := w.slot_of_node hn
  refine ⟨it, old, pos, rfl, hp, ?_⟩
  unfold update
  have hne : h.empty = false := (empty_eq_false_iff h).mpr (size_pos_of_live w hl)
  rw [hne]
  simp only [Bool.false_eq_true, if_false]
  exact updateOp_eq cmp hn hp v

theorem sift_shuffled (cmp : T → T → Bool) (h : Heap T) (k : Nat) :
    Shuffled h (bubbleUp cmp (bubbleDown cmp h k) k) :=
  (bubbleDown_shuffled cmp h k).trans (bubbleUp_shuffled cmp _ k)

theorem assign_ordered {cmp : T → T → Bool} (s : StrictWeakOrder cmp) {h : Heap T}
    (ho : HeapOrdered cmp h) (hs : h.size < 2 ^ 31) {pos : Nat} (hp : pos < h.size) (v : T)
    (it : Nat) :
    HeapOrdered cmp (bubbleUp cmp (bubbleDown cmp (h.assign pos v it) pos) pos) := by
  apply sift_ordered s
  · rw [assign_size]
    exact hs
  · apply downInv_of_modified s ho hp
    intro j b hj hb
    rw [assign_val_other h v it hj] at hb
    exact hb

/-! ## erase -/

theorem removeAt_data (h : Heap T) {pos it : Nat} {old : T}
    (hp : h.mHeapData[pos]? = some (old, it)) :
    (h.swapElementsAtIndices pos (h.size - 1)).mHeapData =
      (h.removeAt pos it).mHeapData ++ [(old, it)] := by
  have hps : pos < h.size := (List.getElem?_eq_some_iff.mp hp).1
  have hls : h.size - 1 < h.size := by omega
  have hlast : (h.swapElementsAtIndices pos (h.size - 1)).mHeapData[h.size - 1]? =
      some (old, it) := by
    rw [swap_data h hps hls]
    by_cases he : h.size - 1 = pos
    · rw [if_pos he, he, hp]
    · rw [if_neg he, if_pos rfl, hp]
  have hlen : (h.swapElementsAtIndices pos (h.size - 1)).mHeapData.length = h.size :=
    swap_size h _ _
  have key : ∀ l : List (T × Nat), l[h.size - 1]? = some (old, it) → l.length = h.size →
      l = l.dropLast ++ [(old, it)] := by
    intro l hl1 hl2
    have hne : l ≠ [] := by
      intro e
      rw [e] at hl2
      simp only [List.length_nil] at hl2
      omega
    have hgl := List.dropLast_append_getLast hne
    have hx : l.getLast hne = (old, it) := by
      rw [List.getLast_eq_getElem]
      have := (List.getElem?_eq_some_iff.mp hl1).2
      simp only [hl2]
      exact this
    rw [hx] at hgl
    exact hgl.symm
  exact key _ hlast hlen

theorem removeAt_size (h : Heap T) {pos it : Nat} {old : T}
    (hp : h.mHeapData[pos]? = some (old, it)) : (h.removeAt pos it).size + 1 = h.size := by
  have h1 := congrArg List.length (removeAt_data h hp)
  have h2 : (h.swapElementsAtIndices pos (h.size - 1)).mHeapData.length = h.size :=
    swap_size h _ _
  rw [h2] at h1
  simp only [List.length_append, List.length_singleton] at h1
  unfold Heap.size at h1 ⊢
  omega

theorem removeAt_perm (h : Heap T) {pos it : Nat} {old : T}
    (hp : h.mHeapData[pos]? = some (old, it)) :
    List.Perm ((old, it) :: (h.removeAt pos it).mHeapData) h.mHeapData := by
  have h1 := swap_perm h pos (h.size - 1)
  rw [removeAt_data h hp] at h1
  exact (List.perm_append_singleton _ _).symm.trans h1

theorem removeAt_val (h : Heap T) {pos it : Nat} {old : T}
    (hp : h.mHeapData[pos]? = some (old, it)) {j : Nat} {b : T} (hj : j ≠ pos)
    (hb : (h.removeAt pos it).getValAtPos j = some b) : h.getValAtPos j = some b := by
  have hps : pos < h.size := (List.getElem?_eq_some_iff.mp hp).1
  have hjs := lt_size_of_getValAtPos hb
  have hsz := removeAt_size h hp
  have hd := removeAt_data h hp
  have e1 : (h.swapElementsAtIndices pos (h.size - 1)).getValAtPos j = some b := by
    unfold Heap.getValAtPos at hb ⊢
    rw [hd, List.getElem?_append_left (by simpa [Heap.size] using hjs)]
    exact hb
  rw [swap_val_other h hps (by omega) hj (by omega)] at e1
  exact e1

theorem removeAt_WF {h : Heap T} (w : WF h) {pos it : Nat} {old : T}
    (hp : h.mHeapData[pos]? = some (old, it)) : WF (h.removeAt pos it) := by
  have w1 := swap_WF w pos (h.size - 1)
  have hd := removeAt_data h hp
  have hsz := removeAt_size h hp
  have hlast : (h.swapElementsAtIndices pos (h.size - 1)).mHeapData[h.size - 1]? =
      some (old, it) := by
    rw [hd, List.getElem?_append_right (by simp only [Heap.size] at hsz ⊢; omega)]
    have : h.size - 1 - (h.removeAt pos it).mHeapData.length = 0 := by
      simp only [Heap.size] at hsz ⊢
      omega
    rw [this]
    rfl
  have hnode := w1.link _ _ hlast
  have hsub : ((h.removeAt pos it).mValPos.map Prod.fst).Sublist
      ((h.swapElementsAtIndices pos (h.size - 1)).mValPos.map Prod.fst) :=
    (nodeErase_keys_sublist _ _).map _
  refine ⟨w1.nodup.sublist hsub, ?_, ?_, ?_⟩
  · have h1 := nodeErase_length hnode
    have h2 := w1.length_eq
    have h3 : (h.swapElementsAtIndices pos (h.size - 1)).mHeapData.length = h.size :=
      swap_size h _ _
    simp only [Heap.size, Heap.removeAt] at hsz h3 h1 h2 ⊢
    omega
  · intro i e he
    have hi : i < (h.removeAt pos it).mHeapData.length := (List.getElem?_eq_some_iff.mp he).1
    have he1 : (h.swapElementsAtIndices pos (h.size - 1)).mHeapData[i]? = some e := by
      rw [hd, List.getElem?_append_left hi]
      exact he
    have hne : e.2 ≠ it := by
      intro e'
      have := w1.link_inj he1 hlast e'
      simp only [Heap.size] at hsz this
      omega
    show nodeGet (nodeErase _ it) e.2 = some i
    rw [nodeGet_nodeErase w1.nodup, if_neg hne]
    exact w1.link i e he1
  · intro k hk
    exact w1.fresh k (hsub.subset hk)

theorem removeAt_nodeGet {h : Heap T} (w : WF h) (pos it k : Nat) :
    nodeGet (h.removeAt pos it).mValPos k =
      if k = it then none else nodeGet (h.swapElementsAtIndices pos (h.size - 1)).mValPos k :=
  nodeGet_nodeErase (swap_WF w pos (h.size - 1)).nodup it k

/-- What `erase` does on a live handle: the slot of the handle is exchanged
    with the last slot and removed together with its node, then the position is
    sifted down and up. -/
theorem erase_facts (cmp : T → T → Bool) {h : Heap T} (w : WF h) (hs : h.size < 2 ^ 32)
    {hd : Handle} (hl : h.live hd) :
    ∃ it old pos, hd = ⟨some it⟩ ∧ h.mHeapData[pos]? = some (old, it) ∧
      erase cmp h hd =
        some (bubbleUp cmp (bubbleDown cmp (h.removeAt pos it) pos) pos) := by
  obtain ⟨it, rfl⟩ := live_exists_id hl
  obtain ⟨pos, hn⟩ := Option.isSome_iff_exists.mp hl
  have hn' := hn
  simp only [Heap.deref, Option.bind_eq_bind, Option.some_bind] at hn
  obtain ⟨old, hp⟩ := w.slot_of_node hn
  have hps : pos < h.size := (List.getElem?_eq_some_iff.mp hp).1
  refine ⟨it, old, pos, rfl, hp, ?_⟩
  unfold erase
  have hne : h.empty = false := (empty_eq_false_iff h).mpr (size_pos_of_live w hl)
  rw [hne]
  simp only [Bool.false_eq_true, if_false, hn']
  have hu : toUnsigned pos = pos := by
    unfold toUnsigned
    omega
  rw [hu]
  rfl

theorem removeAt_ordered {cmp : T → T → Bool} (s : StrictWeakOrder cmp) {h : Heap T}
    (ho : HeapOrdered cmp h) (hs : h.size < 2 ^ 31) {pos it : Nat} {old : T}
    (hp : h.mHeapData[pos]? = some (old, it)) :
    HeapOrdered cmp (bubbleUp cmp (bubbleDown cmp (h.removeAt pos it) pos) pos) := by
  have hps : pos < h.size := (List.getElem?_eq_some_iff.mp hp).1
  apply sift_ordered s
  · have := removeAt_size h hp
    omega
  · apply downInv_of_modified s ho hps
    intro j b hj hb
    exact removeAt_val h hp hj hb

/-! ## top and pop -/

theorem topHandle_facts {h : Heap T} (hpos : 0 < h.size) :
    ∃ t it, h.mHeapData[0]? = some (t, it) ∧ top h = some t ∧
      topHandle h = some ⟨some it⟩ := by
  unfold Heap.size at hpos
  refine ⟨(h.mHeapData[0]).1, (h.mHeapData[0]).2, List.getElem?_eq_getElem hpos, ?_, ?_⟩
  · simp [top, Heap.getValAtPos, List.getElem?_eq_getElem hpos]
  · simp [topHandle, List.getElem?_eq_getElem hpos]

theorem pop_facts (cmp : T → T → Bool) {h : Heap T} (w : WF h) (hs : h.size < 2 ^ 32)
    (hpos : 0 < h.size) :
    ∃ t it, h.mHeapData[0]? = some (t, it) ∧ top h = some t ∧
      topHandle h = some ⟨some it⟩ ∧
      pop cmp h = erase cmp h ⟨some it⟩ ∧
      pop cmp h = some (bubbleUp cmp (bubbleDown cmp (h.removeAt 0 it) 0) 0) := by
  obtain ⟨t, it, h0, ht, hth⟩ := topHandle_facts hpos
  have hl : h.live ⟨some it⟩ := (live_iff w it).mpr ⟨t, List.mem_iff_getElem?.mpr ⟨0, h0⟩⟩
  obtain ⟨it', old, pos, hid, hp, he⟩ := erase_facts cmp w hs hl
  cases hid
  have hpos0 : pos = 0 := w.link_inj hp h0 rfl
  subst hpos0
  have hpe : pop cmp h = erase cmp h ⟨some it⟩ := by
    unfold pop
    have hne : h.empty = false := (empty_eq_false_iff h).mpr hpos
    rw [hne, hth]
    rfl
  exact ⟨t, it, h0, ht, hth, hpe, hpe.trans he⟩

theorem pop_empty (cmp : T → T → Bool) {h : Heap T} (he : h.size = 0) : pop cmp h = some h := by
  unfold pop
  have : h.empty = true := by
    unfold Heap.empty
    unfold Heap.size at he
    rw [List.length_eq_zero] at he
    rw [he]
    rfl
  rw [this]
  rfl


/-! ## Constructors -/

theorem nodeGet_rangeMap (n : Nat) (f : Nat → Nat) (m i : Nat) :
    nodeGet ((List.range m).map (fun j => (n + j, f j))) (n + i) =
      if i < m then some (f i) else none := by
  induction m with
  | zero => simp [nodeGet]
  | succ m ih =>
    rw [List.range_succ, List.map_append, List.map_singleton, nodeGet_append, ih]
    by_cases h1 : i < m
    · have h2 : i < m + 1 := by omega
      simp [h1, h2]
    · by_cases h3 : i = m
      · subst h3
        simp
      · have h2 : ¬ i < m + 1 := by omega
        have h4 : ¬ m = i := fun e => h3 e.symm
        simp [h1, h2, h4]

theorem rangeMap_keys_nodup (n : Nat) (f : Nat → Nat) (m : Nat) :
    (((List.range m).map (fun j => (n + j, f j))).map Prod.fst).Nodup := by
  rw [List.map_map]
  apply List.Nodup.map _ (List.nodup_range m)
  intro a b hab
  simp only [Function.comp] at hab
  omega

theorem rangeMap_keys_mem (n : Nat) (f : Nat → Nat) (m k : Nat)
    (hk : k ∈ ((List.range m).map (fun j => (n + j, f j))).map Prod.fst) : k < n + m := by
  simp only [List.map_map, List.mem_map, List.mem_range, Function.comp] at hk
  obtain ⟨a, ha, rfl⟩ := hk
  omega

theorem load_data (n : Nat) (l : List T) (i : Nat) :
    (Heap.load n l).mHeapData[i]? = (l[i]?).map (fun a => (a, n + i)) := by
  unfold Heap.load
  simp only [List.getElem?_map, List.getElem?_enum]
  cases l[i]? <;> rfl

theorem load_size (n : Nat) (l : List T) : (Heap.load n l).size = l.length := by
  simp [Heap.load, Heap.size]

theorem load_WF (n : Nat) (l : List T) (hl : l.length < 2 ^ 32) : WF (Heap.load n l) := by
  refine ⟨rangeMap_keys_nodup _ _ _, ?_, ?_, ?_⟩
  · simp [Heap.load]
  · intro i e he
    rw [load_data] at he
    cases hli : l[i]? with
    | none => simp [hli] at he
    | some a =>
      simp only [hli, Option.map_some', Option.some.injEq] at he
      subst he
      have hi : i < l.length := (List.getElem?_eq_some_iff.mp hli).1
      show nodeGet ((List.range l.length).map (fun j => (n + j, toUnsigned j))) (n + i) = some i
      rw [nodeGet_rangeMap, if_pos hi]
      unfold toUnsigned
      congr 1
      omega
  · intro k hk
    exact rangeMap_keys_mem _ _ _ k hk

theorem copy_data (h : Heap T) (i : Nat) :
    h.copy.mHeapData[i]? = (h.mHeapData[i]?).map (fun e => (e.1, h.nextNode + i)) := by
  unfold Heap.copy
  simp only [List.getElem?_map, List.getElem?_enum]
  cases h.mHeapData[i]? <;> rfl

theorem copy_val (h : Heap T) (i : Nat) : h.copy.getValAtPos i = h.getValAtPos i := by
  unfold Heap.getValAtPos
  rw [copy_data]
  cases h.mHeapData[i]? <;> rfl

theorem copy_size (h : Heap T) : h.copy.size = h.size := by
  simp [Heap.copy, Heap.size]

theorem copy_WF (h : Heap T) : WF h.copy := by
  refine ⟨rangeMap_keys_nodup _ _ _, ?_, ?_, ?_⟩
  · simp [Heap.copy]
  · intro i e he
    rw [copy_data] at he
    cases hli : h.mHeapData[i]? with
    | none => simp [hli] at he
    | some a =>
      simp only [hli, Option.map_some', Option.some.injEq] at he
      subst he
      have hi : i < h.mHeapData.length := (List.getElem?_eq_some_iff.mp hli).1
      show nodeGet ((List.range h.mHeapData.length).map (fun j => (h.nextNode + j, j)))
        (h.nextNode + i) = some i
      rw [nodeGet_rangeMap, if_pos hi]
  · intro k hk
    exact rangeMap_keys_mem _ _ _ k hk

theorem copy_ordered {cmp : T → T → Bool} {h : Heap T} (ho : HeapOrdered cmp h) :
    HeapOrdered cmp h.copy := by
  intro j hj a b ha hb
  rw [copy_val] at ha hb
  exact ho j hj a b ha hb

theorem buildHeapStart_zero {h : Heap T} (hs : h.size = 0) : buildHeapStart h = -1 := by
  unfold buildHeapStart toInt toSizeT
  rw [hs]
  decide

theorem buildHeapStart_pos {h : Heap T} (h0 : 0 < h.size) (hs : h.size < 2 ^ 31) :
    buildHeapStart h = (((h.size - 1) / 2 : Nat) : Int) := by
  unfold buildHeapStart toInt toSizeT
  have e : (h.size + 2 ^ 64 - 1) % 2 ^ 64 / 2 % 2 ^ 32 = (h.size - 1) / 2 := by omega
  rw [e]
  have : (h.size - 1) / 2 < 2 ^ 31 := by omega
  rw [if_pos this]

theorem buildHeap_eq (cmp : T → T → Bool) {h : Heap T} (hs : h.size < 2 ^ 31) :
    buildHeap cmp h = if h.size = 0 then h else buildHeapLoop cmp ((h.size - 1) / 2 + 1) h := by
  unfold buildHeap
  by_cases h0 : h.size = 0
  · rw [buildHeapStart_zero h0, if_pos h0]
    rfl
  · rw [buildHeapStart_pos (by omega) hs, if_neg h0, if_pos (Int.ofNat_nonneg _),
      Int.toNat_ofNat]

theorem buildHeapLoop_ordered {cmp : T → T → Bool} (s : StrictWeakOrder cmp) (i : Nat)
    (h : Heap T) (hs : h.size < 2 ^ 31)
    (hinv : ∀ j, 0 < j → i ≤ (j - 1) / 2 → OkPair cmp h ((j - 1) / 2) j) :
    HeapOrdered cmp (buildHeapLoop cmp i h) := by
  induction i generalizing h with
  | zero =>
    intro j hj
    exact hinv j hj (by omega)
  | succ i ih =>
    unfold buildHeapLoop
    apply ih
    · rw [(bubbleDown_shuffled cmp h i).size_eq]
      exact hs
    · have hd : DownInv cmp i h i := by
        constructor
        · intro j hj hm hp _
          exact hinv j hj (by omega)
        · intro h0 hm
          omega
      obtain ⟨r1, _, _⟩ := bubbleDownFuel_spec s h.size i h i hs (by omega) (by omega) hd
      intro j hj hm
      exact r1 j hj hm (by omega)

theorem buildHeap_ordered {cmp : T → T → Bool} (s : StrictWeakOrder cmp) (h : Heap T)
    (hs : h.size < 2 ^ 31) : HeapOrdered cmp (buildHeap cmp h) := by
  rw [buildHeap_eq cmp hs]
  by_cases h0 : h.size = 0
  · rw [if_pos h0]
    intro j hj a b ha hb
    have := lt_size_of_getValAtPos hb
    omega
  · rw [if_neg h0]
    apply buildHeapLoop_ordered s _ h hs
    intro j hj hm a b ha hb
    have := lt_size_of_getValAtPos hb
    omega

theorem ofRange_shuffled (cmp : T → T → Bool) (n : Nat) (l : List T) :
    Shuffled (Heap.load n l) (Heap.ofRange cmp n l) :=
  buildHeap_shuffled cmp _


/-! ## Invariants of reachable heaps -/

theorem mkEmpty_WF (n : Nat) : WF (Heap.mkEmpty n : Heap T) := by
  refine ⟨?_, rfl, ?_, ?_⟩
  · simp [Heap.mkEmpty]
  · intro i e he
    simp [Heap.mkEmpty] at he
  · intro k hk
    simp [Heap.mkEmpty] at hk

theorem update_result (cmp : T → T → Bool) {h h' : Heap T} (w : WF h) {hd : Handle}
    (hl : h.live hd) {v : T} (hu : update cmp h hd v = some h') :
    ∃ it old pos, hd = ⟨some it⟩ ∧ h.mHeapData[pos]? = some (old, it) ∧
      h' = bubbleUp cmp (bubbleDown cmp (h.assign pos v it) pos) pos := by
  obtain ⟨it, old, pos, hid, hp, he⟩ := update_facts cmp w hl v
  rw [he] at hu
  exact ⟨it, old, pos, hid, hp, (Option.some.inj hu).symm⟩

theorem erase_result (cmp : T → T → Bool) {h h' : Heap T} (w : WF h) (hs : h.size < 2 ^ 32)
    {hd : Handle} (hl : h.live hd) (hu : erase cmp h hd = some h') :
    ∃ it old pos, hd = ⟨some it⟩ ∧ h.mHeapData[pos]? = some (old, it) ∧
      h' = bubbleUp cmp (bubbleDown cmp (h.removeAt pos it) pos) pos := by
  obtain ⟨it, old, pos, hid, hp, he⟩ := erase_facts cmp w hs hl
  rw [he] at hu
  exact ⟨it, old, pos, hid, hp, (Option.some.inj hu).symm⟩

theorem pop_result (cmp : T → T → Bool) {h h' : Heap T} (w : WF h) (hs : h.size < 2 ^ 32)
    (hu : pop cmp h = some h') :
    (h.size = 0 ∧ h' = h) ∨
    ∃ t it, h.mHeapData[0]? = some (t, it) ∧ top h = some t ∧
      h' = bubbleUp cmp (bubbleDown cmp (h.removeAt 0 it) 0) 0 := by
  by_cases h0 : h.size = 0
  · rw [pop_empty cmp h0] at hu
    exact Or.inl ⟨h0, (Option.some.inj hu).symm⟩
  · obtain ⟨t, it, hd0, ht, _, _, he⟩ := pop_facts cmp w hs (by omega)
    rw [he] at hu
    exact Or.inr ⟨t, it, hd0, ht, (Option.some.inj hu).symm⟩

theorem Reachable.wf_bound {cmp : T → T → Bool} {h : Heap T} (r : Reachable cmp h) :
    WF h ∧ h.size < 2 ^ 31 := by
  induction r with
  | empty n => exact ⟨mkEmpty_WF n, by simp [Heap.mkEmpty, Heap.size]⟩
  | range n l hl =>
    have sh := ofRange_shuffled cmp n l
    refine ⟨sh.wf (load_WF n l (by omega)), ?_⟩
    rw [sh.size_eq, load_size]
    exact hl
  | copy _ ih => exact ⟨copy_WF _, by rw [copy_size]; exact ih.2⟩
  | insert v _ hs ih => exact ⟨insert_WF cmp ih.1 v, by rw [insert_size]; exact hs⟩
  | @update h0 _ hd v _ hl hu ih =>
    obtain ⟨it, old, pos, _, hp, rfl⟩ := update_result cmp ih.1 hl hu
    have sh := sift_shuffled cmp (h0.assign pos v it) pos
    exact ⟨sh.wf (assign_WF ih.1 hp v), by rw [sh.size_eq, assign_size]; exact ih.2⟩
  | @erase h0 _ hd _ hl hu ih =>
    obtain ⟨it, old, pos, _, hp, rfl⟩ := erase_result cmp ih.1 (by omega) hl hu
    have sh := sift_shuffled cmp (h0.removeAt pos it) pos
    have := removeAt_size h0 hp
    exact ⟨sh.wf (removeAt_WF ih.1 hp), by rw [sh.size_eq]; omega⟩
  | @pop h0 _ _ hu ih =>
    rcases pop_result cmp ih.1 (by omega) hu with ⟨_, rfl⟩ | ⟨t, it, hp, _, rfl⟩
    · exact ih
    · have sh := sift_shuffled cmp (h0.removeAt 0 it) 0
      have := removeAt_size h0 hp
      exact ⟨sh.wf (removeAt_WF ih.1 hp), by rw [sh.size_eq]; omega⟩

theorem mkEmpty_ordered (cmp : T → T → Bool) (n : Nat) :
    HeapOrdered cmp (Heap.mkEmpty n : Heap T) := by
  intro j _ a b _ hb
  have := lt_size_of_getValAtPos hb
  simp [Heap.mkEmpty, Heap.size] at this

theorem Reachable.ordered {cmp : T → T → Bool} (s : StrictWeakOrder cmp) {h : Heap T}
    (r : Reachable cmp h) : HeapOrdered cmp h := by
  induction r with
  | empty n => exact mkEmpty_ordered cmp n
  | range n l hl => exact buildHeap_ordered s _ (by rw [load_size]; exact hl)
  | copy _ ih => exact copy_ordered ih
  | insert v _ hs ih => exact insert_ordered s ih hs v
  | update hd v r hl hu ih =>
    obtain ⟨w, hb⟩ := r.wf_bound
    obtain ⟨it, old, pos, _, hp, rfl⟩ := update_result cmp w hl hu
    exact assign_ordered s ih hb (List.getElem?_eq_some_iff.mp hp).1 v it
  | erase hd r hl hu ih =>
    obtain ⟨w, hb⟩ := r.wf_bound
    obtain ⟨it, old, pos, _, hp, rfl⟩ := erase_result cmp w (by omega) hl hu
    exact removeAt_ordered s ih hb hp
  | pop r hu ih =>
    obtain ⟨w, hb⟩ := r.wf_bound
    rcases pop_result cmp w (by omega) hu with ⟨_, rfl⟩ | ⟨t, it, hp, _, rfl⟩
    · exact ih
    · exact removeAt_ordered s ih hb hp


/-! ## The sorted drain -/

theorem getValAtPos_eq_elems (h : Heap T) (i : Nat) : h.getValAtPos i = h.elems[i]? := by
  simp [Heap.getValAtPos, Heap.elems]

theorem mem_elems_iff (h : Heap T) (x : T) :
    x ∈ h.elems ↔ ∃ i, h.getValAtPos i = some x := by
  simp only [getValAtPos_eq_elems]
  exact List.mem_iff_getElem?

theorem elems_length (h : Heap T) : h.elems.length = h.size := by
  simp [Heap.elems, Heap.size]

theorem removeAt_sift_elems (cmp : T → T → Bool) (h : Heap T) {pos it : Nat} {old : T}
    (hp : h.mHeapData[pos]? = some (old, it)) :
    List.Perm (old :: (bubbleUp cmp (bubbleDown cmp (h.removeAt pos it) pos) pos).elems)
      h.elems := by
  have sh := sift_shuffled cmp (h.removeAt pos it) pos
  have h1 : List.Perm ((old, it) :: (bubbleUp cmp (bubbleDown cmp (h.removeAt pos it) pos)
      pos).mHeapData) h.mHeapData :=
    (List.Perm.cons _ sh.perm).trans (removeAt_perm h hp)
  exact h1.map Prod.fst

theorem top_extremal {cmp : T → T → Bool} (s : StrictWeakOrder cmp) {h : Heap T}
    (ho : HeapOrdered cmp h) {t : T} (ht : top h = some t) :
    ∀ x ∈ h.elems, cmp t x = false := by
  intro x hx
  obtain ⟨i, hi⟩ := (mem_elems_iff h x).mp hx
  exact root_extremal s ho ht i x hi

theorem copySortedFuel_spec {cmp : T → T → Bool} (s : StrictWeakOrder cmp) (fuel : Nat)
    (h : Heap T) (acc : List T) (w : WF h) (ho : HeapOrdered cmp h) (hs : h.size < 2 ^ 31)
    (hf : h.size ≤ fuel) :
    ∃ out, copySortedFuel cmp fuel h acc = some (acc ++ out) ∧ List.Perm out h.elems ∧
      out.Pairwise (fun a b => cmp a b = false) := by
  induction fuel generalizing h acc with
  | zero =>
    have h0 : h.size = 0 := by omega
    have he : h.mHeapData = [] := List.length_eq_zero.mp h0
    refine ⟨[], ?_, ?_, List.Pairwise.nil⟩
    · simp [copySortedFuel, Heap.empty, he]
    · simp [Heap.elems, he]
  | succ fuel ih =>
    by_cases h0 : h.size = 0
    · have he : h.mHeapData = [] := List.length_eq_zero.mp h0
      refine ⟨[], ?_, ?_, List.Pairwise.nil⟩
      · simp [copySortedFuel, Heap.empty, he]
      · simp [Heap.elems, he]
    · obtain ⟨t, it, hp, ht, _, _, hpop⟩ := pop_facts cmp w (by omega) (by omega : 0 < h.size)
      have hne : h.empty = false := (empty_eq_false_iff h).mpr (by omega)
      have sh := sift_shuffled cmp (h.removeAt 0 it) 0
      have hsz := removeAt_size h hp
      have hperm := removeAt_sift_elems cmp h hp
      obtain ⟨out, ho1, ho2, ho3⟩ := ih (bubbleUp cmp (bubbleDown cmp (h.removeAt 0 it) 0) 0)
        (acc ++ [t]) (sh.wf (removeAt_WF w hp)) (removeAt_ordered s ho hs hp)
        (by rw [sh.size_eq]; omega) (by rw [sh.size_eq]; omega)
      refine ⟨t :: out, ?_, ?_, ?_⟩
      · unfold copySortedFuel
        simp only [hne, Bool.false_eq_true, if_false, ht, hpop, ho1, List.append_assoc,
          List.singleton_append]
      · exact (List.Perm.cons t ho2).trans hperm
      · rw [List.pairwise_cons]
        refine ⟨?_, ho3⟩
        intro x hx
        apply top_extremal s ho ht
        exact hperm.subset (List.mem_cons_of_mem _ (ho2.subset hx))

theorem toSortedVector_spec {cmp : T → T → Bool} (s : StrictWeakOrder cmp) {h : Heap T}
    (w : WF h) (ho : HeapOrdered cmp h) (hs : h.size < 2 ^ 31) :
    ∃ out, toSortedVector cmp h = some out ∧ List.Perm out h.elems ∧
      out.Pairwise (fun a b => cmp a b = false) := by
  obtain ⟨out, h1, h2, h3⟩ := copySortedFuel_spec s h.size h [] w ho hs (Nat.le_refl _)
  exact ⟨out, by simpa [toSortedVector, copySorted] using h1, h2, h3⟩

theorem insertAll_reachable (cmp : T → T → Bool) (l : List T) {h : Heap T}
    (r : Reachable cmp h) (hs : h.size + l.length < 2 ^ 31) :
    Reachable cmp (insertAll cmp h l).2 := by
  induction l generalizing h with
  | nil => exact r
  | cons v vs ih =>
    simp only [List.length_cons] at hs
    unfold insertAll
    apply ih (Reachable.insert v r (by omega))
    rw [insert_size]
    omega

theorem insertAll_elems (cmp : T → T → Bool) (l : List T) (h : Heap T) :
    List.Perm (insertAll cmp h l).2.elems (h.elems ++ l) := by
  induction l generalizing h with
  | nil => simp [insertAll]
  | cons v vs ih =>
    unfold insertAll
    refine (ih _).trans ?_
    have h1 : List.Perm (insert cmp h v).2.elems (h.elems ++ [v]) := by
      have := (insert_perm cmp h v).map Prod.fst
      simpa [Heap.elems] using this
    have h2 := h1.append_right vs
    simpa using h2


/-! ## Claims about heap order -/

theorem lessInt_false_iff (a b : Int) : lessInt a b = false ↔ b ≤ a := by
  simp [lessInt]

theorem greaterInt_false_iff (a b : Int) : greaterInt a b = false ↔ a ≤ b := by
  simp [greaterInt]

theorem ordered_at {cmp : T → T → Bool} {h : Heap T} (ho : HeapOrdered cmp h) {i : Nat}
    (h0 : 0 < i) (hi : i < h.size) :
    ∃ a b, h.getValAtPos ((i - 1) / 2) = some a ∧ h.getValAtPos i = some b ∧
      cmp a b = false := by
  obtain ⟨b, hb⟩ := getValAtPos_isSome hi
  obtain ⟨a, ha⟩ := getValAtPos_isSome (by omega : (i - 1) / 2 < h.size)
  exact ⟨a, b, ha, hb, ho i h0 a b ha hb⟩

/-- C1, as worded, fails: in the `MaxHeap<int>` obtained from the empty heap by
    `insert(5)` and `insert(3)` the parent of position 1 holds 5, position 1
    holds 3, and `Compare()(5, 3)` is false, not true. -/
theorem heap_order_as_worded_fails :
    Reachable lessInt (insert lessInt (insert lessInt (Heap.mkEmpty 0) 5).2 3).2 ∧
    (insert lessInt (insert lessInt (Heap.mkEmpty 0) 5).2 3).2.getValAtPos (getParentOf 1)
      = some 5 ∧
    (insert lessInt (insert lessInt (Heap.mkEmpty 0) 5).2 3).2.getValAtPos 1 = some 3 ∧
    ¬ (lessInt 5 3 = true) :=
  ⟨Reachable.insert 3 (Reachable.insert 5 (Reachable.empty 0) (by decide)) (by decide),
    by decide, by decide, by decide⟩

/-- C1 (amended): in every reachable heap over a strict weak ordering, for every
    non-root array position `i`, the parent position is `(i - 1) / 2` and
    `Compare()(element[parent(i)], element[i])` is false: the parent does not
    sort after the child. -/
theorem heap_order_invariant {cmp : T → T → Bool} (s : StrictWeakOrder cmp) {h : Heap T}
    (r : Reachable cmp h) (i : Nat) (h0 : 0 < i) (hi : i < h.size) :
    getParentOf i = (i - 1) / 2 ∧
    ∃ a b, h.getValAtPos (getParentOf i) = some a ∧ h.getValAtPos i = some b ∧
      cmp a b = false := by
  have hb := r.wf_bound.2
  have hp : getParentOf i = (i - 1) / 2 := getParentOf_eq h0 (by omega)
  rw [hp]
  exact ⟨rfl, ordered_at (r.ordered s) h0 hi⟩

/-- Witness for C1 (amended): the `MaxHeap<int>` after `insert(5)`, `insert(3)` at position 1. -/
theorem heap_order_invariant_witness :
    StrictWeakOrder lessInt ∧
    Reachable lessInt (insert lessInt (insert lessInt (Heap.mkEmpty 0) 5).2 3).2 ∧
    (getParentOf 1 = (1 - 1) / 2 ∧
      ∃ a b, (insert lessInt (insert lessInt (Heap.mkEmpty 0) 5).2 3).2.getValAtPos
          (getParentOf 1) = some a ∧
        (insert lessInt (insert lessInt (Heap.mkEmpty 0) 5).2 3).2.getValAtPos 1 = some b ∧
        lessInt a b = false) :=
  ⟨lessInt_strictWeakOrder,
    Reachable.insert 3 (Reachable.insert 5 (Reachable.empty 0) (by decide)) (by decide),
    heap_order_invariant lessInt_strictWeakOrder
      (Reachable.insert 3 (Reachable.insert 5 (Reachable.empty 0) (by decide)) (by decide))
      1 (by decide) (by decide)⟩

/-- C2: the standard binary-heap property.  For a strict weak ordering, in every
    heap reachable from an empty, copy- or range-constructed heap by `insert`,
    `update`, `erase` and `pop`, every non-root position `i` and its parent
    `(i - 1) / 2` hold elements `b` and `a` with `Compare()(a, b)` false; for
    `MaxHeap<int>` this is `a ≥ b`, for `MinHeap<int>` it is `a ≤ b`. -/
theorem binary_heap_property :
    (∀ (U : Type) (cmp : U → U → Bool), StrictWeakOrder cmp → ∀ h : Heap U,
      Reachable cmp h → ∀ i, 0 < i → i < h.size →
        ∃ a b, h.getValAtPos ((i - 1) / 2) = some a ∧ h.getValAtPos i = some b ∧
          cmp a b = false) ∧
    (∀ h : Heap Int, Reachable lessInt h → ∀ i, 0 < i → i < h.size →
      ∃ a b, h.getValAtPos ((i - 1) / 2) = some a ∧ h.getValAtPos i = some b ∧ b ≤ a) ∧
    (∀ h : Heap Int, Reachable greaterInt h → ∀ i, 0 < i → i < h.size →
      ∃ a b, h.getValAtPos ((i - 1) / 2) = some a ∧ h.getValAtPos i = some b ∧ a ≤ b) := by
  refine ⟨?_, ?_, ?_⟩
  · intro U cmp s h r i h0 hi
    exact ordered_at (r.ordered s) h0 hi
  · intro h r i h0 hi
    obtain ⟨a, b, ha, hb, hc⟩ := ordered_at (r.ordered lessInt_strictWeakOrder) h0 hi
    exact ⟨a, b, ha, hb, (lessInt_false_iff a b).mp hc⟩
  · intro h r i h0 hi
    obtain ⟨a, b, ha, hb, hc⟩ := ordered_at (r.ordered greaterInt_strictWeakOrder) h0 hi
    exact ⟨a, b, ha, hb, (greaterInt_false_iff a b).mp hc⟩

/-- Witness for C2: the `MinHeap<int>` built from `{3,5,2,5}` at position 3. -/
theorem binary_heap_property_witness :
    ∃ a b, (Heap.ofRange greaterInt 0 [3, 5, 2, 5]).getValAtPos ((3 - 1) / 2) = some a ∧
      (Heap.ofRange greaterInt 0 [3, 5, 2, 5]).getValAtPos 3 = some b ∧ a ≤ b :=
  binary_heap_property.2.2 (Heap.ofRange greaterInt 0 [3, 5, 2, 5])
    (Reachable.range 0 [3, 5, 2, 5] (by decide)) 3 (by decide) (by decide)

/-- C3: extremum correctness.  On every non-empty reachable heap over a strict
    weak ordering `top()` is a held element and no held element `x` satisfies
    `Compare()(top(), x)`; for `MaxHeap<int>` it is the maximum of the held
    values, for `MinHeap<int>` the minimum. -/
theorem top_is_extremum :
    (∀ (U : Type) (cmp : U → U → Bool), StrictWeakOrder cmp → ∀ h : Heap U,
      Reachable cmp h → 0 < h.size →
        ∃ t, top h = some t ∧ t ∈ h.elems ∧ ∀ x ∈ h.elems, ¬ (cmp t x = true)) ∧
    (∀ h : Heap Int, Reachable lessInt h → 0 < h.size →
      ∃ t, top h = some t ∧ t ∈ h.elems ∧ ∀ x ∈ h.elems, x ≤ t) ∧
    (∀ h : Heap Int, Reachable greaterInt h → 0 < h.size →
      ∃ t, top h = some t ∧ t ∈ h.elems ∧ ∀ x ∈ h.elems, t ≤ x) := by
  have key : ∀ (U : Type) (cmp : U → U → Bool), StrictWeakOrder cmp → ∀ h : Heap U,
      Reachable cmp h → 0 < h.size →
        ∃ t, top h = some t ∧ t ∈ h.elems ∧ ∀ x ∈ h.elems, cmp t x = false := by
    intro U cmp s h r hpos
    obtain ⟨t, ht⟩ := getValAtPos_isSome hpos
    exact ⟨t, ht, (mem_elems_iff h t).mpr ⟨0, ht⟩, top_extremal s (r.ordered s) ht⟩
  refine ⟨?_, ?_, ?_⟩
  · intro U cmp s h r hpos
    obtain ⟨t, h1, h2, h3⟩ := key U cmp s h r hpos
    exact ⟨t, h1, h2, fun x hx => by rw [h3 x hx]; simp⟩
  · intro h r hpos
    obtain ⟨t, h1, h2, h3⟩ := key Int lessInt lessInt_strictWeakOrder h r hpos
    exact ⟨t, h1, h2, fun x hx => (lessInt_false_iff t x).mp (h3 x hx)⟩
  · intro h r hpos
    obtain ⟨t, h1, h2, h3⟩ := key Int greaterInt greaterInt_strictWeakOrder h r hpos
    exact ⟨t, h1, h2, fun x hx => (greaterInt_false_iff t x).mp (h3 x hx)⟩

/-- Witness for C3: the `MaxHeap<int>` built from `{3,5,2,5}`. -/
theorem top_is_extremum_witness :
    ∃ t, top (Heap.ofRange lessInt 0 [3, 5, 2, 5]) = some t ∧
      t ∈ (Heap.ofRange lessInt 0 [3, 5, 2, 5]).elems ∧
      ∀ x ∈ (Heap.ofRange lessInt 0 [3, 5, 2, 5]).elems, x ≤ t :=
  top_is_extremum.2.1 (Heap.ofRange lessInt 0 [3, 5, 2, 5])
    (Reachable.range 0 [3, 5, 2, 5] (by decide)) (by decide)


/-! ## Claims about the sorted drain -/

theorem drain_eq_sorted_asc {h : Heap Int} (w : WF h) (ho : HeapOrdered greaterInt h)
    (hs : h.size < 2 ^ 31) {L : List Int} (hp : List.Perm h.elems L) :
    toSortedVector greaterInt h = some (L.insertionSort (fun a b => a ≤ b)) := by
  obtain ⟨out, h1, h2, h3⟩ := toSortedVector_spec greaterInt_strictWeakOrder w ho hs
  rw [h1]
  congr 1
  apply List.eq_of_perm_of_sorted (r := fun a b : Int => a ≤ b)
  · exact (h2.trans hp).trans (List.perm_insertionSort _ L).symm
  · exact h3.imp (fun {a b} hab => (greaterInt_false_iff a b).mp hab)
  · exact List.sorted_insertionSort _ L

theorem drain_eq_sorted_desc {h : Heap Int} (w : WF h) (ho : HeapOrdered lessInt h)
    (hs : h.size < 2 ^ 31) {L : List Int} (hp : List.Perm h.elems L) :
    toSortedVector lessInt h = some (L.insertionSort (fun a b => b ≤ a)) := by
  obtain ⟨out, h1, h2, h3⟩ := toSortedVector_spec lessInt_strictWeakOrder w ho hs
  rw [h1]
  congr 1
  haveI : IsAntisymm Int (fun a b => b ≤ a) := ⟨fun a b h1 h2 => le_antisymm h2 h1⟩
  haveI : IsTotal Int (fun a b => b ≤ a) := ⟨fun a b => le_total b a⟩
  haveI : IsTrans Int (fun a b => b ≤ a) := ⟨fun a b c h1 h2 => le_trans h2 h1⟩
  apply List.eq_of_perm_of_sorted (r := fun a b : Int => b ≤ a)
  · exact (h2.trans hp).trans (List.perm_insertionSort _ L).symm
  · exact h3.imp (fun {a b} hab => (lessInt_false_iff a b).mp hab)
  · exact List.sorted_insertionSort _ L

/-- C4: round trip through `insert`.  Inserting the elements of a list of ints
    one by one into an empty `MinHeap<int>` and calling `toSortedVector` yields
    the list sorted ascending; with `MaxHeap<int>` it yields the list sorted
    descending (lists within the capacity `2^31 - 1` of the index helpers). -/
theorem insert_round_trip (L : List Int) (n : Nat) (hL : L.length < 2 ^ 31) :
    toSortedVector greaterInt (insertAll greaterInt (Heap.mkEmpty n) L).2 =
      some (L.insertionSort (fun a b => a ≤ b)) ∧
    toSortedVector lessInt (insertAll lessInt (Heap.mkEmpty n) L).2 =
      some (L.insertionSort (fun a b => b ≤ a)) := by
  have hsz : (Heap.mkEmpty n : Heap Int).size + L.length < 2 ^ 31 := by
    simpa [Heap.mkEmpty, Heap.size] using hL
  constructor
  · have r := insertAll_reachable greaterInt L (Reachable.empty n) hsz
    have hp := insertAll_elems greaterInt L (Heap.mkEmpty n)
    exact drain_eq_sorted_asc r.wf_bound.1 (r.ordered greaterInt_strictWeakOrder)
      r.wf_bound.2 (by simpa [Heap.mkEmpty, Heap.elems] using hp)
  · have r := insertAll_reachable lessInt L (Reachable.empty n) hsz
    have hp := insertAll_elems lessInt L (Heap.mkEmpty n)
    exact drain_eq_sorted_desc r.wf_bound.1 (r.ordered lessInt_strictWeakOrder)
      r.wf_bound.2 (by simpa [Heap.mkEmpty, Heap.elems] using hp)

/-- Witness for C4: the list `7,4,2,9,15,3,6,4`, with a duplicate. -/
theorem insert_round_trip_witness :
    toSortedVector greaterInt (insertAll greaterInt (Heap.mkEmpty 0) [7, 4, 2, 9, 15, 3, 6, 4]).2 =
      some [2, 3, 4, 4, 6, 7, 9, 15] ∧
    toSortedVector lessInt (insertAll lessInt (Heap.mkEmpty 0) [7, 4, 2, 9, 15, 3, 6, 4]).2 =
      some [15, 9, 7, 6, 4, 4, 3, 2] :=
  insert_round_trip [7, 4, 2, 9, 15, 3, 6, 4] 0 (by decide)

/-- C6: the sorted drain.  For every reachable heap over a strict weak
    ordering, `copySorted` and `toSortedVector` return a sequence of length
    `size()` that is a permutation of the held elements and is in
    extremum-first order: `Compare()(a, b)` is false for consecutive outputs
    `a` then `b`, and indeed for any earlier output `a` and later output `b`. -/
theorem sorted_drain {cmp : T → T → Bool} (s : StrictWeakOrder cmp) {h : Heap T}
    (r : Reachable cmp h) :
    ∃ out, toSortedVector cmp h = some out ∧ copySorted cmp h = some out ∧
      out.length = h.size ∧ List.Perm out h.elems ∧
      out.Chain' (fun a b => cmp a b = false) ∧
      out.Pairwise (fun a b => cmp a b = false) := by
  obtain ⟨out, h1, h2, h3⟩ := toSortedVector_spec s r.wf_bound.1 (r.ordered s) r.wf_bound.2
  refine ⟨out, h1, h1, ?_, h2, List.Pairwise.chain' h3, h3⟩
  rw [h2.length_eq, elems_length]

/-- Witness for C6: the `MaxHeap<int>` after inserting `1,3,2,3`. -/
theorem sorted_drain_witness :
    ∃ out, toSortedVector lessInt (insertAll lessInt (Heap.mkEmpty 0) [1, 3, 2, 3]).2 = some out ∧
      copySorted lessInt (insertAll lessInt (Heap.mkEmpty 0) [1, 3, 2, 3]).2 = some out ∧
      out.length = (insertAll lessInt (Heap.mkEmpty 0) [1, 3, 2, 3]).2.size ∧
      List.Perm out (insertAll lessInt (Heap.mkEmpty 0) [1, 3, 2, 3]).2.elems ∧
      out.Chain' (fun a b => lessInt a b = false) ∧
      out.Pairwise (fun a b => lessInt a b = false) :=
  sorted_drain lessInt_strictWeakOrder
    (insertAll_reachable lessInt [1, 3, 2, 3] (Reachable.empty 0) (by decide))


/-! ## Claims about handles and the registry -/

theorem get_live_of_mem {h : Heap T} (w : WF h) {it : Nat} {x : T}
    (hm : (x, it) ∈ h.mHeapData) : h.live ⟨some it⟩ ∧ get h ⟨some it⟩ = some x :=
  ⟨(live_iff w it).mpr ⟨x, hm⟩, (get_eq_some_iff w it x).mpr hm⟩

theorem assign_sift_mem (cmp : T → T → Bool) (h : Heap T) {pos it : Nat} {old : T}
    (hp : h.mHeapData[pos]? = some (old, it)) (v : T) :
    List.Perm ((old, it) :: (bubbleUp cmp (bubbleDown cmp (h.assign pos v it) pos) pos).mHeapData)
      ((v, it) :: h.mHeapData) :=
  (List.Perm.cons _ (sift_shuffled cmp (h.assign pos v it) pos).perm).trans (perm_cons_set hp)

theorem removeAt_sift_perm (cmp : T → T → Bool) (h : Heap T) {pos it : Nat} {old : T}
    (hp : h.mHeapData[pos]? = some (old, it)) :
    List.Perm ((old, it) :: (bubbleUp cmp (bubbleDown cmp (h.removeAt pos it) pos) pos).mHeapData)
      h.mHeapData :=
  (List.Perm.cons _ (sift_shuffled cmp (h.removeAt pos it) pos).perm).trans (removeAt_perm h hp)

theorem mem_tail_of_perm_cons {α : Type} {a b x : α} {l₁ l₂ : List α}
    (hp : List.Perm (a :: l₁) (b :: l₂)) (hx : x ∈ l₂) (hxa : x ≠ a) : x ∈ l₁ := by
  have := hp.symm.subset (List.mem_cons_of_mem b hx)
  rcases List.mem_cons.mp this with h | h
  · exact absurd h hxa
  · exact h

theorem mem_of_perm_cons {α : Type} {a x : α} {l₁ l₂ : List α}
    (hp : List.Perm (a :: l₁) l₂) (hx : x ∈ l₂) (hxa : x ≠ a) : x ∈ l₁ := by
  have := hp.symm.subset hx
  rcases List.mem_cons.mp this with h | h
  · exact absurd h hxa
  · exact h

/-- C7: handle stability.  In a reachable heap let `h1` be a live handle with
    `get(h1) == x`.  After `insert(v)`, after `update(h2, v)` or `erase(h2)`
    with a live handle `h2 != h1`, and after `pop()` when `h1` is not the top
    handle, `h1` is still live and `get(h1)` is still `x`. -/
theorem handle_stability {cmp : T → T → Bool} {h : Heap T} (r : Reachable cmp h)
    {h1 : Handle} {x : T} (hl : h.live h1) (hg : get h h1 = some x) :
    (∀ v, (insert cmp h v).2.live h1 ∧ get (insert cmp h v).2 h1 = some x) ∧
    (∀ h2 v, h.live h2 → h2 ≠ h1 →
      ∃ h', update cmp h h2 v = some h' ∧ h'.live h1 ∧ get h' h1 = some x) ∧
    (∀ h2, h.live h2 → h2 ≠ h1 →
      ∃ h', erase cmp h h2 = some h' ∧ h'.live h1 ∧ get h' h1 = some x) ∧
    (topHandle h ≠ some h1 →
      ∃ h', pop cmp h = some h' ∧ h'.live h1 ∧ get h' h1 = some x) := by
  obtain ⟨w, hb⟩ := r.wf_bound
  obtain ⟨it1, rfl⟩ := live_exists_id hl
  have hm : (x, it1) ∈ h.mHeapData := (get_eq_some_iff w it1 x).mp hg
  refine ⟨?_, ?_, ?_, ?_⟩
  · intro v
    apply get_live_of_mem (insert_WF cmp w v)
    exact (insert_perm cmp h v).symm.subset (List.mem_append_left _ hm)
  · intro h2 v hl2 hne
    obtain ⟨it2, old, pos, rfl, hp, hu⟩ := update_facts cmp w hl2 v
    refine ⟨_, hu, ?_⟩
    apply get_live_of_mem ((sift_shuffled cmp _ pos).wf (assign_WF w hp v))
    apply mem_tail_of_perm_cons (assign_sift_mem cmp h hp v) hm
    intro e
    apply hne
    rw [(Prod.mk.inj e).2]
  · intro h2 hl2 hne
    obtain ⟨it2, old, pos, rfl, hp, hu⟩ := erase_facts cmp w (by omega) hl2
    refine ⟨_, hu, ?_⟩
    apply get_live_of_mem ((sift_shuffled cmp _ pos).wf (removeAt_WF w hp))
    apply mem_of_perm_cons (removeAt_sift_perm cmp h hp) hm
    intro e
    apply hne
    rw [(Prod.mk.inj e).2]
  · intro hne
    obtain ⟨t, it, hp, _, hth, _, hu⟩ := pop_facts cmp w (by omega) (size_pos_of_live w hl)
    refine ⟨_, hu, ?_⟩
    apply get_live_of_mem ((sift_shuffled cmp _ 0).wf (removeAt_WF w hp))
    apply mem_of_perm_cons (removeAt_sift_perm cmp h hp) hm
    intro e
    apply hne
    rw [hth, (Prod.mk.inj e).2]

/-- Witness for C7: the handle of the element 2 in the `MaxHeap<int>` after inserting `3,2,1`. -/
theorem handle_stability_witness :
    (insertAll lessInt (Heap.mkEmpty 0) [3, 2, 1]).2.live ⟨some 1⟩ ∧
    get (insertAll lessInt (Heap.mkEmpty 0) [3, 2, 1]).2 ⟨some 1⟩ = some 2 ∧
    ((∀ v, (insert lessInt (insertAll lessInt (Heap.mkEmpty 0) [3, 2, 1]).2 v).2.live ⟨some 1⟩ ∧
        get (insert lessInt (insertAll lessInt (Heap.mkEmpty 0) [3, 2, 1]).2 v).2 ⟨some 1⟩
          = some 2) ∧
      (∀ h2 v, (insertAll lessInt (Heap.mkEmpty 0) [3, 2, 1]).2.live h2 → h2 ≠ ⟨some 1⟩ →
        ∃ h', update lessInt (insertAll lessInt (Heap.mkEmpty 0) [3, 2, 1]).2 h2 v = some h' ∧
          h'.live ⟨some 1⟩ ∧ get h' ⟨some 1⟩ = some 2) ∧
      (∀ h2, (insertAll lessInt (Heap.mkEmpty 0) [3, 2, 1]).2.live h2 → h2 ≠ ⟨some 1⟩ →
        ∃ h', erase lessInt (insertAll lessInt (Heap.mkEmpty 0) [3, 2, 1]).2 h2 = some h' ∧
          h'.live ⟨some 1⟩ ∧ get h' ⟨some 1⟩ = some 2) ∧
      (topHandle (insertAll lessInt (Heap.mkEmpty 0) [3, 2, 1]).2 ≠ some ⟨some 1⟩ →
        ∃ h', pop lessInt (insertAll lessInt (Heap.mkEmpty 0) [3, 2, 1]).2 = some h' ∧
          h'.live ⟨some 1⟩ ∧ get h' ⟨some 1⟩ = some 2)) :=
  ⟨by decide, by decide,
    handle_stability (insertAll_reachable lessInt [3, 2, 1] (Reachable.empty 0) (by decide))
      (by decide) (by decide)⟩

/-- C8: the registry and the array are in bijection.  In every reachable heap
    the registry has exactly `size()` entries with pairwise distinct
    identities; every array index `i` below `size()` has a back-link to a
    registry entry whose stored position is `i`; distinct indices link to
    distinct entries; and every registry entry is the back-link of exactly one
    index, the position it stores. -/
theorem registry_bijection {cmp : T → T → Bool} {h : Heap T} (r : Reachable cmp h) :
    h.mValPos.length = h.size ∧
    (h.mValPos.map Prod.fst).Nodup ∧
    (∀ i, i < h.size → ∃ v it, h.mHeapData[i]? = some (v, it) ∧ (it, i) ∈ h.mValPos ∧
      nodeGet h.mValPos it = some i) ∧
    (∀ (i j : Nat) (e₁ e₂ : T × Nat), h.mHeapData[i]? = some e₁ → h.mHeapData[j]? = some e₂ → i ≠ j →
      e₁.2 ≠ e₂.2) ∧
    (∀ n ∈ h.mValPos, (∃ v, h.mHeapData[n.2]? = some (v, n.1)) ∧
      ∀ i v, h.mHeapData[i]? = some (v, n.1) → i = n.2) := by
  obtain ⟨w, _⟩ := r.wf_bound
  refine ⟨w.length_eq, w.nodup, ?_, ?_, ?_⟩
  · intro i hi
    have he : h.mHeapData[i]? = some (h.mHeapData[i]) := List.getElem?_eq_getElem hi
    have hn := w.link i _ he
    exact ⟨(h.mHeapData[i]).1, (h.mHeapData[i]).2, he, mem_of_nodeGet hn, hn⟩
  · intro i j e₁ e₂ h1 h2 hij e
    exact hij (w.link_inj h1 h2 e)
  · intro n hn
    obtain ⟨k, p⟩ := n
    have hg : nodeGet h.mValPos k = some p := nodeGet_eq_some_of_mem w.nodup hn
    obtain ⟨v, hv⟩ := w.slot_of_node hg
    refine ⟨⟨v, hv⟩, ?_⟩
    intro i v' hi
    exact w.link_inj hi hv rfl

/-- Witness for C8: the `MinHeap<int>` built from `{3,5,2,5}`. -/
theorem registry_bijection_witness :
    (Heap.ofRange greaterInt 0 [3, 5, 2, 5]).mValPos.length =
      (Heap.ofRange greaterInt 0 [3, 5, 2, 5]).size ∧
    ((Heap.ofRange greaterInt 0 [3, 5, 2, 5]).mValPos.map Prod.fst).Nodup ∧
    (∀ i, i < (Heap.ofRange greaterInt 0 [3, 5, 2, 5]).size →
      ∃ v it, (Heap.ofRange greaterInt 0 [3, 5, 2, 5]).mHeapData[i]? = some (v, it) ∧
        (it, i) ∈ (Heap.ofRange greaterInt 0 [3, 5, 2, 5]).mValPos ∧
        nodeGet (Heap.ofRange greaterInt 0 [3, 5, 2, 5]).mValPos it = some i) ∧
    (∀ (i j : Nat) (e₁ e₂ : Int × Nat), (Heap.ofRange greaterInt 0 [3, 5, 2, 5]).mHeapData[i]? = some e₁ →
      (Heap.ofRange greaterInt 0 [3, 5, 2, 5]).mHeapData[j]? = some e₂ → i ≠ j →
      e₁.2 ≠ e₂.2) ∧
    (∀ n ∈ (Heap.ofRange greaterInt 0 [3, 5, 2, 5]).mValPos,
      (∃ v, (Heap.ofRange greaterInt 0 [3, 5, 2, 5]).mHeapData[n.2]? = some (v, n.1)) ∧
      ∀ i v, (Heap.ofRange greaterInt 0 [3, 5, 2, 5]).mHeapData[i]? = some (v, n.1) →
        i = n.2) :=
  registry_bijection (Reachable.range 0 [3, 5, 2, 5] (by decide))


/-! ## The update test of `testsAdvanced.cpp` -/

theorem insert_nextNode (cmp : T → T → Bool) (h : Heap T) (v : T) :
    (insert cmp h v).2.nextNode = h.nextNode + 1 :=
  (insert_shuffled cmp h v).nextNode_eq

theorem insertAll_castRange (cmp : Int → Int → Bool) (m : Nat) (h : Heap Int) (s : Nat)
    (hs : h.nextNode = s) :
    (insertAll cmp h ((List.range' s m).map (fun (k : Nat) => (k : Int)))).1 =
        (List.range' s m).map (fun (k : Nat) => (⟨some k⟩ : Handle)) ∧
    List.Perm (insertAll cmp h ((List.range' s m).map (fun (k : Nat) => (k : Int)))).2.mHeapData
      (h.mHeapData ++ (List.range' s m).map (fun (k : Nat) => ((k : Int), k))) := by
  induction m generalizing h s with
  | zero => simp [insertAll]
  | succ m ih =>
    rw [List.range'_succ]
    simp only [List.map_cons]
    unfold insertAll
    have hn : (insert cmp h (s : Int)).2.nextNode = s + 1 := by
      rw [insert_nextNode, hs]
    obtain ⟨ih1, ih2⟩ := ih (insert cmp h (s : Int)).2 (s + 1) hn
    constructor
    · show (insert cmp h (s : Int)).1 :: _ = _
      rw [ih1]
      congr 1
      show (⟨some h.nextNode⟩ : Handle) = ⟨some s⟩
      rw [hs]
    · refine ih2.trans ?_
      have hp := insert_perm cmp h (s : Int)
      rw [hs] at hp
      have := hp.append_right ((List.range' (s + 1) m).map (fun (k : Nat) => ((k : Int), k)))
      simpa using this

theorem negateAll_spec (R : List Nat) (P : List (Int × Nat)) (h : Heap Int)
    (r : Reachable lessInt h)
    (hp : List.Perm h.mHeapData (P ++ R.map (fun (k : Nat) => ((k : Int), k)))) :
    ∃ h', negateAll lessInt h (R.map (fun (k : Nat) => (⟨some k⟩ : Handle))) = some h' ∧
      Reachable lessInt h' ∧
      List.Perm h'.mHeapData (P ++ R.map (fun (k : Nat) => (-(k : Int), k))) := by
  induction R generalizing P h with
  | nil => exact ⟨h, rfl, r, hp⟩
  | cons k R ih =>
    obtain ⟨w, _⟩ := r.wf_bound
    have hm : ((k : Int), k) ∈ h.mHeapData :=
      hp.symm.subset (List.mem_append_right _ (List.mem_cons_self _ _))
    obtain ⟨hl, hg⟩ := get_live_of_mem w hm
    obtain ⟨it, old, pos, hid, hpos, hu⟩ := update_facts lessInt w hl (-(k : Int))
    have hit : it = k := by
      cases hid
      rfl
    subst hit
    have hold : old = (it : Int) := by
      have h1 := (get_eq_some_iff w it old).mpr (List.mem_iff_getElem?.mpr ⟨pos, hpos⟩)
      rw [hg] at h1
      exact (Option.some.inj h1).symm
    subst hold
    have hperm := assign_sift_mem lessInt h hpos (-(it : Int))
    have hr : Reachable lessInt
        (bubbleUp lessInt (bubbleDown lessInt (h.assign pos (-(it : Int)) it) pos) pos) :=
      Reachable.update _ _ r hl hu
    have hp' : List.Perm
        (bubbleUp lessInt (bubbleDown lessInt (h.assign pos (-(it : Int)) it) pos) pos).mHeapData
        ((P ++ [(-(it : Int), it)]) ++ R.map (fun (k : Nat) => ((k : Int), k))) := by
      have h1 : List.Perm ((-(it : Int), it) :: h.mHeapData)
          (((it : Int), it) :: ((P ++ [(-(it : Int), it)]) ++
            R.map (fun (k : Nat) => ((k : Int), k)))) := by
        refine (List.Perm.cons _ hp).trans ?_
        simp only [List.map_cons, List.append_assoc, List.singleton_append]
        refine (List.Perm.cons _ List.perm_middle).trans ?_
        refine (List.Perm.swap _ _ _).trans ?_
        exact List.Perm.cons _ List.perm_middle.symm
      exact (hperm.trans h1).cons_inv
    obtain ⟨h', e1, e2, e3⟩ := ih (P ++ [(-(it : Int), it)]) _ hr hp'
    refine ⟨h', ?_, e2, ?_⟩
    · simp only [List.map_cons]
      unfold negateAll
      simp only [hg, hu]
      exact e1
    · simpa using e3

theorem mem_negRange {s m : Nat} {x : Int}
    (hx : x ∈ (List.range' s m).map (fun (k : Nat) => -(k : Int))) : x ≤ -(s : Int) := by
  obtain ⟨k, hk, rfl⟩ := List.mem_map.mp hx
  have := (List.mem_range'_1.mp hk).1
  omega

theorem top_of_negRange {h : Heap Int} (r : Reachable lessInt h) {s m : Nat}
    (hp : List.Perm h.elems ((List.range' s (m + 1)).map (fun (k : Nat) => -(k : Int)))) :
    top h = some (-(s : Int)) := by
  have hpos : 0 < h.size := by
    rw [← elems_length, hp.length_eq]
    simp
  obtain ⟨t, ht⟩ := getValAtPos_isSome hpos
  have hmem : t ∈ h.elems := (mem_elems_iff h t).mpr ⟨0, ht⟩
  have h1 : t ≤ -(s : Int) := mem_negRange (hp.subset hmem)
  have hs : -(s : Int) ∈ h.elems := by
    apply hp.symm.subset
    rw [List.range'_succ]
    exact List.mem_cons_self _ _
  have h2 := (lessInt_false_iff t _).mp
    (top_extremal lessInt_strictWeakOrder (r.ordered lessInt_strictWeakOrder) ht _ hs)
  have : t = -(s : Int) := by omega
  rw [← this]
  exact ht

/-- The update test for any upper end `n` within the capacity: after inserting
    `0..n` into a `MaxHeap<int>` and negating every element through its handle,
    `top()` is `0`, and after one `pop()` it is `-1`. -/
theorem negatedHeap_tops_general (n : Nat) (hn : n + 2 < 2 ^ 31) :
    (negatedHeap (n + 1)).bind top = some 0 ∧
    ((negatedHeap (n + 1)).bind (pop lessInt)).bind top = some (-1) := by
  have hrange : rangeUpTo (n + 1) = (List.range' 0 (n + 2)).map (fun (k : Nat) => (k : Int)) := by
    unfold rangeUpTo
    rw [List.range_eq_range']
  obtain ⟨i1, i2⟩ := insertAll_castRange lessInt (n + 2) (Heap.mkEmpty 0) 0 rfl
  have r0 : Reachable lessInt (insertAll lessInt (Heap.mkEmpty 0) (rangeUpTo (n + 1))).2 := by
    apply insertAll_reachable lessInt _ (Reachable.empty 0)
    simp [rangeUpTo, Heap.mkEmpty, Heap.size]
    omega
  rw [← hrange] at i1 i2
  obtain ⟨h', e1, e2, e3⟩ := negateAll_spec (List.range' 0 (n + 2)) [] _ r0
    (by simpa [Heap.mkEmpty] using i2)
  have hneg : negatedHeap (n + 1) = some h' := by
    unfold negatedHeap
    rw [i1]
    exact e1
  have hel : List.Perm h'.elems ((List.range' 0 (n + 2)).map (fun (k : Nat) => -(k : Int))) := by
    have := e3.map Prod.fst
    simpa [Heap.elems, Function.comp] using this
  have htop : top h' = some 0 := by
    have := top_of_negRange e2 hel
    simpa using this
  rw [hneg]
  refine ⟨htop, ?_⟩
  obtain ⟨w, hb⟩ := e2.wf_bound
  have hpos : 0 < h'.size := by
    rw [← elems_length, hel.length_eq]
    simp
  obtain ⟨t, it, hp0, ht, _, _, hpop⟩ := pop_facts lessInt w (by omega) hpos
  have ht0 : t = 0 := by
    rw [htop] at ht
    exact (Option.some.inj ht).symm
  subst ht0
  have r2 : Reachable lessInt (bubbleUp lessInt (bubbleDown lessInt (h'.removeAt 0 it) 0) 0) :=
    Reachable.pop e2 hpop
  have hel2 : List.Perm (bubbleUp lessInt (bubbleDown lessInt (h'.removeAt 0 it) 0) 0).elems
      ((List.range' 1 (n + 1)).map (fun (k : Nat) => -(k : Int))) := by
    have h1 := (removeAt_sift_elems lessInt h' hp0).trans hel
    rw [List.range'_succ] at h1
    simp only [List.map_cons, Nat.cast_zero, neg_zero, Nat.zero_add] at h1
    exact h1.cons_inv
  have := top_of_negRange r2 hel2
  simp only [Option.some_bind, Option.bind_eq_bind, hpop]
  simpa using this

theorem negatedHeap_tops :
    (negatedHeap 100).bind top = some 0 ∧
    ((negatedHeap 100).bind (pop lessInt)).bind top = some (-1) :=
  negatedHeap_tops_general 99 (by decide)


/-! ## Claims about insert and update -/

/-- C9: the contract of `insert`.  On a reachable heap `insert(v)` returns a
    handle that was not live before and is live afterwards with `get` equal to
    `v`; `size()` grows by exactly one; the held elements are the old ones plus
    one occurrence of `v`. -/
theorem insert_contract {cmp : T → T → Bool} {h : Heap T} (r : Reachable cmp h) (v : T) :
    ¬ h.live (insert cmp h v).1 ∧
    (insert cmp h v).2.live (insert cmp h v).1 ∧
    get (insert cmp h v).2 (insert cmp h v).1 = some v ∧
    (insert cmp h v).2.size = h.size + 1 ∧
    List.Perm (insert cmp h v).2.elems (v :: h.elems) := by
  obtain ⟨w, _⟩ := r.wf_bound
  have hfst : (insert cmp h v).1 = ⟨some h.nextNode⟩ := rfl
  have hm : (v, h.nextNode) ∈ (insert cmp h v).2.mHeapData :=
    (insert_perm cmp h v).symm.subset (List.mem_append_right _ (List.mem_singleton.mpr rfl))
  obtain ⟨h1, h2⟩ := get_live_of_mem (insert_WF cmp w v) hm
  rw [hfst]
  refine ⟨?_, h1, h2, insert_size cmp h v, ?_⟩
  · intro hl
    have := w.fresh _ ((live_iff_key h.nextNode).mp hl)
    omega
  · have hp := (insert_perm cmp h v).map Prod.fst
    simp only [List.map_append, List.map_cons, List.map_nil] at hp
    exact hp.trans (List.perm_append_singleton v _)

/-- Witness for C9: `insert(1)` into the `MinHeap<int>` built from `{3,5,2,5}`. -/
theorem insert_contract_witness :
    ¬ (Heap.ofRange greaterInt 0 [3, 5, 2, 5]).live
        (insert greaterInt (Heap.ofRange greaterInt 0 [3, 5, 2, 5]) 1).1 ∧
    (insert greaterInt (Heap.ofRange greaterInt 0 [3, 5, 2, 5]) 1).2.live
        (insert greaterInt (Heap.ofRange greaterInt 0 [3, 5, 2, 5]) 1).1 ∧
    get (insert greaterInt (Heap.ofRange greaterInt 0 [3, 5, 2, 5]) 1).2
        (insert greaterInt (Heap.ofRange greaterInt 0 [3, 5, 2, 5]) 1).1 = some 1 ∧
    (insert greaterInt (Heap.ofRange greaterInt 0 [3, 5, 2, 5]) 1).2.size =
        (Heap.ofRange greaterInt 0 [3, 5, 2, 5]).size + 1 ∧
    List.Perm (insert greaterInt (Heap.ofRange greaterInt 0 [3, 5, 2, 5]) 1).2.elems
        (1 :: (Heap.ofRange greaterInt 0 [3, 5, 2, 5]).elems) :=
  insert_contract (Reachable.range 0 [3, 5, 2, 5] (by decide)) 1

/-- C10: the contract of `update`.  On a reachable heap over a strict weak
    ordering, `update(h, v)` on a live handle `h` keeps `h` live with
    `get(h) == v`, leaves `size()` unchanged, replaces one occurrence of the old
    `get(h)` by `v` among the held elements, and restores the binary-heap
    property.  Inserting `0..100` into a `MaxHeap<int>` and updating every
    handle to the negation of its value gives `top() == 0` and, after one
    `pop()`, `top() == -1`. -/
theorem update_contract {cmp : T → T → Bool} (s : StrictWeakOrder cmp) {h : Heap T}
    (r : Reachable cmp h) {hd : Handle} (hl : h.live hd) (v : T) :
    (∃ h' old, update cmp h hd v = some h' ∧ get h hd = some old ∧
      h'.live hd ∧ get h' hd = some v ∧ h'.size = h.size ∧
      List.Perm (old :: h'.elems) (v :: h.elems) ∧
      ∀ i, 0 < i → i < h'.size →
        ∃ a b, h'.getValAtPos ((i - 1) / 2) = some a ∧ h'.getValAtPos i = some b ∧
          cmp a b = false) ∧
    ((negatedHeap 100).bind top = some 0 ∧
      ((negatedHeap 100).bind (pop lessInt)).bind top = some (-1)) := by
  refine ⟨?_, negatedHeap_tops⟩
  obtain ⟨w, hb⟩ := r.wf_bound
  obtain ⟨it, old, pos, rfl, hp, hu⟩ := update_facts cmp w hl v
  have hps : pos < h.size := (List.getElem?_eq_some_iff.mp hp).1
  have sh := sift_shuffled cmp (h.assign pos v it) pos
  have hperm := assign_sift_mem cmp h hp v
  have hm : (v, it) ∈ (bubbleUp cmp (bubbleDown cmp (h.assign pos v it) pos) pos).mHeapData := by
    apply sh.perm.symm.subset
    show (v, it) ∈ h.mHeapData.set pos (v, it)
    exact List.mem_iff_getElem?.mpr ⟨pos, by
      rw [List.getElem?_set_self (by simpa [Heap.size] using hps)]⟩
  obtain ⟨h1, h2⟩ := get_live_of_mem (sh.wf (assign_WF w hp v)) hm
  refine ⟨_, old, hu, ?_, h1, h2, ?_, ?_, ?_⟩
  · exact (get_eq_some_iff w it old).mpr (List.mem_iff_getElem?.mpr ⟨pos, hp⟩)
  · rw [sh.size_eq, assign_size]
  · exact hperm.map Prod.fst
  · intro i h0 hi
    exact ordered_at (assign_ordered s (r.ordered s) hb hps v it) h0 hi

/-- Witness for C10: `update` of the handle of the element 2 to 7 in the `MinHeap<int>` built
    from `{3,5,2,5}`. -/
theorem update_contract_witness :
    (∃ h' old, update greaterInt (Heap.ofRange greaterInt 0 [3, 5, 2, 5]) ⟨some 2⟩ 7 = some h' ∧
      get (Heap.ofRange greaterInt 0 [3, 5, 2, 5]) ⟨some 2⟩ = some old ∧
      h'.live ⟨some 2⟩ ∧ get h' ⟨some 2⟩ = some 7 ∧
      h'.size = (Heap.ofRange greaterInt 0 [3, 5, 2, 5]).size ∧
      List.Perm (old :: h'.elems) (7 :: (Heap.ofRange greaterInt 0 [3, 5, 2, 5]).elems) ∧
      ∀ i, 0 < i → i < h'.size →
        ∃ a b, h'.getValAtPos ((i - 1) / 2) = some a ∧ h'.getValAtPos i = some b ∧
          greaterInt a b = false) ∧
    ((negatedHeap 100).bind top = some 0 ∧
      ((negatedHeap 100).bind (pop lessInt)).bind top = some (-1)) :=
  update_contract greaterInt_strictWeakOrder (Reachable.range 0 [3, 5, 2, 5] (by decide))
    (by decide) 7


/-! ## Claims about erase, pop and the empty heap -/

theorem removeAt_keys {h : Heap T} (w : WF h) (pos it k : Nat) :
    k ∈ (h.removeAt pos it).mValPos.map Prod.fst ↔
      k ∈ h.mValPos.map Prod.fst ∧ k ≠ it := by
  constructor
  · intro hk
    obtain ⟨p, hp⟩ := nodeGet_of_mem_keys hk
    rw [removeAt_nodeGet w] at hp
    by_cases hki : k = it
    · rw [if_pos hki] at hp
      cases hp
    · rw [if_neg hki] at hp
      have : k ∈ (h.swapElementsAtIndices pos (h.size - 1)).mValPos.map Prod.fst :=
        List.mem_map.mpr ⟨(k, p), mem_of_nodeGet hp, rfl⟩
      rw [swap_keys] at this
      exact ⟨this, hki⟩
  · rintro ⟨hk, hki⟩
    rw [← swap_keys h pos (h.size - 1)] at hk
    obtain ⟨p, hp⟩ := nodeGet_of_mem_keys hk
    have h2 : nodeGet (h.removeAt pos it).mValPos k = some p := by
      rw [removeAt_nodeGet w, if_neg hki]
      exact hp
    exact List.mem_map.mpr ⟨(k, p), mem_of_nodeGet h2, rfl⟩

theorem not_live_default (h : Heap T) : ¬ h.live ⟨none⟩ := by
  simp [Heap.live, Heap.deref]

theorem erase_sift_live {cmp : T → T → Bool} {h : Heap T} (w : WF h) (pos it : Nat)
    (hd : Handle) :
    (bubbleUp cmp (bubbleDown cmp (h.removeAt pos it) pos) pos).live hd ↔
      h.live hd ∧ hd ≠ ⟨some it⟩ := by
  obtain ⟨m⟩ := hd
  cases m with
  | none =>
    constructor
    · intro hl
      exact absurd hl (not_live_default _)
    · intro hl
      exact absurd hl.1 (not_live_default _)
  | some k =>
    rw [live_iff_key, live_iff_key, (sift_shuffled cmp (h.removeAt pos it) pos).keys_eq,
      removeAt_keys w]
    constructor
    · rintro ⟨h1, h2⟩
      refine ⟨h1, ?_⟩
      intro e
      cases e
      exact h2 rfl
    · rintro ⟨h1, h2⟩
      refine ⟨h1, ?_⟩
      intro e
      apply h2
      rw [e]

/-- C11: the contract of `erase`.  On a reachable heap over a strict weak
    ordering, `erase(h)` on a live handle `h` decreases `size()` by exactly
    one, removes the registry entry of `h` and no other (a handle is live
    afterwards exactly when it was live before and is not `h`), removes one
    occurrence of the old `get(h)` from the held elements, and restores the
    binary-heap property. -/
theorem erase_contract {cmp : T → T → Bool} (s : StrictWeakOrder cmp) {h : Heap T}
    (r : Reachable cmp h) {hd : Handle} (hl : h.live hd) :
    ∃ h' old, erase cmp h hd = some h' ∧ get h hd = some old ∧
      h'.size + 1 = h.size ∧
      h'.mValPos.length + 1 = h.mValPos.length ∧
      ¬ h'.live hd ∧
      (∀ hd₂, hd₂ ≠ hd → (h'.live hd₂ ↔ h.live hd₂)) ∧
      (∀ hd₂ x, hd₂ ≠ hd → get h hd₂ = some x → get h' hd₂ = some x) ∧
      List.Perm (old :: h'.elems) h.elems ∧
      ∀ i, 0 < i → i < h'.size →
        ∃ a b, h'.getValAtPos ((i - 1) / 2) = some a ∧ h'.getValAtPos i = some b ∧
          cmp a b = false := by
  obtain ⟨w, hb⟩ := r.wf_bound
  obtain ⟨it, old, pos, rfl, hp, hu⟩ := erase_facts cmp w (by omega) hl
  have sh := sift_shuffled cmp (h.removeAt pos it) pos
  have w' : WF (bubbleUp cmp (bubbleDown cmp (h.removeAt pos it) pos) pos) :=
    sh.wf (removeAt_WF w hp)
  have hsz : (bubbleUp cmp (bubbleDown cmp (h.removeAt pos it) pos) pos).size + 1 = h.size := by
    rw [sh.size_eq]
    exact removeAt_size h hp
  refine ⟨_, old, hu, ?_, hsz, ?_, ?_, ?_, ?_, removeAt_sift_elems cmp h hp, ?_⟩
  · exact (get_eq_some_iff w it old).mpr (List.mem_iff_getElem?.mpr ⟨pos, hp⟩)
  · have h1 := w'.length_eq
    have h2 := w.length_eq
    simp only [Heap.size] at hsz
    omega
  · intro hl'
    exact ((erase_sift_live w pos it _).mp hl').2 rfl
  · intro hd₂ hne
    rw [erase_sift_live w pos it hd₂]
    exact ⟨fun h1 => h1.1, fun h1 => ⟨h1, hne⟩⟩
  · intro hd₂ x hne hg
    obtain ⟨m⟩ := hd₂
    cases m with
    | none => simp [get, Heap.deref] at hg
    | some k =>
      have hm : (x, k) ∈ h.mHeapData := (get_eq_some_iff w k x).mp hg
      apply (get_eq_some_iff w' k x).mpr
      apply mem_of_perm_cons (removeAt_sift_perm cmp h hp) hm
      intro e
      apply hne
      rw [(Prod.mk.inj e).2]
  · intro i h0 hi
    exact ordered_at (removeAt_ordered s (r.ordered s) hb hp) h0 hi

/-- Witness for C11: `erase` of the handle of the element 2 in the `MinHeap<int>` built
    from `{3,5,2,5}`. -/
theorem erase_contract_witness :
    ∃ h' old, erase greaterInt (Heap.ofRange greaterInt 0 [3, 5, 2, 5]) ⟨some 2⟩ = some h' ∧
      get (Heap.ofRange greaterInt 0 [3, 5, 2, 5]) ⟨some 2⟩ = some old ∧
      h'.size + 1 = (Heap.ofRange greaterInt 0 [3, 5, 2, 5]).size ∧
      h'.mValPos.length + 1 = (Heap.ofRange greaterInt 0 [3, 5, 2, 5]).mValPos.length ∧
      ¬ h'.live ⟨some 2⟩ ∧
      (∀ hd₂, hd₂ ≠ ⟨some 2⟩ →
        (h'.live hd₂ ↔ (Heap.ofRange greaterInt 0 [3, 5, 2, 5]).live hd₂)) ∧
      (∀ hd₂ x, hd₂ ≠ ⟨some 2⟩ → get (Heap.ofRange greaterInt 0 [3, 5, 2, 5]) hd₂ = some x →
        get h' hd₂ = some x) ∧
      List.Perm (old :: h'.elems) (Heap.ofRange greaterInt 0 [3, 5, 2, 5]).elems ∧
      ∀ i, 0 < i → i < h'.size →
        ∃ a b, h'.getValAtPos ((i - 1) / 2) = some a ∧ h'.getValAtPos i = some b ∧
          greaterInt a b = false :=
  erase_contract greaterInt_strictWeakOrder (Reachable.range 0 [3, 5, 2, 5] (by decide))
    (by decide)

/-- C12: the contract of `pop`.  On a non-empty reachable heap `pop()` produces
    exactly the state `erase(topHandle())` produces: one occurrence of `top()`
    is removed from the held elements, `size()` drops by one, and every handle
    other than the top handle stays live.  Seven rounds of `top(); pop();` on the
    `MinHeap<int>` built from `{7,4,2,9,15,3,6}` return `2,3,4,6,7,9,15` and
    leave the empty heap. -/
theorem pop_contract {cmp : T → T → Bool} {h : Heap T} (r : Reachable cmp h)
    (hne : 0 < h.size) :
    (∃ th t h', topHandle h = some th ∧ top h = some t ∧
      pop cmp h = some h' ∧ erase cmp h th = some h' ∧
      List.Perm (t :: h'.elems) h.elems ∧ h'.size + 1 = h.size ∧
      ∀ hd, hd ≠ th → (h'.live hd ↔ h.live hd)) ∧
    ((topPopN greaterInt 7 (Heap.ofRange greaterInt 0 [7, 4, 2, 9, 15, 3, 6])).map Prod.fst =
        some [2, 3, 4, 6, 7, 9, 15] ∧
      (topPopN greaterInt 7 (Heap.ofRange greaterInt 0 [7, 4, 2, 9, 15, 3, 6])).map
        (fun p => p.2.size) = some 0 ∧
      (topPopN greaterInt 7 (Heap.ofRange greaterInt 0 [7, 4, 2, 9, 15, 3, 6])).map
        (fun p => p.2.empty) = some true ∧
      (topPopN greaterInt 7 (Heap.ofRange greaterInt 0 [7, 4, 2, 9, 15, 3, 6])).map
        (fun p => p.2.mValPos) = some []) := by
  constructor
  · obtain ⟨w, hb⟩ := r.wf_bound
    obtain ⟨t, it, hp, ht, hth, hpe, hpop⟩ := pop_facts cmp w (by omega) hne
    have sh := sift_shuffled cmp (h.removeAt 0 it) 0
    refine ⟨⟨some it⟩, t, _, hth, ht, hpop, hpe ▸ hpop, removeAt_sift_elems cmp h hp, ?_, ?_⟩
    · rw [sh.size_eq]
      exact removeAt_size h hp
    · intro hd hne'
      rw [erase_sift_live w 0 it hd]
      exact ⟨fun h1 => h1.1, fun h1 => ⟨h1, hne'⟩⟩
  · exact ⟨by decide, by decide, by decide, by decide⟩

/-- Witness for C12: `pop()` on the `MinHeap<int>` built from `{7,4,2,9,15,3,6}`. -/
theorem pop_contract_witness :
    (∃ th t h', topHandle (Heap.ofRange greaterInt 0 [7, 4, 2, 9, 15, 3, 6]) = some th ∧
      top (Heap.ofRange greaterInt 0 [7, 4, 2, 9, 15, 3, 6]) = some t ∧
      pop greaterInt (Heap.ofRange greaterInt 0 [7, 4, 2, 9, 15, 3, 6]) = some h' ∧
      erase greaterInt (Heap.ofRange greaterInt 0 [7, 4, 2, 9, 15, 3, 6]) th = some h' ∧
      List.Perm (t :: h'.elems) (Heap.ofRange greaterInt 0 [7, 4, 2, 9, 15, 3, 6]).elems ∧
      h'.size + 1 = (Heap.ofRange greaterInt 0 [7, 4, 2, 9, 15, 3, 6]).size ∧
      ∀ hd, hd ≠ th →
        (h'.live hd ↔ (Heap.ofRange greaterInt 0 [7, 4, 2, 9, 15, 3, 6]).live hd)) ∧
    ((topPopN greaterInt 7 (Heap.ofRange greaterInt 0 [7, 4, 2, 9, 15, 3, 6])).map Prod.fst =
        some [2, 3, 4, 6, 7, 9, 15] ∧
      (topPopN greaterInt 7 (Heap.ofRange greaterInt 0 [7, 4, 2, 9, 15, 3, 6])).map
        (fun p => p.2.size) = some 0 ∧
      (topPopN greaterInt 7 (Heap.ofRange greaterInt 0 [7, 4, 2, 9, 15, 3, 6])).map
        (fun p => p.2.empty) = some true ∧
      (topPopN greaterInt 7 (Heap.ofRange greaterInt 0 [7, 4, 2, 9, 15, 3, 6])).map
        (fun p => p.2.mValPos) = some []) :=
  pop_contract (Reachable.range 0 [7, 4, 2, 9, 15, 3, 6] (by decide)) (by decide)

theorem data_nil_of_empty {h : Heap T} (he : h.empty = true) : h.mHeapData = [] := by
  unfold Heap.empty at he
  exact List.isEmpty_iff.mp he

/-- C13: tolerance of the empty heap.  On an empty reachable heap `pop()`,
    `update(h, v)` and `erase(h)` return, for any handle `h` (the default
    constructed one included) and any value `v`, without failing and leave the
    heap as it is: array and registry are empty, `size()` is 0 and `empty()`
    is true. -/
theorem empty_heap_tolerance {cmp : T → T → Bool} {h : Heap T} (r : Reachable cmp h)
    (he : h.empty = true) :
    pop cmp h = some h ∧
    (∀ hd v, update cmp h hd v = some h) ∧
    (∀ hd, erase cmp h hd = some h) ∧
    update cmp h ⟨none⟩ = (fun _ => some h) ∧
    erase cmp h ⟨none⟩ = some h ∧
    h.mHeapData = [] ∧ h.mValPos = [] ∧ h.size = 0 := by
  have hd0 := data_nil_of_empty he
  have hs : h.size = 0 := by
    unfold Heap.size
    rw [hd0]
    rfl
  have hu : ∀ hd v, update cmp h hd v = some h := by
    intro hd v
    unfold update
    rw [he]
    rfl
  have hers : ∀ hd, erase cmp h hd = some h := by
    intro hd
    unfold erase
    rw [he]
    rfl
  refine ⟨pop_empty cmp hs, hu, hers, funext (hu ⟨none⟩), hers ⟨none⟩, hd0, ?_, hs⟩
  have hl := r.wf_bound.1.length_eq
  rw [hd0] at hl
  exact List.length_eq_zero.mp hl

/-- Witness for C13: the default constructed `MinHeap<int>` of the test case "Empty heap". -/
theorem empty_heap_tolerance_witness :
    pop greaterInt (Heap.mkEmpty 0) = some (Heap.mkEmpty 0) ∧
    (∀ hd v, update greaterInt (Heap.mkEmpty 0) hd v = some (Heap.mkEmpty 0)) ∧
    (∀ hd, erase greaterInt (Heap.mkEmpty 0) hd = some (Heap.mkEmpty 0)) ∧
    update greaterInt (Heap.mkEmpty 0) ⟨none⟩ = (fun _ => some (Heap.mkEmpty 0)) ∧
    erase greaterInt (Heap.mkEmpty 0) ⟨none⟩ = some (Heap.mkEmpty 0) ∧
    (Heap.mkEmpty 0 : Heap Int).mHeapData = [] ∧ (Heap.mkEmpty 0 : Heap Int).mValPos = [] ∧
    (Heap.mkEmpty 0 : Heap Int).size = 0 :=
  empty_heap_tolerance (Reachable.empty 0) rfl

/-- C15: consistency of `topHandle`.  On a non-empty reachable heap
    `topHandle()` is a live handle, the registry entry it refers to stores
    position 0, and `get(topHandle())` equals `top()`. -/
theorem topHandle_consistency {cmp : T → T → Bool} {h : Heap T} (r : Reachable cmp h)
    (hne : 0 < h.size) :
    ∃ th t, topHandle h = some th ∧ h.live th ∧ h.deref th = some 0 ∧
      get h th = some t ∧ top h = some t := by
  obtain ⟨w, _⟩ := r.wf_bound
  obtain ⟨t, it, hp, ht, hth⟩ := topHandle_facts hne
  have hm : (t, it) ∈ h.mHeapData := List.mem_iff_getElem?.mpr ⟨0, hp⟩
  obtain ⟨h1, h2⟩ := get_live_of_mem w hm
  refine ⟨⟨some it⟩, t, hth, h1, ?_, h2, ht⟩
  exact w.link 0 (t, it) hp

/-- Witness for C15: the `MinHeap<int>` built from `{7,4,2,9,15,3,6}`. -/
theorem topHandle_consistency_witness :
    ∃ th t, topHandle (Heap.ofRange greaterInt 0 [7, 4, 2, 9, 15, 3, 6]) = some th ∧
      (Heap.ofRange greaterInt 0 [7, 4, 2, 9, 15, 3, 6]).live th ∧
      (Heap.ofRange greaterInt 0 [7, 4, 2, 9, 15, 3, 6]).deref th = some 0 ∧
      get (Heap.ofRange greaterInt 0 [7, 4, 2, 9, 15, 3, 6]) th = some t ∧
      top (Heap.ofRange greaterInt 0 [7, 4, 2, 9, 15, 3, 6]) = some t :=
  topHandle_consistency (Reachable.range 0 [7, 4, 2, 9, 15, 3, 6] (by decide)) (by decide)

/-- C16: `swap` exchanges two heaps.  After `a.swap(b)` the first heap holds
    the former array and registry of `b` and the second those of `a`; sizes are
    exchanged; a handle reads in the new second heap what it read in `a` and is
    live there exactly when it was live in `a` (and symmetrically); the top
    handle of the old `a` is the top handle of the new second heap.  In the test
    "After-swap handle validity" (`h = {4,7,1,3,9}`, `h2 = {3,5,2}` with 4
    inserted) the handles read 4 and 1 after the swap and the sizes are 4 and 5. -/
theorem swap_exchanges (a b : Heap T) :
    ((Heap.swap a b).1.mHeapData = b.mHeapData ∧ (Heap.swap a b).1.mValPos = b.mValPos ∧
      (Heap.swap a b).2.mHeapData = a.mHeapData ∧ (Heap.swap a b).2.mValPos = a.mValPos) ∧
    ((Heap.swap a b).1.size = b.size ∧ (Heap.swap a b).2.size = a.size) ∧
    (∀ hd, ((Heap.swap a b).2.live hd ↔ a.live hd) ∧ get (Heap.swap a b).2 hd = get a hd) ∧
    (∀ hd, ((Heap.swap a b).1.live hd ↔ b.live hd) ∧ get (Heap.swap a b).1 hd = get b hd) ∧
    (topHandle (Heap.swap a b).2 = topHandle a ∧ topHandle (Heap.swap a b).1 = topHandle b) ∧
    ((topHandle (Heap.ofRange greaterInt 0 [4, 7, 1, 3, 9])).bind
        (get (Heap.swap (Heap.ofRange greaterInt 0 [4, 7, 1, 3, 9])
          (insert greaterInt (Heap.ofRange greaterInt 5 [3, 5, 2]) 4).2).2) = some 1 ∧
      get (Heap.swap (Heap.ofRange greaterInt 0 [4, 7, 1, 3, 9])
          (insert greaterInt (Heap.ofRange greaterInt 5 [3, 5, 2]) 4).2).1
        (insert greaterInt (Heap.ofRange greaterInt 5 [3, 5, 2]) 4).1 = some 4 ∧
      (Heap.swap (Heap.ofRange greaterInt 0 [4, 7, 1, 3, 9])
          (insert greaterInt (Heap.ofRange greaterInt 5 [3, 5, 2]) 4).2).1.size = 4 ∧
      (Heap.swap (Heap.ofRange greaterInt 0 [4, 7, 1, 3, 9])
          (insert greaterInt (Heap.ofRange greaterInt 5 [3, 5, 2]) 4).2).2.size = 5) := by
  refine ⟨⟨rfl, rfl, rfl, rfl⟩, ⟨rfl, rfl⟩, fun hd => ⟨Iff.rfl, rfl⟩,
    fun hd => ⟨Iff.rfl, rfl⟩, ⟨rfl, rfl⟩, ?_⟩
  exact ⟨by decide, by decide, by decide, by decide⟩


/-! ## Size bookkeeping -/

theorem empty_eq_true_iff (h : Heap T) : h.empty = true ↔ h.size = 0 := by
  unfold Heap.empty Heap.size
  cases h.mHeapData <;> simp

theorem size_eq_of_vals {h₁ h₂ : Heap T}
    (hv : ∀ m, h₁.getValAtPos m = h₂.getValAtPos m) : h₁.size = h₂.size := by
  by_contra hne
  rcases Nat.lt_or_gt_of_ne hne with hlt | hlt
  · obtain ⟨v, hv2⟩ := getValAtPos_isSome hlt
    rw [← hv, getValAtPos_none (Nat.le_refl _)] at hv2
    cases hv2
  · obtain ⟨v, hv1⟩ := getValAtPos_isSome hlt
    rw [hv, getValAtPos_none (Nat.le_refl _)] at hv1
    cases hv1

theorem swap_of_not_lt (h : Heap T) {i j : Nat} (hij : ¬ (i < h.size ∧ j < h.size)) :
    h.swapElementsAtIndices i j = h := by
  unfold Heap.swapElementsAtIndices
  split
  · rfl
  · split
    · rename_i a b ha hb
      exfalso
      apply hij
      exact ⟨(List.getElem?_eq_some_iff.mp ha).1, (List.getElem?_eq_some_iff.mp hb).1⟩
    · rfl

theorem swap_vals_congr {h₁ h₂ : Heap T}
    (hv : ∀ m, h₁.getValAtPos m = h₂.getValAtPos m) (i j : Nat) :
    ∀ m, (h₁.swapElementsAtIndices i j).getValAtPos m =
      (h₂.swapElementsAtIndices i j).getValAtPos m := by
  have hs := size_eq_of_vals hv
  intro m
  by_cases hij : i < h₁.size ∧ j < h₁.size
  · rw [swap_val h₁ hij.1 hij.2, swap_val h₂ (hs ▸ hij.1) (hs ▸ hij.2), hv, hv, hv]
  · rw [swap_of_not_lt h₁ hij, swap_of_not_lt h₂ (hs ▸ hij)]
    exact hv m

theorem selectChild_congr (cmp : T → T → Bool) {h₁ h₂ : Heap T}
    (hv : ∀ m, h₁.getValAtPos m = h₂.getValAtPos m) (i : Nat) :
    selectChild cmp h₁ i = selectChild cmp h₂ i := by
  have hs := size_eq_of_vals hv
  unfold selectChild
  simp only [hv, hs]

theorem bubbleUpFuel_vals_congr (cmp : T → T → Bool) (fuel : Nat) {h₁ h₂ : Heap T}
    (hv : ∀ m, h₁.getValAtPos m = h₂.getValAtPos m) (i : Nat) :
    ∀ m, (bubbleUpFuel cmp fuel h₁ i).getValAtPos m =
      (bubbleUpFuel cmp fuel h₂ i).getValAtPos m := by
  induction fuel generalizing h₁ h₂ i with
  | zero => exact hv
  | succ fuel ih =>
    have hs := size_eq_of_vals hv
    unfold bubbleUpFuel
    rw [hs]
    split
    · exact hv
    · dsimp only
      rw [hv i, hv (getParentOf i)]
      split
      · split
        · exact ih (swap_vals_congr hv _ _) _
        · exact hv
      · exact hv

theorem bubbleDownFuel_vals_congr (cmp : T → T → Bool) (fuel : Nat) {h₁ h₂ : Heap T}
    (hv : ∀ m, h₁.getValAtPos m = h₂.getValAtPos m) (i : Nat) :
    ∀ m, (bubbleDownFuel cmp fuel h₁ i).getValAtPos m =
      (bubbleDownFuel cmp fuel h₂ i).getValAtPos m := by
  induction fuel generalizing h₁ h₂ i with
  | zero => exact hv
  | succ fuel ih =>
    have hs := size_eq_of_vals hv
    unfold bubbleDownFuel
    rw [hs, selectChild_congr cmp hv i]
    split
    · exact hv
    · dsimp only
      split
      · exact ih (swap_vals_congr hv _ _) _
      · exact hv

theorem sift_vals_congr (cmp : T → T → Bool) {h₁ h₂ : Heap T}
    (hv : ∀ m, h₁.getValAtPos m = h₂.getValAtPos m) (i : Nat) :
    ∀ m, (bubbleUp cmp (bubbleDown cmp h₁ i) i).getValAtPos m =
      (bubbleUp cmp (bubbleDown cmp h₂ i) i).getValAtPos m := by
  have hs := size_eq_of_vals hv
  have h1 : ∀ m, (bubbleDown cmp h₁ i).getValAtPos m = (bubbleDown cmp h₂ i).getValAtPos m := by
    unfold bubbleDown
    rw [hs]
    exact bubbleDownFuel_vals_congr cmp _ hv i
  have hs' := size_eq_of_vals h1
  unfold bubbleUp
  rw [hs']
  exact bubbleUpFuel_vals_congr cmp _ h1 i

theorem removeAt_vals (h : Heap T) (pos it m : Nat) :
    (h.removeAt pos it).getValAtPos m =
      if m < h.size - 1 then (h.swapElementsAtIndices pos (h.size - 1)).getValAtPos m
      else none := by
  unfold Heap.removeAt Heap.getValAtPos
  simp only
  rw [List.getElem?_dropLast]
  have : (h.swapElementsAtIndices pos (h.size - 1)).mHeapData.length = h.size := swap_size h _ _
  rw [this]
  split <;> rfl

theorem removeAt_vals_congr {h₁ h₂ : Heap T}
    (hv : ∀ m, h₁.getValAtPos m = h₂.getValAtPos m) (pos it₁ it₂ : Nat) :
    ∀ m, (h₁.removeAt pos it₁).getValAtPos m = (h₂.removeAt pos it₂).getValAtPos m := by
  have hs := size_eq_of_vals hv
  intro m
  rw [removeAt_vals, removeAt_vals, hs, swap_vals_congr hv pos (h₂.size - 1) m]

theorem copySortedFuel_congr (cmp : T → T → Bool) (fuel : Nat) {h₁ h₂ : Heap T}
    (w₁ : WF h₁) (w₂ : WF h₂) (hb : h₁.size < 2 ^ 32)
    (hv : ∀ m, h₁.getValAtPos m = h₂.getValAtPos m) (acc : List T) :
    copySortedFuel cmp fuel h₁ acc = copySortedFuel cmp fuel h₂ acc := by
  induction fuel generalizing h₁ h₂ acc with
  | zero =>
    have hs := size_eq_of_vals hv
    unfold copySortedFuel
    by_cases h0 : h₁.size = 0
    · rw [(empty_eq_true_iff h₁).mpr h0, (empty_eq_true_iff h₂).mpr (hs ▸ h0)]
    · rw [(empty_eq_false_iff h₁).mpr (by omega), (empty_eq_false_iff h₂).mpr (by omega)]
  | succ fuel ih =>
    have hs := size_eq_of_vals hv
    unfold copySortedFuel
    by_cases h0 : h₁.size = 0
    · rw [(empty_eq_true_iff h₁).mpr h0, (empty_eq_true_iff h₂).mpr (hs ▸ h0)]
      rfl
    · rw [(empty_eq_false_iff h₁).mpr (by omega), (empty_eq_false_iff h₂).mpr (by omega)]
      obtain ⟨t₁, i₁, hp₁, ht₁, _, _, hpop₁⟩ := pop_facts cmp w₁ hb (by omega)
      obtain ⟨t₂, i₂, hp₂, ht₂, _, _, hpop₂⟩ := pop_facts cmp w₂ (by omega) (by omega)
      have ht : t₁ = t₂ := by
        have := hv 0
        unfold top at ht₁ ht₂
        rw [ht₁, ht₂] at this
        exact Option.some.inj this
      subst ht
      simp only [Bool.false_eq_true, if_false, ht₁, ht₂, hpop₁, hpop₂]
      have sh := sift_shuffled cmp (h₁.removeAt 0 i₁) 0
      apply ih (sh.wf (removeAt_WF w₁ hp₁)) ((sift_shuffled cmp (h₂.removeAt 0 i₂) 0).wf
        (removeAt_WF w₂ hp₂))
      · rw [sh.size_eq]
        have := removeAt_size h₁ hp₁
        omega
      · exact sift_vals_congr cmp (removeAt_vals_congr hv 0 i₁ i₂) 0

theorem toSortedVector_congr (cmp : T → T → Bool) {h₁ h₂ : Heap T}
    (w₁ : WF h₁) (w₂ : WF h₂) (hb : h₁.size < 2 ^ 32)
    (hv : ∀ m, h₁.getValAtPos m = h₂.getValAtPos m) :
    toSortedVector cmp h₁ = toSortedVector cmp h₂ := by
  unfold toSortedVector copySorted
  rw [size_eq_of_vals hv]
  exact copySortedFuel_congr cmp _ w₁ w₂ hb hv []


/-! ## Claims about copies, handles, priority queues and duality -/

theorem copy_elems (h : Heap T) : h.copy.elems = h.elems := by
  apply List.ext_getElem?
  intro m
  rw [← getValAtPos_eq_elems, ← getValAtPos_eq_elems, copy_val]

theorem copy_registry (h : Heap T) (k : Nat) (hk : k < h.size) :
    h.copy.mValPos[k]? = some (h.nextNode + k, k) := by
  unfold Heap.copy
  unfold Heap.size at hk
  simp [List.getElem?_map, List.getElem?_range hk]

theorem copy_keys_ge (h : Heap T) (k : Nat) (hk : k ∈ h.copy.mValPos.map Prod.fst) :
    h.nextNode ≤ k := by
  unfold Heap.copy at hk
  simp only [List.map_map, List.mem_map, List.mem_range, Function.comp] at hk
  obtain ⟨a, _, rfl⟩ := hk
  omega

/-- C17: copy construction.  The copy of a reachable heap holds the same
    elements in the same array order, so it has the same `size()`, the same
    `top()`, the binary-heap property (for a strict weak ordering) and the same
    `toSortedVector` result; its registry is newly built, satisfies the
    bijection invariant with entry `k` storing position `k` and slot `k` linking
    to entry `k`, and no handle of the source is live in the copy. -/
theorem copy_construction {cmp : T → T → Bool} {h : Heap T} (r : Reachable cmp h) :
    h.copy.elems = h.elems ∧ h.copy.size = h.size ∧ top h.copy = top h ∧
    (StrictWeakOrder cmp → ∀ i, 0 < i → i < h.copy.size →
      ∃ a b, h.copy.getValAtPos ((i - 1) / 2) = some a ∧ h.copy.getValAtPos i = some b ∧
        cmp a b = false) ∧
    toSortedVector cmp h.copy = toSortedVector cmp h ∧
    WF h.copy ∧
    (∀ k, k < h.size → ∃ v, h.copy.mValPos[k]? = some (h.nextNode + k, k) ∧
      h.copy.mHeapData[k]? = some (v, h.nextNode + k) ∧ h.getValAtPos k = some v) ∧
    (∀ hd, h.live hd → ¬ h.copy.live hd) := by
  obtain ⟨w, hb⟩ := r.wf_bound
  refine ⟨copy_elems h, copy_size h, copy_val h 0, ?_, ?_, copy_WF h, ?_, ?_⟩
  · intro s i h0 hi
    exact ordered_at (copy_ordered (r.ordered s)) h0 hi
  · exact toSortedVector_congr cmp (copy_WF h) w (by rw [copy_size]; omega) (copy_val h)
  · intro k hk
    obtain ⟨v, hv⟩ := getValAtPos_isSome hk
    obtain ⟨it, hit⟩ := getValAtPos_eq_some.mp hv
    refine ⟨v, copy_registry h k hk, ?_, hv⟩
    rw [copy_data, hit]
    rfl
  · intro hd hl hl'
    obtain ⟨it, rfl⟩ := live_exists_id hl
    have h1 := w.fresh it ((live_iff_key it).mp hl)
    have h2 := copy_keys_ge h it ((live_iff_key it).mp hl')
    omega

/-- Witness for C17: the copy of the `MinHeap<int>` built from `{3,5,2,5}`. -/
theorem copy_construction_witness :
    (Heap.ofRange greaterInt 0 [3, 5, 2, 5]).copy.elems =
      (Heap.ofRange greaterInt 0 [3, 5, 2, 5]).elems ∧
    (Heap.ofRange greaterInt 0 [3, 5, 2, 5]).copy.size =
      (Heap.ofRange greaterInt 0 [3, 5, 2, 5]).size ∧
    top (Heap.ofRange greaterInt 0 [3, 5, 2, 5]).copy =
      top (Heap.ofRange greaterInt 0 [3, 5, 2, 5]) ∧
    (StrictWeakOrder greaterInt →
      ∀ i, 0 < i → i < (Heap.ofRange greaterInt 0 [3, 5, 2, 5]).copy.size →
      ∃ a b, (Heap.ofRange greaterInt 0 [3, 5, 2, 5]).copy.getValAtPos ((i - 1) / 2) = some a ∧
        (Heap.ofRange greaterInt 0 [3, 5, 2, 5]).copy.getValAtPos i = some b ∧
        greaterInt a b = false) ∧
    toSortedVector greaterInt (Heap.ofRange greaterInt 0 [3, 5, 2, 5]).copy =
      toSortedVector greaterInt (Heap.ofRange greaterInt 0 [3, 5, 2, 5]) ∧
    WF (Heap.ofRange greaterInt 0 [3, 5, 2, 5]).copy ∧
    (∀ k, k < (Heap.ofRange greaterInt 0 [3, 5, 2, 5]).size →
      ∃ v, (Heap.ofRange greaterInt 0 [3, 5, 2, 5]).copy.mValPos[k]? =
          some ((Heap.ofRange greaterInt 0 [3, 5, 2, 5]).nextNode + k, k) ∧
        (Heap.ofRange greaterInt 0 [3, 5, 2, 5]).copy.mHeapData[k]? =
          some (v, (Heap.ofRange greaterInt 0 [3, 5, 2, 5]).nextNode + k) ∧
        (Heap.ofRange greaterInt 0 [3, 5, 2, 5]).getValAtPos k = some v) ∧
    (∀ hd, (Heap.ofRange greaterInt 0 [3, 5, 2, 5]).live hd →
      ¬ (Heap.ofRange greaterInt 0 [3, 5, 2, 5]).copy.live hd) :=
  copy_construction (Reachable.range 0 [3, 5, 2, 5] (by decide))

theorem Handle.eq_iff (a b : Handle) : a.eq b = true ↔ a = b := by
  obtain ⟨x⟩ := a
  obtain ⟨y⟩ := b
  simp [Handle.eq]

theorem insertAll_handles (cmp : T → T → Bool) (l : List T) (h : Heap T) :
    (insertAll cmp h l).1 =
      (List.range' h.nextNode l.length).map (fun (k : Nat) => (⟨some k⟩ : Handle)) := by
  induction l generalizing h with
  | nil => rfl
  | cons v vs ih =>
    unfold insertAll
    simp only [List.length_cons, List.range'_succ, List.map_cons]
    rw [ih, insert_nextNode]
    rfl

theorem handle_mk_injective :
    Function.Injective (fun (k : Nat) => (⟨some k⟩ : Handle)) := by
  intro a b hab
  simpa using hab

theorem insertAll_handles_nodup (cmp : T → T → Bool) (l : List T) (h : Heap T) :
    (insertAll cmp h l).1.Nodup := by
  rw [insertAll_handles]
  exact List.Nodup.map handle_mk_injective (List.nodup_range' _ _)

theorem eq_count_of_nodup {hs : List Handle} (hnd : hs.Nodup) {a : Handle} (ha : a ∈ hs) :
    (hs.filter (fun j => a.eq j)).length = 1 ∧
    (hs.filter (fun j => a.ne j)).length + 1 = hs.length := by
  have h1 : (hs.filter (fun j => a.eq j)).length = 1 := by
    have hc : hs.count a = 1 := List.count_eq_one_of_mem hnd ha
    rw [← hc, List.count, ← List.countP_eq_length_filter]
    apply List.countP_congr
    intro j _
    constructor
    · intro hj
      have hja := (Handle.eq_iff a j).mp hj
      rw [hja]
      exact beq_self_eq_true j
    · intro hj
      have hja : j = a := eq_of_beq hj
      exact (Handle.eq_iff a j).mpr hja.symm
  refine ⟨h1, ?_⟩
  have h2 := List.length_eq_countP_add_countP (fun j => a.eq j) hs
  rw [List.countP_eq_length_filter, List.countP_eq_length_filter, h1] at h2
  have h3 : (hs.filter (fun j => a.ne j)) = hs.filter (fun j => ¬ (a.eq j) = true) := by
    apply List.filter_congr
    intro j _
    simp [Handle.ne]
  rw [h3]
  omega

/-- C18: handle identity.  `operator==` is reflexive and is equality of the
    handles, `h != j` is the negation of `h == j`; in a reachable heap the
    handles of the slots at two distinct indices are unequal, and `insert`
    returns a handle unequal to every handle live at that time.  Among the 101
    handles obtained by inserting `0..100`, each handle is equal to exactly one
    and unequal to the 100 others. -/
theorem handle_identity {cmp : T → T → Bool} {h : Heap T} (r : Reachable cmp h) :
    (∀ a : Handle, a.eq a = true) ∧
    (∀ a b : Handle, a.ne b = !(a.eq b)) ∧
    (∀ a b : Handle, a.eq b = true ↔ a = b) ∧
    (∀ (i j : Nat) (e₁ e₂ : T × Nat), h.mHeapData[i]? = some e₁ → h.mHeapData[j]? = some e₂ →
      i ≠ j → Handle.eq ⟨some e₁.2⟩ ⟨some e₂.2⟩ = false ∧
        Handle.ne ⟨some e₁.2⟩ ⟨some e₂.2⟩ = true) ∧
    (∀ v hd, h.live hd → (insert cmp h v).1.eq hd = false ∧ (insert cmp h v).1.ne hd = true) ∧
    ((insertAll lessInt (Heap.mkEmpty 0) (rangeUpTo 100)).1.length = 101 ∧
      ∀ a ∈ (insertAll lessInt (Heap.mkEmpty 0) (rangeUpTo 100)).1,
        ((insertAll lessInt (Heap.mkEmpty 0) (rangeUpTo 100)).1.filter
          (fun j => a.eq j)).length = 1 ∧
        ((insertAll lessInt (Heap.mkEmpty 0) (rangeUpTo 100)).1.filter
          (fun j => a.ne j)).length = 100) := by
  obtain ⟨w, _⟩ := r.wf_bound
  have hfalse : ∀ a b : Handle, a ≠ b → a.eq b = false ∧ a.ne b = true := by
    intro a b hab
    have : a.eq b = false := by
      cases he : a.eq b with
      | false => rfl
      | true => exact absurd ((Handle.eq_iff a b).mp he) hab
    exact ⟨this, by simp [Handle.ne, this]⟩
  refine ⟨fun a => (Handle.eq_iff a a).mpr rfl, fun a b => rfl, Handle.eq_iff, ?_, ?_, ?_⟩
  · intro i j e₁ e₂ h1 h2 hij
    apply hfalse
    intro e
    apply hij
    exact w.link_inj h1 h2 (by simpa using e)
  · intro v hd hl
    apply hfalse
    intro e
    obtain ⟨it, rfl⟩ := live_exists_id hl
    have h1 := w.fresh it ((live_iff_key it).mp hl)
    have h2 : (insert cmp h v).1 = ⟨some h.nextNode⟩ := rfl
    rw [h2] at e
    have : h.nextNode = it := by simpa using e
    omega
  · have hlen : (insertAll lessInt (Heap.mkEmpty 0) (rangeUpTo 100)).1.length = 101 := by
      rw [insertAll_handles]
      simp [rangeUpTo]
    refine ⟨hlen, ?_⟩
    intro a ha
    obtain ⟨e1, e2⟩ := eq_count_of_nodup (insertAll_handles_nodup lessInt _ _) ha
    exact ⟨e1, by omega⟩

/-- Witness for C18: the `MinHeap<int>` built from `{3,5,2,5}`. -/
theorem handle_identity_witness :
    (∀ (i j : Nat) (e₁ e₂ : Int × Nat),
      (Heap.ofRange greaterInt 0 [3, 5, 2, 5]).mHeapData[i]? = some e₁ →
      (Heap.ofRange greaterInt 0 [3, 5, 2, 5]).mHeapData[j]? = some e₂ →
      i ≠ j → Handle.eq ⟨some e₁.2⟩ ⟨some e₂.2⟩ = false ∧
        Handle.ne ⟨some e₁.2⟩ ⟨some e₂.2⟩ = true) ∧
    (∀ v hd, (Heap.ofRange greaterInt 0 [3, 5, 2, 5]).live hd →
      (insert greaterInt (Heap.ofRange greaterInt 0 [3, 5, 2, 5]) v).1.eq hd = false ∧
      (insert greaterInt (Heap.ofRange greaterInt 0 [3, 5, 2, 5]) v).1.ne hd = true) :=
  ⟨(handle_identity (Reachable.range 0 [3, 5, 2, 5] (by decide))).2.2.2.1,
    (handle_identity (Reachable.range 0 [3, 5, 2, 5] (by decide))).2.2.2.2.1⟩



theorem pairCompare_strictWeakOrder {A B : Type} {cmp : A → A → Bool}
    (s : StrictWeakOrder cmp) : StrictWeakOrder (PairCompare cmp : A × B → A × B → Bool) :=
  ⟨fun a => s.irrefl a.1, fun a b c => s.trans a.1 b.1 c.1,
    fun a b c => s.incomp_trans a.1 b.1 c.1⟩

theorem insertAll_drain {cmp : T → T → Bool} (s : StrictWeakOrder cmp) (L : List T) (n : Nat)
    (hL : L.length < 2 ^ 31) :
    ∃ out, toSortedVector cmp (insertAll cmp (Heap.mkEmpty n) L).2 = some out ∧
      List.Perm out L ∧ out.Pairwise (fun a b => cmp a b = false) := by
  have r := insertAll_reachable cmp L (Reachable.empty n)
    (by simpa [Heap.mkEmpty, Heap.size] using hL)
  have hp := insertAll_elems cmp L (Heap.mkEmpty n)
  obtain ⟨out, h1, h2, h3⟩ := toSortedVector_spec s r.wf_bound.1 (r.ordered s) r.wf_bound.2
  exact ⟨out, h1, h2.trans (by simpa [Heap.mkEmpty, Heap.elems] using hp), h3⟩

/-- C19: `PriorityQueue` orders by priority alone.  `PairCompare` applied to two
    pairs is `Cmp` applied to their first components, whatever the payloads.
    For a list of (int priority, payload) pairs with pairwise distinct
    priorities (and fewer than `2^31` entries), inserted one by one into a
    `PriorityQueue` with `std::less`, `toSortedVector` returns a permutation of
    the pairs, so each priority keeps its payload, in strictly descending
    priority; when the list was inserted in ascending priority the result is
    the reversed list. -/
theorem priority_queue_order {B : Type} (L : List (Int × B)) (n : Nat)
    (hL : L.length < 2 ^ 31) (hnd : (L.map Prod.fst).Nodup) :
    (∀ (A : Type) (cmp : A → A → Bool) (a b : A × B), PairCompare cmp a b = cmp a.1 b.1) ∧
    (∃ out, toSortedVector (PairCompare lessInt)
        (insertAll (PairCompare lessInt) (Heap.mkEmpty n) L).2 = some out ∧
      List.Perm out L ∧ out.Pairwise (fun a b => b.1 < a.1) ∧
      (L.Pairwise (fun a b => a.1 < b.1) → out = L.reverse)) := by
  refine ⟨fun A cmp a b => rfl, ?_⟩
  obtain ⟨out, h1, h2, h3⟩ := insertAll_drain
    (pairCompare_strictWeakOrder (B := B) lessInt_strictWeakOrder) L n hL
  have hnd' : (out.map Prod.fst).Nodup := (h2.map Prod.fst).nodup_iff.mpr hnd
  have hne : out.Pairwise (fun a b => a.1 ≠ b.1) := by
    rw [List.Nodup, List.pairwise_map] at hnd'
    exact hnd'
  have hdesc : out.Pairwise (fun a b => b.1 < a.1) := by
    refine (h3.and hne).imp ?_
    intro a b hab
    have h4 : b.1 ≤ a.1 := (lessInt_false_iff a.1 b.1).mp hab.1
    have h5 := hab.2
    omega
  refine ⟨out, h1, h2, hdesc, ?_⟩
  intro hasc
  haveI : IsAntisymm (Int × B) (fun a b => b.1 < a.1) :=
    ⟨fun a b h4 h5 => absurd h4 (by omega)⟩
  apply List.eq_of_perm_of_sorted (r := fun a b : Int × B => b.1 < a.1)
  · exact h2.trans (List.reverse_perm L).symm
  · exact hdesc
  · exact List.pairwise_reverse.mpr hasc

/-- Witness for C19: three pairs with string payloads, inserted in ascending priority. -/
theorem priority_queue_order_witness :
    ∃ out, toSortedVector (PairCompare lessInt)
        (insertAll (PairCompare lessInt) (Heap.mkEmpty 0)
          [((0 : Int), "a"), (1, "b"), (2, "c")]).2 = some out ∧
      List.Perm out [((0 : Int), "a"), (1, "b"), (2, "c")] ∧
      out.Pairwise (fun a b => b.1 < a.1) ∧
      ([((0 : Int), "a"), (1, "b"), (2, "c")].Pairwise (fun a b => a.1 < b.1) →
        out = [((0 : Int), "a"), (1, "b"), (2, "c")].reverse) :=
  (priority_queue_order [((0 : Int), "a"), (1, "b"), (2, "c")] 0 (by decide) (by decide)).2

theorem sorted_desc_reverse (L : List Int) :
    (L.insertionSort (fun a b => b ≤ a)).reverse = L.insertionSort (fun a b => a ≤ b) := by
  haveI : IsTotal Int (fun a b => b ≤ a) := ⟨fun a b => le_total b a⟩
  haveI : IsTrans Int (fun a b => b ≤ a) := ⟨fun a b c h1 h2 => le_trans h2 h1⟩
  apply List.eq_of_perm_of_sorted (r := fun a b : Int => a ≤ b)
  · exact ((List.reverse_perm _).trans (List.perm_insertionSort _ L)).trans
      (List.perm_insertionSort _ L).symm
  · exact List.pairwise_reverse.mpr (List.sorted_insertionSort (fun a b : Int => b ≤ a) L)
  · exact List.sorted_insertionSort _ L

/-- C20: duality of the min- and the max-heap.  For a list of ints (shorter than
    `2^31`) inserted in the same order into a `MinHeap<int>` and a
    `MaxHeap<int>`, `toSortedVector` of the min-heap is the reverse of
    `toSortedVector` of the max-heap. -/
theorem min_max_duality (L : List Int) (n m : Nat) (hL : L.length < 2 ^ 31) :
    ∃ outMin outMax,
      toSortedVector greaterInt (insertAll greaterInt (Heap.mkEmpty n) L).2 = some outMin ∧
      toSortedVector lessInt (insertAll lessInt (Heap.mkEmpty m) L).2 = some outMax ∧
      outMin = outMax.reverse := by
  have hsz : ∀ k, (Heap.mkEmpty k : Heap Int).size + L.length < 2 ^ 31 := by
    intro k
    simpa [Heap.mkEmpty, Heap.size] using hL
  have r1 := insertAll_reachable greaterInt L (Reachable.empty n) (hsz n)
  have r2 := insertAll_reachable lessInt L (Reachable.empty m) (hsz m)
  have p1 := insertAll_elems greaterInt L (Heap.mkEmpty n)
  have p2 := insertAll_elems lessInt L (Heap.mkEmpty m)
  refine ⟨_, _,
    drain_eq_sorted_asc r1.wf_bound.1 (r1.ordered greaterInt_strictWeakOrder) r1.wf_bound.2
      (by simpa [Heap.mkEmpty, Heap.elems] using p1),
    drain_eq_sorted_desc r2.wf_bound.1 (r2.ordered lessInt_strictWeakOrder) r2.wf_bound.2
      (by simpa [Heap.mkEmpty, Heap.elems] using p2), ?_⟩
  exact (sorted_desc_reverse L).symm

/-- Witness for C20: the list `7,4,2,9,15,3,6,4`, with a duplicate. -/
theorem min_max_duality_witness :
    ∃ outMin outMax,
      toSortedVector greaterInt
        (insertAll greaterInt (Heap.mkEmpty 0) [7, 4, 2, 9, 15, 3, 6, 4]).2 = some outMin ∧
      toSortedVector lessInt
        (insertAll lessInt (Heap.mkEmpty 0) [7, 4, 2, 9, 15, 3, 6, 4]).2 = some outMax ∧
      outMin = outMax.reverse :=
  min_max_duality [7, 4, 2, 9, 15, 3, 6, 4] 0 0 (by decide)


/-! ## Counting swaps; leaves and frames of the sift routines -/

theorem selectChild_eq_self_iff (cmp : T → T → Bool) {h : Heap T} {k : Nat}
    (hs : h.size < 2 ^ 31) (hk : k < h.size) {x : T} (hx : h.getValAtPos k = some x) :
    selectChild cmp h k = k ↔
      ∀ j y, (j = 2 * k + 1 ∨ j = 2 * k + 2) → h.getValAtPos j = some y → cmp y x = true := by
  unfold selectChild
  rw [getLeftChildOf_eq (by omega), getRightChildOf_eq (by omega)]
  dsimp only
  by_cases hl : 2 * k + 1 < h.size
  · obtain ⟨l, hlv⟩ := getValAtPos_isSome hl
    simp only [hl, if_true, hlv, hx]
    cases hlx : cmp l x with
    | false =>
      simp only [Bool.not_false, if_true]
      constructor
      · intro hsel
        exfalso
        by_cases hr : 2 * k + 2 < h.size
        · obtain ⟨r, hrv⟩ := getValAtPos_isSome hr
          simp only [hr, if_true, hrv, hlv] at hsel
          have e1 : 2 * k + 1 ≠ k := by omega
          have e2 : 2 * k + 2 ≠ k := by omega
          split at hsel
          · exact e2 hsel
          · exact e1 hsel
        · simp only [hr, if_false] at hsel
          have e1 : 2 * k + 1 ≠ k := by omega
          exact e1 hsel
      · intro hall
        have := hall (2 * k + 1) l (Or.inl rfl) hlv
        rw [hlx] at this
        cases this
    | true =>
      simp only [Bool.not_true, Bool.false_eq_true, if_false]
      by_cases hr : 2 * k + 2 < h.size
      · obtain ⟨r, hrv⟩ := getValAtPos_isSome hr
        simp only [hr, if_true, hrv, hx]
        cases hrx : cmp r x with
        | false =>
          simp only [Bool.not_false, if_true]
          constructor
          · intro hsel
            have e2 : 2 * k + 2 ≠ k := by omega
            exact absurd hsel e2
          · intro hall
            have := hall (2 * k + 2) r (Or.inr rfl) hrv
            rw [hrx] at this
            cases this
        | true =>
          simp only [Bool.not_true, Bool.false_eq_true, if_false, true_iff]
          rintro j y (rfl | rfl) hy
          · rw [hlv] at hy
            cases hy
            exact hlx
          · rw [hrv] at hy
            cases hy
            exact hrx
      · simp only [hr, if_false, true_iff]
        rintro j y (rfl | rfl) hy
        · rw [hlv] at hy
          cases hy
          exact hlx
        · rw [getValAtPos_none (by omega)] at hy
          cases hy
  · have hr : ¬ 2 * k + 2 < h.size := by omega
    simp only [hl, hr, if_false, true_iff]
    rintro j y (rfl | rfl) hy
    · rw [getValAtPos_none (by omega)] at hy
      cases hy
    · rw [getValAtPos_none (by omega)] at hy
      cases hy

theorem bubbleDownFuel_of_select (cmp : T → T → Bool) (fuel : Nat) (h : Heap T) {k : Nat}
    (hsel : selectChild cmp h k = k) :
    bubbleDownFuel cmp fuel h k = h ∧ bubbleDownSwapsFuel cmp fuel h k = 0 := by
  cases fuel with
  | zero => exact ⟨rfl, rfl⟩
  | succ fuel =>
    unfold bubbleDownFuel bubbleDownSwapsFuel
    constructor
    · split
      · rfl
      · simp [hsel]
    · split
      · rfl
      · simp [hsel]

theorem bubbleDownSwapsFuel_pos (cmp : T → T → Bool) (fuel : Nat) (h : Heap T) {k : Nat}
    (hk : k < h.size) (hsel : selectChild cmp h k ≠ k) :
    bubbleDownFuel cmp (fuel + 1) h k =
      bubbleDownFuel cmp fuel (h.swapElementsAtIndices k (selectChild cmp h k))
        (selectChild cmp h k) ∧
    bubbleDownSwapsFuel cmp (fuel + 1) h k =
      bubbleDownSwapsFuel cmp fuel (h.swapElementsAtIndices k (selectChild cmp h k))
        (selectChild cmp h k) + 1 := by
  have hg : ¬ k ≥ h.size := by omega
  constructor
  · rw [bubbleDownFuel]
    simp [hg, hsel]
  · rw [bubbleDownSwapsFuel]
    simp [hg, hsel]

theorem bubbleDownSwapsFuel_of_ge (cmp : T → T → Bool) (fuel : Nat) (h : Heap T) {k : Nat}
    (hk : k ≥ h.size) : bubbleDownSwapsFuel cmp fuel h k = 0 := by
  cases fuel with
  | zero => rfl
  | succ fuel =>
    unfold bubbleDownSwapsFuel
    rw [if_pos hk]

theorem bubbleUpSwapsFuel_of_ge (cmp : T → T → Bool) (fuel : Nat) (h : Heap T) {k : Nat}
    (hk : k ≤ 0 ∨ k ≥ h.size) : bubbleUpSwapsFuel cmp fuel h k = 0 := by
  cases fuel with
  | zero => rfl
  | succ fuel =>
    unfold bubbleUpSwapsFuel
    rw [if_pos hk]

theorem bubbleDownFuel_frame (cmp : T → T → Bool) (fuel : Nat) (h : Heap T) (k : Nat)
    (hs : h.size < 2 ^ 31) :
    ∀ j, j < k → (bubbleDownFuel cmp fuel h k).mHeapData[j]? = h.mHeapData[j]? := by
  induction fuel generalizing h k with
  | zero => exact fun _ _ => rfl
  | succ fuel ih =>
    intro j hj
    by_cases hk : k < h.size
    · by_cases hsel : selectChild cmp h k = k
      · rw [(bubbleDownFuel_of_select cmp _ h hsel).1]
      · rw [(bubbleDownSwapsFuel_pos cmp fuel h hk hsel).1]
        have hgt : k < selectChild cmp h k := by
          rcases selectChild_ge cmp h k hs hk with e | e
          · exact absurd e hsel
          · exact e
        rw [ih _ _ (by rw [swap_size]; exact hs) j (by omega)]
        by_cases hcs : selectChild cmp h k < h.size
        · rw [swap_data h hk hcs, if_neg (by omega), if_neg (by omega)]
        · rw [swap_of_not_lt h (fun hc => hcs hc.2)]
    · rw [bubbleDownFuel_of_ge cmp _ h (by omega)]


/-! ## The heapify pass and the start index of `buildHeap` -/

/-- C28 (empty bulk construction): the range constructor applied to an empty
    range yields the empty heap, of size 0 and with an empty registry.  The
    start index of the loop of `buildHeap` is then `(2^64 - 1) / 2` converted to
    a 32-bit `int`, which is `-1`, so the loop condition `i >= 0` fails at once
    and no position is sifted. -/
theorem empty_bulk_construction (cmp : T → T → Bool) (n : Nat) :
    Heap.ofRange cmp n ([] : List T) = Heap.mkEmpty n ∧
    (Heap.ofRange cmp n ([] : List T)).size = 0 ∧
    (Heap.ofRange cmp n ([] : List T)).empty = true ∧
    (Heap.ofRange cmp n ([] : List T)).mValPos = [] ∧
    (Heap.ofRange cmp n ([] : List T)).mHeapData = [] ∧
    toSizeT ((Heap.load n ([] : List T)).size + 2 ^ 64 - 1) / 2 = (2 ^ 64 - 1) / 2 ∧
    toInt ((2 ^ 64 - 1) / 2) = -1 ∧
    buildHeapStart (Heap.load n ([] : List T)) = -1 ∧
    ¬ (0 ≤ buildHeapStart (Heap.load n ([] : List T))) ∧
    buildHeap cmp (Heap.load n ([] : List T)) = Heap.load n [] := by
  have hst : buildHeapStart (Heap.load n ([] : List T)) = -1 :=
    buildHeapStart_zero (by rw [load_size]; rfl)
  have hb : buildHeap cmp (Heap.load n ([] : List T)) = Heap.load n [] := by
    unfold buildHeap
    rw [hst]
    rfl
  have ho : Heap.ofRange cmp n ([] : List T) = Heap.mkEmpty n := by
    unfold Heap.ofRange
    rw [hb]
    rfl
  refine ⟨ho, ?_, ?_, ?_, ?_, ?_, ?_, hst, ?_, hb⟩
  · rw [ho]; rfl
  · rw [ho]; rfl
  · rw [ho]; rfl
  · rw [ho]; rfl
  · rw [load_size]
    unfold toSizeT
    norm_num
  · unfold toInt
    norm_num
  · rw [hst]
    decide


/-! ## Erasing the element at the last position -/

theorem nodeErase_eq_nil {reg : List (Nat × Nat)} {k p : Nat} (hg : nodeGet reg k = some p)
    (hlen : reg.length = 1) : nodeErase reg k = [] := by
  have := nodeErase_length hg
  exact List.length_eq_zero.mp (by omega)

theorem removeAt_last (h : Heap T) (it : Nat) :
    h.removeAt (h.size - 1) it =
      { mValPos := nodeErase h.mValPos it
        mHeapData := h.mHeapData.dropLast
        nextNode := h.nextNode } := by
  unfold Heap.removeAt Heap.swapElementsAtIndices
  rw [if_pos rfl]

theorem erase_last_facts (cmp : T → T → Bool) {h : Heap T} (w : WF h) (hs : h.size < 2 ^ 31)
    {hd : Handle} (hlast : h.deref hd = some (h.size - 1)) :
    ∃ it old, hd = ⟨some it⟩ ∧ h.mHeapData[h.size - 1]? = some (old, it) ∧
      nodeGet h.mValPos it = some (h.size - 1) ∧
      erase cmp h hd = some (h.removeAt (h.size - 1) it) ∧
      bubbleDown cmp (h.removeAt (h.size - 1) it) (h.size - 1) = h.removeAt (h.size - 1) it ∧
      bubbleDownSwaps cmp (h.removeAt (h.size - 1) it) (h.size - 1) = 0 ∧
      bubbleUpSwaps cmp (h.removeAt (h.size - 1) it) (h.size - 1) = 0 := by
  have hl : h.live hd := by
    unfold Heap.live
    rw [hlast]
    rfl
  obtain ⟨it, old, pos, rfl, hp, he⟩ := erase_facts cmp w (by omega) hl
  have hn : nodeGet h.mValPos it = some (h.size - 1) := hlast
  have hpos : pos = h.size - 1 := by
    have := w.link pos (old, it) hp
    rw [hn] at this
    cases this
    rfl
  subst hpos
  have hsz : (h.removeAt (h.size - 1) it).size + 1 = h.size := removeAt_size h hp
  have hge : h.size - 1 ≥ (h.removeAt (h.size - 1) it).size := by omega
  have hd1 : bubbleDown cmp (h.removeAt (h.size - 1) it) (h.size - 1) =
      h.removeAt (h.size - 1) it := bubbleDownFuel_of_ge cmp _ _ hge
  refine ⟨it, old, rfl, hp, hn, ?_, hd1, bubbleDownSwapsFuel_of_ge cmp _ _ hge,
    bubbleUpSwapsFuel_of_ge cmp _ _ (Or.inr hge)⟩
  rw [he, hd1]
  exact congrArg some (bubbleUpFuel_of_ge cmp _ _ (Or.inr hge))

/-- C24 (degenerate erase): in a reachable heap of size `n ≥ 1`, erasing through
    the handle whose element sits at the last position `n - 1` only truncates:
    the array loses its last slot, the registry loses the node of the handle,
    positions `0 .. n - 2` keep their elements and back-links and the nodes
    behind them keep their stored positions, and no swap is made (the exchange
    of the position with the last position is the exchange of a position with
    itself, and neither sift pass swaps).  For `n = 1` the result is the empty
    heap with an empty registry. -/
theorem degenerate_erase {cmp : T → T → Bool} {h : Heap T} (r : Reachable cmp h)
    (hn : 1 ≤ h.size) {hd : Handle} (hlast : h.deref hd = some (h.size - 1)) :
    ∃ it h', hd = ⟨some it⟩ ∧ h.live hd ∧ erase cmp h hd = some h' ∧
      h'.mHeapData = h.mHeapData.dropLast ∧
      h'.mValPos = nodeErase h.mValPos it ∧
      h'.size + 1 = h.size ∧
      (∀ j, j < h.size - 1 → h'.mHeapData[j]? = h.mHeapData[j]?) ∧
      (∀ k, k ≠ it → nodeGet h'.mValPos k = nodeGet h.mValPos k) ∧
      (toUnsigned (h.size - 1) = h.size - 1 ∧
        h.swapElementsAtIndices (toUnsigned (h.size - 1)) (h.size - 1) = h) ∧
      bubbleDownSwaps cmp (h.removeAt (h.size - 1) it) (h.size - 1) = 0 ∧
      bubbleUpSwaps cmp (bubbleDown cmp (h.removeAt (h.size - 1) it) (h.size - 1))
        (h.size - 1) = 0 ∧
      (h.size = 1 → h'.mHeapData = [] ∧ h'.mValPos = [] ∧ h'.empty = true) := by
  obtain ⟨w, hs⟩ := r.wf_bound
  obtain ⟨it, old, rfl, hp, hg, he, hd1, hds, hus⟩ := erase_last_facts cmp w hs hlast
  have hl : h.live ⟨some it⟩ := by
    unfold Heap.live
    rw [hlast]
    rfl
  have hu : toUnsigned (h.size - 1) = h.size - 1 := by
    unfold toUnsigned
    exact Nat.mod_eq_of_lt (by omega)
  have hdata : (h.removeAt (h.size - 1) it).mHeapData = h.mHeapData.dropLast := by
    rw [removeAt_last]
  have hreg : (h.removeAt (h.size - 1) it).mValPos = nodeErase h.mValPos it := by
    rw [removeAt_last]
  refine ⟨it, h.removeAt (h.size - 1) it, rfl, hl, he, hdata, hreg, removeAt_size h hp,
    ?_, ?_, ⟨hu, ?_⟩, hds, ?_, ?_⟩
  · intro j hj
    rw [hdata, List.dropLast_eq_take, List.getElem?_take_of_lt]
    exact hj
  · intro k hk
    rw [hreg, nodeGet_nodeErase w.nodup, if_neg hk]
  · rw [hu]
    unfold Heap.swapElementsAtIndices
    rw [if_pos rfl]
  · rw [hd1]
    exact hus
  · intro h1
    have hlen : h.mHeapData.length = 1 := h1
    have hd0 : (h.removeAt (h.size - 1) it).mHeapData = [] := by
      rw [hdata]
      apply List.length_eq_zero.mp
      rw [List.length_dropLast, hlen]
    refine ⟨hd0, ?_, ?_⟩
    · rw [hreg]
      exact nodeErase_eq_nil hg (by rw [w.length_eq]; exact hlen)
    · unfold Heap.empty
      rw [hd0]
      rfl

theorem degenerate_erase_witness :
    (1 ≤ (Heap.ofRange greaterInt 0 [3, 2, (1 : Int)]).size ∧
      (Heap.ofRange greaterInt 0 [3, 2, (1 : Int)]).deref ⟨some 0⟩ =
        some ((Heap.ofRange greaterInt 0 [3, 2, (1 : Int)]).size - 1)) ∧
    ∃ it h', (⟨some 0⟩ : Handle) = ⟨some it⟩ ∧
      (Heap.ofRange greaterInt 0 [3, 2, (1 : Int)]).live ⟨some 0⟩ ∧
      erase greaterInt (Heap.ofRange greaterInt 0 [3, 2, 1]) ⟨some 0⟩ = some h' ∧
      h'.mHeapData = (Heap.ofRange greaterInt 0 [3, 2, (1 : Int)]).mHeapData.dropLast ∧
      h'.mValPos = nodeErase (Heap.ofRange greaterInt 0 [3, 2, (1 : Int)]).mValPos it :=
  ⟨⟨by decide, by decide⟩,
    (degenerate_erase (Reachable.range 0 [3, 2, 1] (by decide)) (by decide) (by decide)).imp
      (fun _ hx => hx.imp (fun _ hy => ⟨hy.1, hy.2.1, hy.2.2.1, hy.2.2.2.1, hy.2.2.2.2.1⟩))⟩


/-! ## Termination and swap counts of the sift routines -/

theorem bubbleUp_step (cmp : T → T → Bool) (fuel : Nat) (h : Heap T) {k : Nat} (h0 : 0 < k)
    (hk : k < h.size) {a b : T} (ha : h.getValAtPos k = some a)
    (hb : h.getValAtPos (getParentOf k) = some b) :
    bubbleUpFuel cmp (fuel + 1) h k =
      (if cmp a b = false then
        bubbleUpFuel cmp fuel (h.swapElementsAtIndices k (getParentOf k)) (getParentOf k)
      else h) ∧
    bubbleUpSwapsFuel cmp (fuel + 1) h k =
      (if cmp a b = false then
        bubbleUpSwapsFuel cmp fuel (h.swapElementsAtIndices k (getParentOf k)) (getParentOf k) + 1
      else 0) := by
  have hg : ¬ (k ≤ 0 ∨ k ≥ h.size) := by omega
  constructor
  · rw [bubbleUpFuel]
    simp only [hg, if_false, ha, hb]
    cases cmp a b <;> simp
  · rw [bubbleUpSwapsFuel]
    simp only [hg, if_false, ha, hb]
    cases cmp a b <;> simp

theorem parent_val_isSome {h : Heap T} {k : Nat} (h0 : 0 < k) (hk : k < h.size) :
    ∃ b, h.getValAtPos (getParentOf k) = some b :=
  getValAtPos_isSome (by have := getParentOf_lt h0; omega)

theorem bubbleUpSwapsFuel_stable (cmp : T → T → Bool) (f₁ f₂ : Nat) (h : Heap T) (i : Nat)
    (h₁ : i < f₁) (h₂ : i < f₂) :
    bubbleUpSwapsFuel cmp f₁ h i = bubbleUpSwapsFuel cmp f₂ h i := by
  induction f₁ generalizing f₂ h i with
  | zero => omega
  | succ f₁ ih =>
    cases f₂ with
    | zero => omega
    | succ f₂ =>
      by_cases hg : i ≤ 0 ∨ i ≥ h.size
      · rw [bubbleUpSwapsFuel_of_ge cmp _ h hg, bubbleUpSwapsFuel_of_ge cmp _ h hg]
      · have h0 : 0 < i := by omega
        have hk : i < h.size := by omega
        obtain ⟨a, ha⟩ := getValAtPos_isSome hk
        obtain ⟨b, hb⟩ := parent_val_isSome h0 hk
        have hlt : getParentOf i < i := getParentOf_lt h0
        rw [(bubbleUp_step cmp f₁ h h0 hk ha hb).2, (bubbleUp_step cmp f₂ h h0 hk ha hb).2]
        split
        · rw [ih f₂ _ _ (by omega) (by omega)]
        · rfl

theorem bubbleUpSwaps_eq_fuel (cmp : T → T → Bool) (fuel : Nat) (h : Heap T) (i : Nat)
    (hf : h.size ≤ fuel) : bubbleUpSwapsFuel cmp fuel h i = bubbleUpSwaps cmp h i := by
  unfold bubbleUpSwaps
  by_cases hi : i < h.size
  · exact bubbleUpSwapsFuel_stable cmp _ _ h i (by omega) hi
  · rw [bubbleUpSwapsFuel_of_ge cmp _ h (Or.inr (by omega)),
      bubbleUpSwapsFuel_of_ge cmp _ h (Or.inr (by omega))]

theorem selectChild_lt (cmp : T → T → Bool) {h : Heap T} {i : Nat} (hs : h.size < 2 ^ 31)
    (hi : i < h.size) : selectChild cmp h i < h.size := by
  by_cases hr : getRightChildOf i < h.size
  · rcases selectChild_mem cmp h i with e | e | e
    · rw [e]
      exact hi
    · rw [e, getLeftChildOf_eq (by omega)]
      rw [getRightChildOf_eq (by omega)] at hr
      omega
    · rw [e]
      exact hr
  · unfold selectChild
    dsimp only
    rw [if_neg hr]
    split
    · split
      · split <;> assumption
      · assumption
    · assumption

theorem selectChild_child (cmp : T → T → Bool) {h : Heap T} {i : Nat} (hs : h.size < 2 ^ 31)
    (hi : i < h.size) (hsel : selectChild cmp h i ≠ i) :
    (selectChild cmp h i = 2 * i + 1 ∨ selectChild cmp h i = 2 * i + 2) ∧
      selectChild cmp h i < h.size := by
  refine ⟨?_, selectChild_lt cmp hs hi⟩
  rcases selectChild_mem cmp h i with e | e | e
  · exact absurd e hsel
  · exact Or.inl (by rw [e, getLeftChildOf_eq (by omega)])
  · exact Or.inr (by rw [e, getRightChildOf_eq (by omega)])

theorem bubbleDownSwapsFuel_stable (cmp : T → T → Bool) (f₁ f₂ : Nat) (h : Heap T) (i : Nat)
    (hs : h.size < 2 ^ 31) (h₁ : h.size - i ≤ f₁) (h₂ : h.size - i ≤ f₂) :
    bubbleDownSwapsFuel cmp f₁ h i = bubbleDownSwapsFuel cmp f₂ h i := by
  induction f₁ generalizing f₂ h i with
  | zero =>
    rw [bubbleDownSwapsFuel_of_ge cmp _ h (by omega), bubbleDownSwapsFuel_of_ge cmp _ h (by omega)]
  | succ f₁ ih =>
    cases f₂ with
    | zero =>
      rw [bubbleDownSwapsFuel_of_ge cmp _ h (by omega),
        bubbleDownSwapsFuel_of_ge cmp _ h (by omega)]
    | succ f₂ =>
      by_cases hi : i < h.size
      · by_cases hsel : selectChild cmp h i = i
        · rw [(bubbleDownFuel_of_select cmp _ h hsel).2, (bubbleDownFuel_of_select cmp _ h hsel).2]
        · rw [(bubbleDownSwapsFuel_pos cmp f₁ h hi hsel).2,
            (bubbleDownSwapsFuel_pos cmp f₂ h hi hsel).2]
          have hc := (selectChild_child cmp hs hi hsel).1
          rw [ih f₂ _ _ (by rw [swap_size]; exact hs) (by rw [swap_size]; omega)
            (by rw [swap_size]; omega)]
      · rw [bubbleDownSwapsFuel_of_ge cmp _ h (by omega),
          bubbleDownSwapsFuel_of_ge cmp _ h (by omega)]

theorem bubbleDownSwaps_eq_fuel (cmp : T → T → Bool) (fuel : Nat) (h : Heap T) (i : Nat)
    (hs : h.size < 2 ^ 31) (hf : h.size ≤ fuel) :
    bubbleDownSwapsFuel cmp fuel h i = bubbleDownSwaps cmp h i :=
  bubbleDownSwapsFuel_stable cmp _ _ h i hs (by omega) (by omega)

theorem getParentOf_le {i : Nat} (h0 : 0 < i) : getParentOf i ≤ (i - 1) / 2 := by
  unfold getParentOf toUnsigned toSizeT
  omega

theorem log_succ_le_of_double {p i : Nat} (hp : 2 * (p + 1) ≤ i + 1) :
    Nat.log 2 (p + 1) + 1 ≤ Nat.log 2 (i + 1) := by
  have e : Nat.log 2 ((p + 1) * 2) = Nat.log 2 (p + 1) + 1 :=
    Nat.log_mul_base (by omega) (by omega)
  rw [← e]
  exact Nat.log_mono_right (by omega)

theorem bubbleUpSwapsFuel_le_log (cmp : T → T → Bool) (fuel : Nat) (h : Heap T) (i : Nat) :
    bubbleUpSwapsFuel cmp fuel h i ≤ Nat.log 2 (i + 1) := by
  induction fuel generalizing h i with
  | zero => exact Nat.zero_le _
  | succ fuel ih =>
    by_cases hg : i ≤ 0 ∨ i ≥ h.size
    · rw [bubbleUpSwapsFuel_of_ge cmp _ h hg]
      exact Nat.zero_le _
    · have h0 : 0 < i := by omega
      have hk : i < h.size := by omega
      obtain ⟨a, ha⟩ := getValAtPos_isSome hk
      obtain ⟨b, hb⟩ := parent_val_isSome h0 hk
      rw [(bubbleUp_step cmp fuel h h0 hk ha hb).2]
      split
      · have hle := getParentOf_le h0
        have := ih (h.swapElementsAtIndices i (getParentOf i)) (getParentOf i)
        have := log_succ_le_of_double (p := getParentOf i) (i := i) (by omega)
        omega
      · exact Nat.zero_le _

theorem bubbleDownSwapsFuel_le_log (cmp : T → T → Bool) (fuel : Nat) (h : Heap T) (i : Nat)
    (hs : h.size < 2 ^ 31) (hi : i < h.size) :
    bubbleDownSwapsFuel cmp fuel h i + Nat.log 2 (i + 1) ≤ Nat.log 2 h.size := by
  induction fuel generalizing h i with
  | zero =>
    have : Nat.log 2 (i + 1) ≤ Nat.log 2 h.size := Nat.log_mono_right (by omega)
    simpa [bubbleDownSwapsFuel] using this
  | succ fuel ih =>
    by_cases hsel : selectChild cmp h i = i
    · rw [(bubbleDownFuel_of_select cmp _ h hsel).2, Nat.zero_add]
      exact Nat.log_mono_right (by omega)
    · rw [(bubbleDownSwapsFuel_pos cmp fuel h hi hsel).2]
      obtain ⟨hc, hlt⟩ := selectChild_child cmp hs hi hsel
      have h1 := ih (h.swapElementsAtIndices i (selectChild cmp h i)) (selectChild cmp h i)
        (by rw [swap_size]; exact hs) (by rw [swap_size]; exact hlt)
      rw [swap_size] at h1
      have h2 := log_succ_le_of_double (p := i) (i := selectChild cmp h i) (by omega)
      omega

theorem load_val (n : Nat) (l : List T) (i : Nat) : (Heap.load n l).getValAtPos i = l[i]? := by
  unfold Heap.getValAtPos
  rw [load_data]
  cases l[i]? <;> rfl

theorem selectChild_of_right (cmp : T → T → Bool) (h : Heap T) (i : Nat) {a b : T}
    (hl : ¬ getLeftChildOf i < h.size) (hr : getRightChildOf i < h.size)
    (ha : h.getValAtPos (getRightChildOf i) = some a) (hb : h.getValAtPos i = some b)
    (hc : cmp a b = false) : selectChild cmp h i = getRightChildOf i := by
  unfold selectChild
  dsimp only
  rw [if_neg hl, if_pos hr, ha, hb]
  simp [hc]

theorem child_index_wrap :
    getLeftChildOf (2 ^ 31 - 1) = 2 ^ 32 - 1 ∧ getRightChildOf (2 ^ 31 - 1) = 0 := by
  unfold getLeftChildOf getRightChildOf toUnsigned toSizeT
  constructor <;> norm_num

theorem selectChild_wraps :
    selectChild lessInt (Heap.load 0 (List.replicate (2 ^ 31) (0 : Int))) (2 ^ 31 - 1) = 0 := by
  have hsz : (Heap.load 0 (List.replicate (2 ^ 31) (0 : Int))).size = 2 ^ 31 := by
    rw [load_size, List.length_replicate]
  obtain ⟨hl, hr⟩ := child_index_wrap
  have h := selectChild_of_right lessInt (Heap.load 0 (List.replicate (2 ^ 31) (0 : Int)))
    (2 ^ 31 - 1) (a := 0) (b := 0)
    (by rw [hl, hsz]; norm_num) (by rw [hr, hsz]; norm_num)
    (by rw [hr, load_val, List.getElem?_replicate, if_pos (by norm_num)])
    (by rw [load_val, List.getElem?_replicate, if_pos (by norm_num)])
    (by decide)
  rw [hr] at h
  exact h

/-- C26, as worded, fails: in the array of `2^31` zeros, ordered by `std::less`,
    the right child index of position `2^31 - 1` is `2 * (2^31 - 1) + 2 = 2^32`,
    which `getRightChildOf` returns as the `unsigned` value 0.  The root ties
    with the element at `2^31 - 1`, so `bubbleDown(2^31 - 1)` selects position 0,
    swaps, and recurses on the root: not on a strictly larger index. -/
theorem sift_termination_as_worded_fails :
    (Heap.load 0 (List.replicate (2 ^ 31) (0 : Int))).size = 2 ^ 31 ∧
    WF (Heap.load 0 (List.replicate (2 ^ 31) (0 : Int))) ∧
    2 ^ 31 - 1 < (Heap.load 0 (List.replicate (2 ^ 31) (0 : Int))).size ∧
    getRightChildOf (2 ^ 31 - 1) = 0 ∧
    selectChild lessInt (Heap.load 0 (List.replicate (2 ^ 31) (0 : Int))) (2 ^ 31 - 1) = 0 ∧
    selectChild lessInt (Heap.load 0 (List.replicate (2 ^ 31) (0 : Int))) (2 ^ 31 - 1) ≠
      2 ^ 31 - 1 ∧
    (∀ fuel, bubbleDownFuel lessInt (fuel + 1)
        (Heap.load 0 (List.replicate (2 ^ 31) (0 : Int))) (2 ^ 31 - 1) =
      bubbleDownFuel lessInt fuel
        ((Heap.load 0 (List.replicate (2 ^ 31) (0 : Int))).swapElementsAtIndices
          (2 ^ 31 - 1) 0) 0) ∧
    0 < bubbleDownSwaps lessInt (Heap.load 0 (List.replicate (2 ^ 31) (0 : Int)))
      (2 ^ 31 - 1) ∧
    ¬ (2 ^ 31 - 1 <
        selectChild lessInt (Heap.load 0 (List.replicate (2 ^ 31) (0 : Int))) (2 ^ 31 - 1)) := by
  have hsz : (Heap.load 0 (List.replicate (2 ^ 31) (0 : Int))).size = 2 ^ 31 := by
    rw [load_size, List.length_replicate]
  have hi : 2 ^ 31 - 1 < (Heap.load 0 (List.replicate (2 ^ 31) (0 : Int))).size := by
    rw [hsz]
    norm_num
  have hsel := selectChild_wraps
  have hne : selectChild lessInt (Heap.load 0 (List.replicate (2 ^ 31) (0 : Int)))
      (2 ^ 31 - 1) ≠ 2 ^ 31 - 1 := by
    rw [hsel]
    norm_num
  refine ⟨hsz, load_WF 0 _ (by rw [List.length_replicate]; norm_num), hi,
    child_index_wrap.2, hsel, hne, ?_, ?_, ?_⟩
  · intro fuel
    have := (bubbleDownSwapsFuel_pos lessInt fuel _ hi hne).1
    rw [hsel] at this
    exact this
  · unfold bubbleDownSwaps
    obtain ⟨f, hf⟩ : ∃ f, (Heap.load 0 (List.replicate (2 ^ 31) (0 : Int))).size = f + 1 :=
      ⟨2 ^ 31 - 1, by rw [hsz]; norm_num⟩
    rw [hf, (bubbleDownSwapsFuel_pos lessInt f _ hi hne).2]
    exact Nat.succ_pos _
  · rw [hsel]
    exact Nat.not_lt_zero _

/-- C26 (termination of the sift routines): for every array of size `n`, every
    index `i` and every comparator, `bubbleUp(i)` terminates: its recursion never
    uses up the fuel `n` (any larger fuel gives the same heap and the same number
    of swaps), it recurses on the strictly smaller index `parent(i)` and makes
    at most `floor(log2(i + 1))` swaps; for `i ≥ n` both `bubbleUp(i)` and
    `bubbleDown(i)` return at once.  For an array of size `n < 2^31`,
    `bubbleDown(i)` terminates as well: its recursion never uses up the fuel
    `n`, it recurses on a strictly larger index below `n` and makes at most
    `floor(log2(n))` swaps. -/
theorem sift_termination (cmp : T → T → Bool) (h : Heap T) (i : Nat) :
    (∀ fuel, h.size ≤ fuel →
      bubbleUpFuel cmp fuel h i = bubbleUp cmp h i ∧
      bubbleUpSwapsFuel cmp fuel h i = bubbleUpSwaps cmp h i) ∧
    (0 < i → getParentOf i < i) ∧
    bubbleUpSwaps cmp h i ≤ Nat.log 2 (i + 1) ∧
    (h.size ≤ i → bubbleUp cmp h i = h ∧ bubbleDown cmp h i = h ∧
      bubbleUpSwaps cmp h i = 0 ∧ bubbleDownSwaps cmp h i = 0) ∧
    (h.size < 2 ^ 31 →
      (∀ fuel, h.size ≤ fuel →
        bubbleDownFuel cmp fuel h i = bubbleDown cmp h i ∧
        bubbleDownSwapsFuel cmp fuel h i = bubbleDownSwaps cmp h i) ∧
      (i < h.size → selectChild cmp h i ≠ i →
        i < selectChild cmp h i ∧ selectChild cmp h i < h.size) ∧
      bubbleDownSwaps cmp h i ≤ Nat.log 2 h.size) := by
  refine ⟨?_, fun h0 => getParentOf_lt h0, bubbleUpSwapsFuel_le_log cmp _ h i, ?_, ?_⟩
  · intro fuel hf
    exact ⟨bubbleUp_eq_fuel cmp fuel h i hf, bubbleUpSwaps_eq_fuel cmp fuel h i hf⟩
  · intro hge
    exact ⟨bubbleUpFuel_of_ge cmp _ h (Or.inr hge), bubbleDownFuel_of_ge cmp _ h hge,
      bubbleUpSwapsFuel_of_ge cmp _ h (Or.inr hge), bubbleDownSwapsFuel_of_ge cmp _ h hge⟩
  · intro hs
    refine ⟨?_, ?_, ?_⟩
    · intro fuel hf
      exact ⟨bubbleDown_eq_fuel cmp fuel h i hs hf, bubbleDownSwaps_eq_fuel cmp fuel h i hs hf⟩
    · intro hi hsel
      obtain ⟨hc, hlt⟩ := selectChild_child cmp hs hi hsel
      exact ⟨by omega, hlt⟩
    · by_cases hi : i < h.size
      · have := bubbleDownSwapsFuel_le_log cmp h.size h i hs hi
        unfold bubbleDownSwaps
        omega
      · unfold bubbleDownSwaps
        rw [bubbleDownSwapsFuel_of_ge cmp _ h (by omega)]
        exact Nat.zero_le _

theorem sift_termination_witness :
    (Heap.load 0 [3, 5, 2, 5, (4 : Int)]).size < 2 ^ 31 ∧
    bubbleUpSwaps lessInt (Heap.load 0 [3, 5, 2, 5, 4]) 4 ≤ Nat.log 2 (4 + 1) ∧
    bubbleDownSwaps lessInt (Heap.load 0 [3, 5, 2, 5, 4]) 0 ≤
      Nat.log 2 (Heap.load 0 [3, 5, 2, 5, (4 : Int)]).size :=
  ⟨by decide,
    (sift_termination lessInt (Heap.load 0 [3, 5, 2, 5, 4]) 4).2.2.1,
    ((sift_termination lessInt (Heap.load 0 [3, 5, 2, 5, 4]) 0).2.2.2.2 (by decide)).2.2⟩


/-! ## The frame of `insert` -/

theorem onPath_zero (fuel j : Nat) : onPath fuel j 0 = (j == 0) := by
  cases fuel with
  | zero => rfl
  | succ fuel => simp [onPath]

theorem onPath_stable (f₁ f₂ j n : Nat) (h₁ : n ≤ f₁) (h₂ : n ≤ f₂) :
    onPath f₁ j n = onPath f₂ j n := by
  induction f₁ generalizing f₂ n with
  | zero =>
    have : n = 0 := by omega
    subst this
    rw [onPath_zero, onPath_zero]
  | succ f₁ ih =>
    cases f₂ with
    | zero =>
      have : n = 0 := by omega
      subst this
      rw [onPath_zero, onPath_zero]
    | succ f₂ =>
      unfold onPath
      by_cases hn : n = 0
      · subst hn
        simp
      · rw [ih f₂ ((n - 1) / 2) (by omega) (by omega)]

theorem onPath_step {j n : Nat} (hn : 0 < n) (hp : onPath n j n = false) :
    j ≠ n ∧ onPath ((n - 1) / 2) j ((n - 1) / 2) = false := by
  obtain ⟨m, rfl⟩ : ∃ m, n = m + 1 := ⟨n - 1, by omega⟩
  unfold onPath at hp
  simp only [Bool.or_eq_false_iff, beq_eq_false_iff_ne, ne_eq, Bool.and_eq_false_imp,
    bne_iff_ne] at hp
  refine ⟨hp.1, ?_⟩
  have := hp.2 (by omega)
  rw [onPath_stable _ m j _ (le_refl _) (by omega)]
  exact this

theorem onPath_self_ne {j n : Nat} (hp : onPath n j n = false) : j ≠ n := by
  cases n with
  | zero =>
    rw [onPath_zero] at hp
    exact beq_eq_false_iff_ne.mp hp
  | succ m => exact (onPath_step (Nat.succ_pos m) hp).1

theorem iterate_parent_le (t n : Nat) : (fun m => (m - 1) / 2)^[t] n ≤ n - t := by
  induction t with
  | zero => exact le_refl _
  | succ t ih =>
    rw [Function.iterate_succ_apply']
    have : ((fun m => (m - 1) / 2)^[t] n - 1) / 2 ≤ (fun m => (m - 1) / 2)^[t] n - 1 :=
      Nat.div_le_self _ _
    show ((fun m => (m - 1) / 2)^[t] n - 1) / 2 ≤ n - (t + 1)
    omega

theorem onPath_iff_iterate (fuel j n : Nat) :
    onPath fuel j n = true ↔ ∃ t, t ≤ fuel ∧ (fun m => (m - 1) / 2)^[t] n = j := by
  induction fuel generalizing n with
  | zero =>
    unfold onPath
    constructor
    · intro hj
      exact ⟨0, le_refl _, (eq_of_beq hj).symm⟩
    · rintro ⟨t, ht, he⟩
      have : t = 0 := by omega
      subst this
      simpa using he.symm
  | succ fuel ih =>
    unfold onPath
    rw [Bool.or_eq_true, Bool.and_eq_true, ih]
    constructor
    · rintro (hj | ⟨_, t, ht, he⟩)
      · exact ⟨0, Nat.zero_le _, (eq_of_beq hj).symm⟩
      · exact ⟨t + 1, by omega, by rw [Function.iterate_succ_apply]; exact he⟩
    · rintro ⟨t, ht, he⟩
      cases t with
      | zero => exact Or.inl (by simpa using he.symm)
      | succ t =>
        rw [Function.iterate_succ_apply] at he
        by_cases hn : n = 0
        · subst hn
          left
          have h0 := iterate_parent_le t ((0 - 1) / 2)
          have : j = 0 := by
            rw [← he]
            simpa using h0
          simp [this]
        · right
          exact ⟨by simpa using hn, t, by omega, he⟩

theorem onRootPath_iff (j n : Nat) :
    onRootPath j n = true ↔ ∃ t, (fun m => (m - 1) / 2)^[t] n = j := by
  unfold onRootPath
  rw [onPath_iff_iterate]
  constructor
  · rintro ⟨t, _, he⟩
    exact ⟨t, he⟩
  · rintro ⟨t, he⟩
    by_cases ht : t ≤ n
    · exact ⟨t, ht, he⟩
    · refine ⟨n, le_refl _, ?_⟩
      have h1 := iterate_parent_le t n
      have h2 := iterate_parent_le n n
      omega

theorem bubbleUpFuel_frame (cmp : T → T → Bool) (fuel : Nat) (h : Heap T) (k j : Nat)
    (hs : h.size < 2 ^ 32) (hp : onPath k j k = false) :
    (bubbleUpFuel cmp fuel h k).mHeapData[j]? = h.mHeapData[j]? := by
  induction fuel generalizing h k with
  | zero => rfl
  | succ fuel ih =>
    by_cases hg : k ≤ 0 ∨ k ≥ h.size
    · rw [bubbleUpFuel_of_ge cmp _ h hg]
    · have h0 : 0 < k := by omega
      have hk : k < h.size := by omega
      obtain ⟨a, ha⟩ := getValAtPos_isSome hk
      obtain ⟨b, hb⟩ := parent_val_isSome h0 hk
      rw [(bubbleUp_step cmp fuel h h0 hk ha hb).1]
      split
      · obtain ⟨hjk, hpp⟩ := onPath_step h0 hp
        have hpe : getParentOf k = (k - 1) / 2 := getParentOf_eq h0 (by omega)
        rw [hpe, ih _ _ (by rw [swap_size]; exact hs) hpp,
          swap_data h hk (by omega), if_neg hjk, if_neg (onPath_self_ne hpp)]
      · rfl

theorem pushBack_data_ne (h : Heap T) (v : T) {j : Nat} (hj : j ≠ h.size) :
    (h.pushBack v).mHeapData[j]? = h.mHeapData[j]? := by
  unfold Heap.pushBack
  show (h.mHeapData ++ [(v, h.nextNode)])[j]? = h.mHeapData[j]?
  by_cases hlt : j < h.mHeapData.length
  · exact List.getElem?_append_left hlt
  · have h1 : h.mHeapData.length < j := by
      have : j ≠ h.mHeapData.length := hj
      omega
    rw [List.getElem?_eq_none (by simp; omega), List.getElem?_eq_none (by omega)]

theorem insert_data_frame (cmp : T → T → Bool) (h : Heap T) (hs : h.size + 1 < 2 ^ 32) (v : T)
    {j : Nat} (hj : onRootPath j h.size = false) :
    (insert cmp h v).2.mHeapData[j]? = h.mHeapData[j]? := by
  unfold insert
  rw [insertOp_eq]
  show (bubbleUp cmp (h.pushBack v) h.size).mHeapData[j]? = _
  unfold bubbleUp
  rw [bubbleUpFuel_frame cmp _ _ _ _ (by rw [pushBack_size]; exact hs) hj,
    pushBack_data_ne h v (onPath_self_ne hj)]

/-- C23 (insert frame): for a well-formed heap of size `n` with `n + 1 < 2^31`
    and every value `v`, a position `j` that is neither `n` nor an ancestor of
    `n` holds after `insert(v)` the same slot as before, that is the same
    element and the same back-link, and the registry node behind that
    back-link still stores `j`.  Here `j` is `n` or an ancestor of `n` exactly
    when it is reached from `n` by iterating `parent(m) = (m - 1) / 2`, which is
    what `getParentOf` computes on the positions of the heap. -/
theorem insert_frame (cmp : T → T → Bool) {h : Heap T} (w : WF h) (hs : h.size + 1 < 2 ^ 31)
    (v : T) (j : Nat) (hj : onRootPath j h.size = false) :
    (insert cmp h v).2.mHeapData[j]? = h.mHeapData[j]? ∧
    (insert cmp h v).2.getValAtPos j = h.getValAtPos j ∧
    (∀ e, h.mHeapData[j]? = some e →
      nodeGet h.mValPos e.2 = some j ∧ nodeGet (insert cmp h v).2.mValPos e.2 = some j ∧
      get (insert cmp h v).2 ⟨some e.2⟩ = some e.1) ∧
    (∀ j' n', onRootPath j' n' = true ↔ ∃ t, (fun m => (m - 1) / 2)^[t] n' = j') ∧
    (∀ m, 0 < m → m ≤ h.size → getParentOf m = (m - 1) / 2) := by
  have hd := insert_data_frame cmp h (by omega) v hj
  refine ⟨hd, ?_, ?_, onRootPath_iff, fun m h0 hm => getParentOf_eq h0 (by omega)⟩
  · unfold Heap.getValAtPos
    rw [hd]
  · intro e he
    have w' := insert_WF cmp w v
    have hl := w'.link j e (by rw [hd]; exact he)
    refine ⟨w.link j e he, hl, ?_⟩
    unfold get Heap.deref
    show (nodeGet (insert cmp h v).2.mValPos e.2).bind (insert cmp h v).2.getValAtPos = some e.1
    rw [hl]
    show (insert cmp h v).2.getValAtPos j = some e.1
    unfold Heap.getValAtPos
    rw [hd, he]
    rfl

theorem insert_frame_witness :
    (WF (Heap.ofRange greaterInt 0 [3, 5, 2, 5, (4 : Int)]) ∧
      (Heap.ofRange greaterInt 0 [3, 5, 2, 5, (4 : Int)]).size + 1 < 2 ^ 31 ∧
      onRootPath 1 (Heap.ofRange greaterInt 0 [3, 5, 2, 5, (4 : Int)]).size = false) ∧
    (insert greaterInt (Heap.ofRange greaterInt 0 [3, 5, 2, 5, 4]) 1).2.mHeapData[1]? =
      (Heap.ofRange greaterInt 0 [3, 5, 2, 5, (4 : Int)]).mHeapData[1]? :=
  ⟨⟨(Reachable.range 0 [3, 5, 2, 5, 4] (by decide)).wf_bound.1, by decide, by decide⟩,
    (insert_frame greaterInt (Reachable.range 0 [3, 5, 2, 5, 4] (by decide)).wf_bound.1
      (by decide) 1 1 (by decide)).1⟩


/-! ## An inserted element that is not worse than the top -/

theorem bubbleUpFuel_to_root (cmp : T → T → Bool) (fuel : Nat) (g : Heap T) (k : Nat)
    (e : T × Nat) (hf : k < fuel) (he : g.mHeapData[k]? = some e)
    (hall : ∀ j x, j ≠ k → g.getValAtPos j = some x → cmp e.1 x = false) :
    (bubbleUpFuel cmp fuel g k).mHeapData[0]? = some e := by
  induction fuel generalizing g k with
  | zero => omega
  | succ fuel ih =>
    by_cases h0 : k = 0
    · subst h0
      rw [bubbleUpFuel_of_ge cmp _ g (Or.inl (le_refl _))]
      exact he
    · have hpos : 0 < k := by omega
      have ha : g.getValAtPos k = some e.1 := getValAtPos_eq_some.mpr ⟨e.2, he⟩
      have hk : k < g.size := lt_size_of_getValAtPos ha
      obtain ⟨b, hb⟩ := parent_val_isSome hpos hk
      have hlt : getParentOf k < k := getParentOf_lt hpos
      have hab : cmp e.1 b = false := hall _ b (by omega) hb
      rw [(bubbleUp_step cmp fuel g hpos hk ha hb).1, if_pos hab]
      apply ih _ _ (by omega)
      · rw [swap_data g hk (by omega), if_neg (by omega), if_pos rfl]
        exact he
      · intro j x hj hx
        rw [swap_val g hk (by omega)] at hx
        by_cases hjk : j = k
        · rw [if_pos hjk, hb] at hx
          cases hx
          exact hab
        · rw [if_neg hjk, if_neg hj] at hx
          exact hall j x hjk hx

theorem insert_top_of_not_worse (cmp : T → T → Bool) (h : Heap T) (v : T)
    (hall : ∀ j x, h.getValAtPos j = some x → cmp v x = false) :
    (insert cmp h v).2.mHeapData[0]? = some (v, h.nextNode) := by
  unfold insert
  rw [insertOp_eq]
  show (bubbleUp cmp (h.pushBack v) h.size).mHeapData[0]? = _
  unfold bubbleUp
  apply bubbleUpFuel_to_root
  · rw [pushBack_size]
    exact Nat.lt_succ_self _
  · show (h.mHeapData ++ [(v, h.nextNode)])[h.mHeapData.length]? = _
    simp
  · intro j x hj hx
    have hlt : j < (h.pushBack v).size := lt_size_of_getValAtPos hx
    rw [pushBack_size] at hlt
    have hjl : j < h.size := by omega
    rw [pushBack_val_lt h v hjl] at hx
    exact hall j x hx

theorem insert_top_facts (cmp : T → T → Bool) (h : Heap T) (v : T)
    (hall : ∀ j x, h.getValAtPos j = some x → cmp v x = false) :
    topHandle (insert cmp h v).2 = some (insert cmp h v).1 ∧
    top (insert cmp h v).2 = some v ∧
    (∃ th, topHandle (insert cmp h v).2 = some th ∧ th.eq (insert cmp h v).1 = true) := by
  have hd := insert_top_of_not_worse cmp h v hall
  have h1 : (insert cmp h v).1 = ⟨some h.nextNode⟩ := by
    unfold insert
    rw [insertOp_eq]
  have ht : topHandle (insert cmp h v).2 = some (insert cmp h v).1 := by
    unfold topHandle
    rw [hd, h1]
    rfl
  refine ⟨ht, ?_, ⟨_, ht, (Handle.eq_iff _ _).mpr rfl⟩⟩
  unfold top Heap.getValAtPos
  rw [hd]
  rfl

/-- C27 (an inserted element that is not worse than the top becomes the top):
    in a non-empty reachable heap over a strict weak ordering, with `top()`
    returning `t`, if `Compare()(v, t)` is false then after `h = insert(v)` the call
    `topHandle()` returns a handle equal to `h` and `top()` returns `v`; this
    includes a `v` that ties with the old top, so of the elements tied for the
    extremum the one inserted last is on top.  On an empty heap `topHandle()`
    equals the handle returned by `insert` and `top()` is `v` as well. -/
theorem insert_not_worse_becomes_top {cmp : T → T → Bool} (s : StrictWeakOrder cmp)
    {h : Heap T} (r : Reachable cmp h) (v t : T) (ht : top h = some t)
    (hv : cmp v t = false) :
    (topHandle (insert cmp h v).2 = some (insert cmp h v).1 ∧
      top (insert cmp h v).2 = some v ∧
      (∃ th, topHandle (insert cmp h v).2 = some th ∧ th.eq (insert cmp h v).1 = true)) ∧
    (∀ (e : Heap T) (x : T), e.size = 0 →
      topHandle (insert cmp e x).2 = some (insert cmp e x).1 ∧
      top (insert cmp e x).2 = some x ∧
      (∃ th, topHandle (insert cmp e x).2 = some th ∧ th.eq (insert cmp e x).1 = true)) := by
  constructor
  · apply insert_top_facts
    intro j x hx
    exact s.negTrans hv (root_extremal s (r.ordered s) ht j x hx)
  · intro e x he
    apply insert_top_facts
    intro j y hy
    have := lt_size_of_getValAtPos hy
    omega

theorem insert_not_worse_becomes_top_witness :
    (StrictWeakOrder greaterInt ∧
      Reachable greaterInt (Heap.ofRange greaterInt 0 [3, 2, 2, (5 : Int)]) ∧
      0 < (Heap.ofRange greaterInt 0 [3, 2, 2, (5 : Int)]).size ∧
      top (Heap.ofRange greaterInt 0 [3, 2, 2, (5 : Int)]) = some 2 ∧
      greaterInt 2 2 = false) ∧
    topHandle (insert greaterInt (Heap.ofRange greaterInt 0 [3, 2, 2, 5]) 2).2 =
      some (insert greaterInt (Heap.ofRange greaterInt 0 [3, 2, 2, 5]) 2).1 ∧
    top (insert greaterInt (Heap.ofRange greaterInt 0 [3, 2, 2, 5]) 2).2 = some 2 :=
  ⟨⟨greaterInt_strictWeakOrder, Reachable.range 0 [3, 2, 2, 5] (by decide), by decide,
      by decide, by decide⟩,
    (insert_not_worse_becomes_top greaterInt_strictWeakOrder
      (Reachable.range 0 [3, 2, 2, 5] (by decide)) 2 2 (by decide) (by decide)).1.1,
    (insert_not_worse_becomes_top greaterInt_strictWeakOrder
      (Reachable.range 0 [3, 2, 2, 5] (by decide)) 2 2 (by decide) (by decide)).1.2.1⟩


/-! ## Ties between a parent and a child -/

theorem bubbleDownSwaps_eq_zero_iff (cmp : T → T → Bool) (h : Heap T) {i : Nat}
    (hi : i < h.size) : bubbleDownSwaps cmp h i = 0 ↔ selectChild cmp h i = i := by
  unfold bubbleDownSwaps
  obtain ⟨f, hf⟩ : ∃ f, h.size = f + 1 := ⟨h.size - 1, by omega⟩
  rw [hf]
  constructor
  · intro hz
    by_contra hsel
    rw [(bubbleDownSwapsFuel_pos cmp f h hi hsel).2] at hz
    omega
  · intro hsel
    exact (bubbleDownFuel_of_select cmp _ h hsel).2

theorem bubbleDown_after_swap (cmp : T → T → Bool) (h : Heap T) {i : Nat} (hs : h.size < 2 ^ 31)
    (hi : i < h.size) (hsel : selectChild cmp h i ≠ i) :
    (bubbleDown cmp h i).mHeapData[i]? = h.mHeapData[selectChild cmp h i]? := by
  unfold bubbleDown
  obtain ⟨f, hf⟩ : ∃ f, h.size = f + 1 := ⟨h.size - 1, by omega⟩
  obtain ⟨hc, hlt⟩ := selectChild_child cmp hs hi hsel
  rw [hf, (bubbleDownSwapsFuel_pos cmp f h hi hsel).1,
    bubbleDownFuel_frame cmp f _ _ (by rw [swap_size]; exact hs) i (by omega),
    swap_data h hi hlt, if_pos rfl]

theorem bubbleDown_changes (cmp : T → T → Bool) {h : Heap T} (w : WF h) {i : Nat}
    (hs : h.size < 2 ^ 31) (hi : i < h.size) (hsel : selectChild cmp h i ≠ i) :
    (bubbleDown cmp h i).mHeapData ≠ h.mHeapData ∧
      (bubbleDown cmp h i).mValPos ≠ h.mValPos := by
  obtain ⟨hc, hlt⟩ := selectChild_child cmp hs hi hsel
  have hd := bubbleDown_after_swap cmp h hs hi hsel
  obtain ⟨e, he⟩ : ∃ e, h.mHeapData[selectChild cmp h i]? = some e :=
    ⟨h.mHeapData[selectChild cmp h i], List.getElem?_eq_getElem hlt⟩
  rw [he] at hd
  have w' : WF (bubbleDown cmp h i) := (bubbleDown_shuffled cmp h i).wf w
  have l1 := w'.link i e hd
  have l2 := w.link _ e he
  constructor
  · intro heq
    rw [heq] at hd
    exact hsel (w.link_inj he hd rfl)
  · intro heq
    rw [heq, l2] at l1
    exact hsel (Option.some.inj l1)

theorem bubbleUpSwaps_eq_zero_iff (cmp : T → T → Bool) (h : Heap T) {i : Nat} (h0 : 0 < i)
    (hi : i < h.size) {a b : T} (ha : h.getValAtPos i = some a)
    (hb : h.getValAtPos (getParentOf i) = some b) :
    (bubbleUpSwaps cmp h i = 0 ↔ cmp a b = true) ∧
      (cmp a b = true → bubbleUp cmp h i = h) := by
  unfold bubbleUpSwaps bubbleUp
  obtain ⟨f, hf⟩ : ∃ f, h.size = f + 1 := ⟨h.size - 1, by omega⟩
  rw [hf, (bubbleUp_step cmp f h h0 hi ha hb).1, (bubbleUp_step cmp f h h0 hi ha hb).2]
  cases cmp a b <;> simp

/-- C21 (tie-break policy of the code): for a well-formed heap of size below
    `2^31` and a position `i` holding `x`, `bubbleDown(i)` makes no swap exactly
    when `Compare()(y, x)` is true for the element `y` of every existing child
    of `i`, and then it leaves the heap as it is.  When a child holds a `y`
    with `Compare()(y, x)` false, in particular when `y` and `x` compare as
    equal, `bubbleDown(i)` swaps and both the array and the registry change.
    Likewise `bubbleUp(i)` makes no swap exactly when `Compare()(x, b)` is true
    for the element `b` of the parent, so it swaps on a tie. -/
theorem tie_break_policy (cmp : T → T → Bool) {h : Heap T} (w : WF h) (hs : h.size < 2 ^ 31)
    {i : Nat} (hi : i < h.size) {x : T} (hx : h.getValAtPos i = some x) :
    (bubbleDownSwaps cmp h i = 0 ↔
      ∀ j y, (j = 2 * i + 1 ∨ j = 2 * i + 2) → h.getValAtPos j = some y → cmp y x = true) ∧
    (bubbleDownSwaps cmp h i = 0 → bubbleDown cmp h i = h) ∧
    (∀ j y, (j = 2 * i + 1 ∨ j = 2 * i + 2) → h.getValAtPos j = some y → cmp y x = false →
      0 < bubbleDownSwaps cmp h i ∧ (bubbleDown cmp h i).mHeapData ≠ h.mHeapData ∧
        (bubbleDown cmp h i).mValPos ≠ h.mValPos) ∧
    (0 < i → ∀ b, h.getValAtPos (getParentOf i) = some b →
      (bubbleUpSwaps cmp h i = 0 ↔ cmp x b = true) ∧
      (cmp x b = true → bubbleUp cmp h i = h) ∧
      (cmp x b = false → cmp b x = false → 0 < bubbleUpSwaps cmp h i)) := by
  have hz := bubbleDownSwaps_eq_zero_iff cmp h hi
  have hsel := selectChild_eq_self_iff cmp hs hi hx
  refine ⟨hz.trans hsel, ?_, ?_, ?_⟩
  · intro h0
    exact (bubbleDownFuel_of_select cmp _ h (hz.mp h0)).1
  · intro j y hj hy hc
    have hne : selectChild cmp h i ≠ i := by
      intro he
      have := hsel.mp he j y hj hy
      rw [hc] at this
      cases this
    have hpos : 0 < bubbleDownSwaps cmp h i := by
      rcases Nat.eq_zero_or_pos (bubbleDownSwaps cmp h i) with e | e
      · exact absurd (hz.mp e) hne
      · exact e
    exact ⟨hpos, bubbleDown_changes cmp w hs hi hne⟩
  · intro h0 b hb
    obtain ⟨h1, h2⟩ := bubbleUpSwaps_eq_zero_iff cmp h h0 hi hx hb
    refine ⟨h1, h2, ?_⟩
    intro hc _
    rcases Nat.eq_zero_or_pos (bubbleUpSwaps cmp h i) with e | e
    · have := h1.mp e
      rw [hc] at this
      cases this
    · exact e

theorem tie_break_policy_witness :
    (WF (insertAll lessInt (Heap.mkEmpty 0) [5, 5]).2 ∧
      (insertAll lessInt (Heap.mkEmpty 0) [5, 5]).2.size < 2 ^ 31 ∧
      0 < (insertAll lessInt (Heap.mkEmpty 0) [5, 5]).2.size ∧
      (insertAll lessInt (Heap.mkEmpty 0) [5, 5]).2.getValAtPos 0 = some 5) ∧
    (bubbleDownSwaps lessInt (insertAll lessInt (Heap.mkEmpty 0) [5, 5]).2 0 = 0 ↔
      ∀ j y, (j = 2 * 0 + 1 ∨ j = 2 * 0 + 2) →
        (insertAll lessInt (Heap.mkEmpty 0) [5, 5]).2.getValAtPos j = some y →
        lessInt y 5 = true) :=
  ⟨⟨(insertAll_reachable lessInt [5, 5] (Reachable.empty 0) (by decide)).wf_bound.1,
      by decide, by decide, by decide⟩,
    (tie_break_policy lessInt
      (insertAll_reachable lessInt [5, 5] (Reachable.empty 0) (by decide)).wf_bound.1
      (by decide) (by decide) (by decide)).1⟩

/-- C21, as worded, fails: in the max-heap obtained by inserting 5 and 5, the
    root and its only child compare as equal and no child is strictly better
    than the root, yet `bubbleDown(0)` swaps once and changes both the array
    and the registry. -/
theorem tie_break_as_worded_fails :
    Reachable lessInt (insertAll lessInt (Heap.mkEmpty 0) [5, 5]).2 ∧
    (insertAll lessInt (Heap.mkEmpty 0) [5, 5]).2.getValAtPos 0 = some 5 ∧
    (insertAll lessInt (Heap.mkEmpty 0) [5, 5]).2.getValAtPos 1 = some 5 ∧
    (insertAll lessInt (Heap.mkEmpty 0) [5, 5]).2.getValAtPos 2 = none ∧
    lessInt 5 5 = false ∧
    bubbleDownSwaps lessInt (insertAll lessInt (Heap.mkEmpty 0) [5, 5]).2 0 = 1 ∧
    (insertAll lessInt (Heap.mkEmpty 0) [5, 5]).2.mHeapData = [(5, 1), (5, 0)] ∧
    (bubbleDown lessInt (insertAll lessInt (Heap.mkEmpty 0) [5, 5]).2 0).mHeapData =
      [(5, 0), (5, 1)] ∧
    (insertAll lessInt (Heap.mkEmpty 0) [5, 5]).2.mValPos = [(0, 1), (1, 0)] ∧
    (bubbleDown lessInt (insertAll lessInt (Heap.mkEmpty 0) [5, 5]).2 0).mValPos =
      [(0, 0), (1, 1)] ∧
    ¬ (bubbleDownSwaps lessInt (insertAll lessInt (Heap.mkEmpty 0) [5, 5]).2 0 = 0 ∧
        (bubbleDown lessInt (insertAll lessInt (Heap.mkEmpty 0) [5, 5]).2 0).mHeapData =
          (insertAll lessInt (Heap.mkEmpty 0) [5, 5]).2.mHeapData ∧
        (bubbleDown lessInt (insertAll lessInt (Heap.mkEmpty 0) [5, 5]).2 0).mValPos =
          (insertAll lessInt (Heap.mkEmpty 0) [5, 5]).2.mValPos) :=
  ⟨insertAll_reachable lessInt [5, 5] (Reachable.empty 0) (by decide),
    by decide, by decide, by decide, by decide, by decide, by decide, by decide, by decide,
    by decide, by decide⟩


/-! ## The second sift pass of `update` -/

theorem sameUpToTies_refl {cmp : T → T → Bool} (s : StrictWeakOrder cmp) (g : Heap T) :
    SameUpToTies cmp g g := by
  refine ⟨rfl, ?_⟩
  intro m x y hx hy
  rw [hx] at hy
  cases hy
  exact ⟨s.irrefl x, s.irrefl x⟩

theorem sameUpToTies_trans {cmp : T → T → Bool} (s : StrictWeakOrder cmp) {g₁ g₂ g₃ : Heap T}
    (a : SameUpToTies cmp g₁ g₂) (b : SameUpToTies cmp g₂ g₃) : SameUpToTies cmp g₁ g₃ := by
  refine ⟨b.1.trans a.1, ?_⟩
  intro m x z hx hz
  have hm : m < g₂.size := by
    rw [a.1]
    exact lt_size_of_getValAtPos hx
  obtain ⟨y, hy⟩ := getValAtPos_isSome hm
  obtain ⟨h1, h2⟩ := a.2 m x y hx hy
  obtain ⟨h3, h4⟩ := b.2 m y z hy hz
  exact ⟨s.negTrans h1 h3, s.negTrans h4 h2⟩

theorem sameUpToTies_ordered {cmp : T → T → Bool} (s : StrictWeakOrder cmp) {g g' : Heap T}
    (t : SameUpToTies cmp g g') (ho : HeapOrdered cmp g) : HeapOrdered cmp g' := by
  intro i h0 a' b' ha' hb'
  have hi : i < g.size := by
    rw [← t.1]
    exact lt_size_of_getValAtPos hb'
  have hp : (i - 1) / 2 < g.size := by omega
  obtain ⟨a, ha⟩ := getValAtPos_isSome hp
  obtain ⟨b, hb⟩ := getValAtPos_isSome hi
  have hab := ho i h0 a b ha hb
  obtain ⟨_, h2⟩ := t.2 _ a a' ha ha'
  obtain ⟨h3, _⟩ := t.2 _ b b' hb hb'
  exact s.negTrans (s.negTrans h2 hab) h3

theorem swap_ties {cmp : T → T → Bool} (s : StrictWeakOrder cmp) (g : Heap T) {k p : Nat}
    (hk : k < g.size) (hp : p < g.size) {a b : T} (ha : g.getValAtPos k = some a)
    (hb : g.getValAtPos p = some b) (hab : cmp a b = false) (hba : cmp b a = false) :
    SameUpToTies cmp g (g.swapElementsAtIndices k p) := by
  refine ⟨swap_size g k p, ?_⟩
  intro m x y hx hy
  rw [swap_val g hk hp] at hy
  by_cases hmk : m = k
  · subst hmk
    rw [if_pos rfl, hb] at hy
    rw [ha] at hx
    cases hx
    cases hy
    exact ⟨hab, hba⟩
  · rw [if_neg hmk] at hy
    by_cases hmp : m = p
    · subst hmp
      rw [if_pos rfl, ha] at hy
      rw [hb] at hx
      cases hx
      cases hy
      exact ⟨hba, hab⟩
    · rw [if_neg hmp, hx] at hy
      cases hy
      exact ⟨s.irrefl x, s.irrefl x⟩

theorem bubbleUpFuel_ties {cmp : T → T → Bool} (s : StrictWeakOrder cmp) (fuel : Nat)
    (g : Heap T) (k : Nat) (hs : g.size < 2 ^ 32) (ho : HeapOrdered cmp g) :
    SameUpToTies cmp g (bubbleUpFuel cmp fuel g k) := by
  induction fuel generalizing g k with
  | zero => exact sameUpToTies_refl s g
  | succ fuel ih =>
    by_cases hg : k ≤ 0 ∨ k ≥ g.size
    · rw [bubbleUpFuel_of_ge cmp _ g hg]
      exact sameUpToTies_refl s g
    · have h0 : 0 < k := by omega
      have hk : k < g.size := by omega
      obtain ⟨a, ha⟩ := getValAtPos_isSome hk
      obtain ⟨b, hb⟩ := parent_val_isSome h0 hk
      have hlt : getParentOf k < k := getParentOf_lt h0
      rw [(bubbleUp_step cmp fuel g h0 hk ha hb).1]
      split
      · rename_i hab
        have hpe : getParentOf k = (k - 1) / 2 := getParentOf_eq h0 (by omega)
        have hba : cmp b a = false := ho k h0 b a (by rw [← hpe]; exact hb) ha
        have t1 := swap_ties s g hk (by omega) ha hb hab hba
        exact sameUpToTies_trans s t1
          (ih _ _ (by rw [swap_size]; exact hs) (sameUpToTies_ordered s t1 ho))
      · exact sameUpToTies_refl s g

theorem bubbleUpSwaps_pos_iff (cmp : T → T → Bool) (h : Heap T) (i : Nat) :
    0 < bubbleUpSwaps cmp h i ↔
      0 < i ∧ ∃ a b, h.getValAtPos i = some a ∧ h.getValAtPos (getParentOf i) = some b ∧
        cmp a b = false := by
  by_cases hg : i ≤ 0 ∨ i ≥ h.size
  · unfold bubbleUpSwaps
    rw [bubbleUpSwapsFuel_of_ge cmp _ h hg]
    constructor
    · intro hc
      omega
    · rintro ⟨h0, a, b, ha, _, _⟩
      have := lt_size_of_getValAtPos ha
      omega
  · have h0 : 0 < i := by omega
    have hi : i < h.size := by omega
    obtain ⟨a, ha⟩ := getValAtPos_isSome hi
    obtain ⟨b, hb⟩ := parent_val_isSome h0 hi
    have hz := (bubbleUpSwaps_eq_zero_iff cmp h h0 hi ha hb).1
    constructor
    · intro hpos
      refine ⟨h0, a, b, ha, hb, ?_⟩
      cases hc : cmp a b with
      | false => rfl
      | true =>
        have := hz.mpr hc
        omega
    · rintro ⟨_, a', b', ha', hb', hc⟩
      rw [ha] at ha'
      rw [hb] at hb'
      cases ha'
      cases hb'
      rcases Nat.eq_zero_or_pos (bubbleUpSwaps cmp h i) with e | e
      · have := hz.mp e
        rw [hc] at this
        cases this
      · exact e

theorem bubbleDown_ordered_of_swap {cmp : T → T → Bool} (s : StrictWeakOrder cmp) {h : Heap T}
    (ho : HeapOrdered cmp h) (hs : h.size < 2 ^ 31) {pos : Nat} (hp : pos < h.size) (v : T)
    (it : Nat) (hsel : selectChild cmp (h.assign pos v it) pos ≠ pos) :
    HeapOrdered cmp (bubbleDown cmp (h.assign pos v it) pos) := by
  have hsz : (h.assign pos v it).size = h.size := assign_size h pos v it
  have hs' : (h.assign pos v it).size < 2 ^ 31 := by rw [hsz]; exact hs
  have hp' : pos < (h.assign pos v it).size := by rw [hsz]; exact hp
  have inv : DownInv cmp 0 (h.assign pos v it) pos :=
    downInv_of_modified s ho hp (fun j b hj hb => by rw [assign_val_other h v it hj] at hb; exact hb)
  have up := bubbleDown_upInv s (h.assign pos v it) pos hs' inv
  obtain ⟨hc, hlt⟩ := selectChild_child cmp hs' hp' hsel
  rw [hsz] at hlt
  intro j h0
  by_cases hj : j = pos
  · subst hj
    intro a b ha hb
    have hd := bubbleDown_after_swap cmp (h.assign j v it) hs' hp' hsel
    have hvb : (bubbleDown cmp (h.assign j v it) j).getValAtPos j =
        h.getValAtPos (selectChild cmp (h.assign j v it) j) := by
      rw [← assign_val_other h v it (by omega : selectChild cmp (h.assign j v it) j ≠ j)]
      unfold Heap.getValAtPos
      rw [hd]
    have hva : (bubbleDown cmp (h.assign j v it) j).getValAtPos ((j - 1) / 2) =
        h.getValAtPos ((j - 1) / 2) := by
      rw [← assign_val_other h v it (by omega : (j - 1) / 2 ≠ j)]
      unfold Heap.getValAtPos bubbleDown
      rw [bubbleDownFuel_frame cmp _ _ _ hs' _ (by omega)]
    rw [hvb] at hb
    rw [hva] at ha
    obtain ⟨old, hold⟩ := getValAtPos_isSome hp
    have h1 := ho j h0 a old ha hold
    have h2 := ho (selectChild cmp (h.assign j v it) j) (by omega) old b
      (by
        have e : (selectChild cmp (h.assign j v it) j - 1) / 2 = j := by omega
        rw [e]
        exact hold) hb
    exact s.negTrans h1 h2
  · exact up.1 j h0 hj

/-- C22, as worded, fails: in the max-heap built from the range 5, 5, 1, 5 the
    handle `⟨some 1⟩` sits at position 1; updating its element to 0 makes
    `bubbleDown(1)` swap once (with the 5 at position 3) and the following
    `bubbleUp(1)` swap once more (the 5 now at position 1 ties with the 5 at the
    root), so both passes change the array. -/
theorem update_one_direction_as_worded_fails :
    Reachable lessInt (Heap.ofRange lessInt 0 [5, 5, 1, 5]) ∧
    (Heap.ofRange lessInt 0 [5, 5, 1, 5]).elems = [5, 5, 1, 5] ∧
    (Heap.ofRange lessInt 0 [5, 5, 1, 5]).live ⟨some 1⟩ ∧
    (Heap.ofRange lessInt 0 [5, 5, 1, 5]).deref ⟨some 1⟩ = some 1 ∧
    (Heap.ofRange lessInt 0 [5, 5, 1, 5]).mHeapData[1]? = some (5, 1) ∧
    (update lessInt (Heap.ofRange lessInt 0 [5, 5, 1, 5]) ⟨some 1⟩ 0).map Heap.elems =
      some (bubbleUp lessInt
        (bubbleDown lessInt ((Heap.ofRange lessInt 0 [5, 5, 1, 5]).assign 1 0 1) 1) 1).elems ∧
    ((Heap.ofRange lessInt 0 [5, 5, 1, 5]).assign 1 0 1).mHeapData =
      [(5, 3), (0, 1), (1, 2), (5, 0)] ∧
    bubbleDownSwaps lessInt ((Heap.ofRange lessInt 0 [5, 5, 1, 5]).assign 1 0 1) 1 = 1 ∧
    (bubbleDown lessInt ((Heap.ofRange lessInt 0 [5, 5, 1, 5]).assign 1 0 1) 1).mHeapData =
      [(5, 3), (5, 0), (1, 2), (0, 1)] ∧
    bubbleUpSwaps lessInt
      (bubbleDown lessInt ((Heap.ofRange lessInt 0 [5, 5, 1, 5]).assign 1 0 1) 1) 1 = 1 ∧
    (bubbleUp lessInt
      (bubbleDown lessInt ((Heap.ofRange lessInt 0 [5, 5, 1, 5]).assign 1 0 1) 1) 1).mHeapData =
      [(5, 0), (5, 3), (1, 2), (0, 1)] ∧
    ¬ (0 < bubbleDownSwaps lessInt ((Heap.ofRange lessInt 0 [5, 5, 1, 5]).assign 1 0 1) 1 →
        bubbleUpSwaps lessInt
          (bubbleDown lessInt ((Heap.ofRange lessInt 0 [5, 5, 1, 5]).assign 1 0 1) 1) 1 = 0) :=
  ⟨Reachable.range 0 [5, 5, 1, 5] (by decide), by decide, by decide, by decide, by decide,
    by decide, by decide, by decide, by decide, by decide, by decide, by decide⟩

/-- C22 (the second sift pass of `update`): for a well-formed heap of size below
    `2^31` that satisfies the binary-heap property over a strict weak ordering, a
    live handle at position `pos` and a value `v`, `update` assigns `v` at `pos`
    and runs `bubbleDown(pos)` and then `bubbleUp(pos)`.  If `bubbleDown(pos)`
    performs a swap, the heap satisfies the binary-heap property already after
    that pass, and the following `bubbleUp(pos)` exchanges only elements that
    compare as equal: afterwards every position holds an element that ties with
    the one it held before the pass.  It performs a swap exactly when `pos` is
    not the root and the element at `pos` ties with the element of its parent. -/
theorem update_second_pass_only_ties {cmp : T → T → Bool} (s : StrictWeakOrder cmp)
    {h : Heap T} (w : WF h) (ho : HeapOrdered cmp h) (hs : h.size < 2 ^ 31) {hd : Handle}
    (hl : h.live hd) (v : T) :
    ∃ it old pos, hd = ⟨some it⟩ ∧ h.deref hd = some pos ∧
      h.mHeapData[pos]? = some (old, it) ∧
      update cmp h hd v =
        some (bubbleUp cmp (bubbleDown cmp (h.assign pos v it) pos) pos) ∧
      (0 < bubbleDownSwaps cmp (h.assign pos v it) pos →
        HeapOrdered cmp (bubbleDown cmp (h.assign pos v it) pos) ∧
        SameUpToTies cmp (bubbleDown cmp (h.assign pos v it) pos)
          (bubbleUp cmp (bubbleDown cmp (h.assign pos v it) pos) pos) ∧
        (0 < bubbleUpSwaps cmp (bubbleDown cmp (h.assign pos v it) pos) pos ↔
          0 < pos ∧ ∃ a b,
            (bubbleDown cmp (h.assign pos v it) pos).getValAtPos pos = some a ∧
            (bubbleDown cmp (h.assign pos v it) pos).getValAtPos ((pos - 1) / 2) = some b ∧
            cmp a b = false ∧ cmp b a = false)) := by
  obtain ⟨it, old, pos, rfl, hp, hu⟩ := update_facts cmp w hl v
  have hlink := w.link pos (old, it) hp
  have hpos : pos < h.size := by
    have := (List.getElem?_eq_some_iff.mp hp).1
    exact this
  refine ⟨it, old, pos, rfl, hlink, hp, hu, ?_⟩
  intro hsw
  have hsz : (h.assign pos v it).size = h.size := assign_size h pos v it
  have hsel : selectChild cmp (h.assign pos v it) pos ≠ pos := by
    intro he
    have := (bubbleDownSwaps_eq_zero_iff cmp (h.assign pos v it) (by rw [hsz]; exact hpos)).mpr he
    omega
  have hord := bubbleDown_ordered_of_swap s ho hs hpos v it hsel
  have hsz' : (bubbleDown cmp (h.assign pos v it) pos).size = h.size := by
    rw [(bubbleDown_shuffled cmp _ pos).size_eq, hsz]
  refine ⟨hord, bubbleUpFuel_ties s _ _ _ (by rw [hsz']; omega) hord, ?_⟩
  rw [bubbleUpSwaps_pos_iff]
  constructor
  · rintro ⟨h0, a, b, ha, hb, hab⟩
    have hpe : getParentOf pos = (pos - 1) / 2 := getParentOf_eq h0 (by omega)
    rw [hpe] at hb
    exact ⟨h0, a, b, ha, hb, hab, hord pos h0 b a hb ha⟩
  · rintro ⟨h0, a, b, ha, hb, hab, _⟩
    have hpe : getParentOf pos = (pos - 1) / 2 := getParentOf_eq h0 (by omega)
    exact ⟨h0, a, b, ha, by rw [hpe]; exact hb, hab⟩

theorem update_second_pass_only_ties_witness :
    (StrictWeakOrder lessInt ∧ WF (Heap.ofRange lessInt 0 [5, 5, 1, 5]) ∧
      HeapOrdered lessInt (Heap.ofRange lessInt 0 [5, 5, 1, 5]) ∧
      (Heap.ofRange lessInt 0 [5, 5, 1, 5]).size < 2 ^ 31 ∧
      (Heap.ofRange lessInt 0 [5, 5, 1, 5]).live ⟨some 1⟩) ∧
    ∃ it old pos, (⟨some 1⟩ : Handle) = ⟨some it⟩ ∧
      (Heap.ofRange lessInt 0 [5, 5, 1, 5]).deref ⟨some 1⟩ = some pos ∧
      (Heap.ofRange lessInt 0 [5, 5, 1, 5]).mHeapData[pos]? = some (old, it) ∧
      update lessInt (Heap.ofRange lessInt 0 [5, 5, 1, 5]) ⟨some 1⟩ 0 =
        some (bubbleUp lessInt
          (bubbleDown lessInt ((Heap.ofRange lessInt 0 [5, 5, 1, 5]).assign pos 0 it) pos) pos) ∧
      (0 < bubbleDownSwaps lessInt ((Heap.ofRange lessInt 0 [5, 5, 1, 5]).assign pos 0 it) pos →
        HeapOrdered lessInt
          (bubbleDown lessInt ((Heap.ofRange lessInt 0 [5, 5, 1, 5]).assign pos 0 it) pos) ∧
        SameUpToTies lessInt
          (bubbleDown lessInt ((Heap.ofRange lessInt 0 [5, 5, 1, 5]).assign pos 0 it) pos)
          (bubbleUp lessInt
            (bubbleDown lessInt ((Heap.ofRange lessInt 0 [5, 5, 1, 5]).assign pos 0 it) pos)
            pos)) :=
  ⟨⟨lessInt_strictWeakOrder, (Reachable.range 0 [5, 5, 1, 5] (by decide)).wf_bound.1,
      (Reachable.range 0 [5, 5, 1, 5] (by decide)).ordered lessInt_strictWeakOrder,
      by decide, by decide⟩,
    (update_second_pass_only_ties lessInt_strictWeakOrder
      (Reachable.range 0 [5, 5, 1, 5] (by decide)).wf_bound.1
      ((Reachable.range 0 [5, 5, 1, 5] (by decide)).ordered lessInt_strictWeakOrder)
      (by decide) (by decide) 0).imp
      (fun _ hx => hx.imp (fun _ hy => hy.imp (fun _ hz =>
        ⟨hz.1, hz.2.1, hz.2.2.1, hz.2.2.2.1,
          fun hsw => ⟨(hz.2.2.2.2 hsw).1, (hz.2.2.2.2 hsw).2.1⟩⟩)))⟩


end HeapModel
